import Mathlib

/-!
Shallow embedding of the linker core of this repository:
`src/lld/ELF/SymbolTable.cpp` (symbol handle table, version-script
scanning) and `src/lld/ELF/CallGraphSort.cpp` (call-chain clustering).

Modelling conventions:
* symbol names are lists of characters;
* `Symbol *` handles become indices into the table's `symVector`;
* machine integers become `Nat`, with explicit `% 2 ^ 64` where the
  source performs `uint64_t` arithmetic that may wrap;
* functions that live outside `src/` (the glob matcher
  `SingleStringMatcher`, `demangleItanium`) are passed in as explicit
  function parameters bundled in `Ext`;
* diagnostics (`warn`, `errorOrWarn`) become structured `Diag` values
  accumulated in a list; the source renders them to message strings.
-/

namespace LldElf

/-- `VER_NDX_LOCAL` from the ELF specification. -/
def VER_NDX_LOCAL : Nat := 0

/-- `VER_NDX_GLOBAL` from the ELF specification. -/
def VER_NDX_GLOBAL : Nat := 1

/-- The sentinel `UINT32_C(-1)` marking a not-yet-assigned `verdefIndex`. -/
def VERDEF_UNSET : Nat := 4294967295

/-- Symbol names, `StringRef` in the source. -/
abbrev Name := List Char

/-- `StringRef::find('@')`: index of the first `'@'`, `none` for `npos`. -/
def firstAt : Name → Option Nat
  | [] => none
  | c :: rest => if c == '@' then some 0 else (firstAt rest).map (· + 1)

/-- The condition tested at the top of `SymbolTable::insert` (and, negated,
by the `check` closure of `findAllByVersion` with `includeNonDefault`):
the first `'@'` of the name exists and is immediately followed by a second
`'@'` that is still inside the string
(`pos != npos && pos + 1 < name.size() && name[pos + 1] == '@'`). -/
def hasDefaultSuffix (s : Name) : Bool :=
  match firstAt s with
  | none => false
  | some pos => decide (pos + 1 < s.length) && (s.getD (pos + 1) 'x' == '@')

/-- The name normalisation at the top of `SymbolTable::insert`:
strip a literal `@@<version>` default-version suffix
(`name = name.take_front(pos)`). -/
def stripDefault (s : Name) : Name :=
  match firstAt s with
  | none => s
  | some pos =>
    if decide (pos + 1 < s.length) && (s.getD (pos + 1) 'x' == '@') then s.take pos else s

/-- `StringRef::contains('@')`. -/
def hasAt (s : Name) : Bool := s.any (· == '@')

/-- `Symbol::symbolKind` (`Symbols.h`). -/
inductive SymbolKind
  | PlaceholderKind
  | DefinedKind
  | CommonKind
  | SharedKind
  | UndefinedKind
  | LazyArchiveKind
  | LazyObjectKind
deriving DecidableEq, Repr

/-- One canonical symbol record (the fields of `SymbolUnion` that this
core reads or writes).  `verdefIndex` is left uninitialised by the
placeholder constructor in the source; every real symbol carries the
unset sentinel before version assignment, so the placeholder is modelled
with that sentinel (no claim inspects a placeholder's `verdefIndex`). -/
structure Symbol where
  name : Name
  symbolKind : SymbolKind
  versionId : Nat
  verdefIndex : Nat
  visibility : Nat
  isUsedInRegularObj : Bool
  exportDynamic : Bool
  inDynamicList : Bool
  canInline : Bool
  referenced : Bool
  traced : Bool
  scriptDefined : Bool
  partition : Nat
deriving DecidableEq, Repr

instance : Inhabited Symbol :=
  ⟨⟨[], .PlaceholderKind, VER_NDX_GLOBAL, VERDEF_UNSET, 0,
    false, false, false, true, false, false, false, 1⟩⟩

/-- `Symbol::isDefined()`. -/
def Symbol.isDefined (s : Symbol) : Bool := s.symbolKind == .DefinedKind

/-- `Symbol::isCommon()`. -/
def Symbol.isCommon (s : Symbol) : Bool := s.symbolKind == .CommonKind

/-- `Symbol::isLazy()`. -/
def Symbol.isLazy (s : Symbol) : Bool :=
  s.symbolKind == .LazyArchiveKind || s.symbolKind == .LazyObjectKind

/-- `Symbol::isUndefined()`. -/
def Symbol.isUndefined (s : Symbol) : Bool := s.symbolKind == .UndefinedKind

/-- `Symbol::isPlaceholder()`. -/
def Symbol.isPlaceholder (s : Symbol) : Bool := s.symbolKind == .PlaceholderKind

/-- The `SymbolTable`: the name index `symMap`
(`DenseMap<CachedHashStringRef, int>`, modelled as an association list
whose keys are unique) and the arena `symVector` of canonical records.
An `int` handle is an index into `symVector`. -/
structure SymbolTable where
  symMap : List (Name × Nat)
  symVector : List Symbol
deriving DecidableEq, Repr

/-- `DenseMap::find`: look a name up in the index. -/
def lookupName (m : List (Name × Nat)) (k : Name) : Option Nat :=
  (m.find? (fun p => p.1 == k)).map (·.2)

/-- Overwrite the value stored under an existing key
(`int &idx = symMap[key]; idx = v;` for a present key). -/
def mapSet (m : List (Name × Nat)) (k : Name) (v : Nat) : List (Name × Nat) :=
  m.map (fun p => if p.1 == k then (p.1, v) else p)

/-- The placeholder record allocated by `SymbolTable::insert` on a miss:
not exported, not used, not referenced, version `VER_NDX_GLOBAL`,
default visibility, partition 1, inlineable. -/
def placeholderSym (nm : Name) : Symbol :=
  { name := nm
    symbolKind := .PlaceholderKind
    versionId := VER_NDX_GLOBAL
    verdefIndex := VERDEF_UNSET
    visibility := 0
    isUsedInRegularObj := false
    exportDynamic := false
    inDynamicList := false
    canInline := true
    referenced := false
    traced := false
    scriptDefined := false
    partition := 1 }

/-- `SymbolTable::insert`: strip a `@@` default-version suffix, look the
normalized name up; on a miss allocate a fresh placeholder whose handle is
its insertion index (`symVector.size()`); on a hit return the existing
handle.  Returns the handle together with the updated table. -/
def SymbolTable.insert (st : SymbolTable) (nm : Name) : Nat × SymbolTable :=
  let nm := stripDefault nm
  match lookupName st.symMap nm with
  | some idx => (idx, st)
  | none =>
    let idx := st.symVector.length
    (idx, { symMap := st.symMap ++ [(nm, idx)]
            symVector := st.symVector ++ [placeholderSym nm] })

/-- `SymbolTable::find`: exact lookup of the given name (no suffix
stripping); a handle whose record is still a placeholder is reported as
not found (`nullptr`). -/
def SymbolTable.find (st : SymbolTable) (nm : Name) : Option Nat :=
  match lookupName st.symMap nm with
  | none => none
  | some idx =>
    match st.symVector.get? idx with
    | none => none
    | some s => if s.isPlaceholder then none else some idx

/-- Dereference a handle. -/
def SymbolTable.getSym (st : SymbolTable) (h : Nat) : Symbol :=
  st.symVector.getD h default

/-- `SymbolTable::wrap(sym, real, wrap)`, with the three `Symbol *`
arguments given as handles.  The source takes references
`idx1,idx2,idx3` into `symMap` under the three records' names (the
driver has inserted all three before calling, so the keys are present),
performs `idx2 = idx1; idx1 = idx3;`, then propagates flags into `sym`'s
record and finally `memcpy`s `sym`'s record over `real`'s record,
clearing the copy's used-in-regular-object flag. -/
def SymbolTable.wrap (st : SymbolTable) (hs hr hw : Nat) : SymbolTable :=
  let symRec := st.getSym hs
  let realRec := st.getSym hr
  let wrapRec := st.getSym hw
  let i1 := (lookupName st.symMap symRec.name).getD 0
  let i3 := (lookupName st.symMap wrapRec.name).getD 0
  let m := mapSet (mapSet st.symMap realRec.name i1) symRec.name i3
  let symRec1 : Symbol :=
    { symRec with
      exportDynamic := symRec.exportDynamic || realRec.exportDynamic
      isUsedInRegularObj :=
        if !realRec.isUsedInRegularObj && symRec.isUndefined then false
        else symRec.isUsedInRegularObj }
  let realRec1 : Symbol := { symRec1 with isUsedInRegularObj := false }
  { symMap := m
    symVector := (st.symVector.set hs symRec1).set hr realRec1 }

/-- Update index `i` of a list in place (no-op out of range; the source
never indexes out of range here). -/
def listUpd {α : Type} (l : List α) (i : Nat) (f : α → α) : List α :=
  match l.get? i with
  | some x => l.set i (f x)
  | none => l

/-- Modelled from the spec: `Symbol::resolve` (called by `addSymbol`)
lives in `Symbols.cpp`, which is not under `src/`.  Per the spec the
canonical slot is "mutated in place on every subsequent resolution" and
the handle is preserved; only the kind change away from `Placeholder`
matters here, so resolution is modelled as an in-place kind update. -/
def resolveKind (st : SymbolTable) (h : Nat) (k : SymbolKind) : SymbolTable :=
  { st with symVector := listUpd st.symVector h (fun s => { s with symbolKind := k }) }

/-- The content of `sym`'s record after `wrap`'s flag propagation: this
(rather than the bare pre-call content) is what the wrapped table holds
at `sym`'s old handle and copies into `real`'s record. -/
def wrapPropagated (st : SymbolTable) (hs hr : Nat) : Symbol :=
  { st.getSym hs with
    exportDynamic := (st.getSym hs).exportDynamic || (st.getSym hr).exportDynamic
    isUsedInRegularObj :=
      if !(st.getSym hr).isUsedInRegularObj && (st.getSym hs).isUndefined then false
      else (st.getSym hs).isUsedInRegularObj }

/-- A small concrete table for examples: defined symbols `a`, `b`, `c`
at handles 0, 1, 2, with `b` (and only `b`) exported to the dynamic
table. -/
def exampleWrapTable : SymbolTable :=
  ⟨[(['a'], 0), (['b'], 1), (['c'], 2)],
   [{ placeholderSym ['a'] with symbolKind := .DefinedKind },
    { placeholderSym ['b'] with symbolKind := .DefinedKind, exportDynamic := true },
    { placeholderSym ['c'] with symbolKind := .DefinedKind }]⟩

/-! ## Version scripts -/

/-- `SymbolVersion` (`Config.h`): one pattern of a version-script block. -/
structure SymbolVersion where
  name : Name
  isExternCpp : Bool
  hasWildcard : Bool
deriving DecidableEq, Repr

/-- `VersionDefinition` (`Config.h`): one version-script block. -/
structure VersionDefinition where
  name : Name
  id : Nat
  nonLocalPatterns : List SymbolVersion
  localPatterns : List SymbolVersion
deriving DecidableEq, Repr

/-- The configuration fields this core reads. -/
structure Config where
  versionDefinitions : List VersionDefinition
  undefinedVersion : Bool
  dynamicList : List SymbolVersion
deriving DecidableEq, Repr

/-- The two external string services used by the version scanner, both
defined outside `src/` (`lld/Common/Strings`, `llvm/Support/GlobPattern`)
and therefore passed in as parameters: the Itanium demangler and the
glob matcher `SingleStringMatcher(pattern).match(candidate)`. -/
structure Ext where
  demangleItanium : Name → Name
  globMatch : Name → Name → Bool

/-- Structured diagnostics; the source renders these to message strings.
`reassign` is the non-fatal `warn("attempt to reassign symbol ...")` of
`assignExactVersion`; `undefVersion` is the recoverable
`errorOrWarn("version script assignment ... failed: symbol not defined")`
of `scanVersionScript`. -/
inductive Diag
  | reassign (patName : Name) (oldId newId : Nat)
  | undefVersion (verStr : Name) (patName : Name)
deriving DecidableEq, Repr

/-- `canBeVersioned` (file-static in `SymbolTable.cpp`). -/
def canBeVersioned (s : Symbol) : Bool := s.isDefined || s.isCommon || s.isLazy

/-- The demangled key computed for one symbol by `getDemangledSyms`:
demangle the whole name when it has no `'@'`; only the prefix when the
`'@'` is final or doubled; otherwise demangle the prefix and reattach
the `@version` suffix verbatim. -/
def demangledKey (dem : Name → Name) (nm : Name) : Name :=
  match firstAt nm with
  | none => dem nm
  | some pos =>
    if pos + 1 == nm.length || nm.getD (pos + 1) 'x' == '@' then dem (nm.take pos)
    else dem (nm.take pos) ++ nm.drop pos

/-- The handles grouped under one demangled key by `getDemangledSyms`
(the `StringMap` groups eligible symbols by `demangledKey`; lookup of a
key returns exactly the eligible symbols carrying it; the map's unspecified
hash iteration order is modelled as `symVector` order). -/
def demangledHandles (ext : Ext) (st : SymbolTable) (key : Name) : List Nat :=
  (List.range st.symVector.length).filter fun i =>
    canBeVersioned (st.getSym i) && demangledKey ext.demangleItanium (st.getSym i).name == key

/-- `SymbolTable::findByVersion`. -/
def findByVersion (ext : Ext) (st : SymbolTable) (ver : SymbolVersion) : List Nat :=
  if ver.isExternCpp then demangledHandles ext st ver.name
  else
    match st.find ver.name with
    | some h => if canBeVersioned (st.getSym h) then [h] else []
    | none => []

/-- The `check` closure of `findAllByVersion`.  With
`includeNonDefault = false` it is `pos == npos` (no `'@'` at all); with
`true` it is `!(pos + 1 < name.size() && name[pos + 1] == '@')`.  In the
source `pos` is `npos` when absent and the unsigned `pos + 1` wraps to 0,
but `name[0]` cannot be `'@'` in that case, so the branch coincides with
`!hasDefaultSuffix`. -/
def checkVersionSuffix (includeNonDefault : Bool) (nm : Name) : Bool :=
  if !includeNonDefault then !(hasAt nm) else !(hasDefaultSuffix nm)

/-- `SymbolTable::findAllByVersion` (membership-faithful; the demangled
`StringMap` iteration order is modelled as `symVector` order). -/
def findAllByVersion (ext : Ext) (st : SymbolTable) (ver : SymbolVersion)
    (includeNonDefault : Bool) : List Nat :=
  if ver.isExternCpp then
    (List.range st.symVector.length).filter fun i =>
      canBeVersioned (st.getSym i) &&
      ext.globMatch ver.name (demangledKey ext.demangleItanium (st.getSym i).name) &&
      checkVersionSuffix includeNonDefault (st.getSym i).name
  else
    (List.range st.symVector.length).filter fun i =>
      canBeVersioned (st.getSym i) &&
      checkVersionSuffix includeNonDefault (st.getSym i).name &&
      ext.globMatch ver.name (st.getSym i).name

/-- The body of `assignExactVersion`'s loop for one matched symbol:
skip symbols with embedded version info unless `includeNonDefault` or a
local version; assign gated on the `verdefIndex` sentinel; warn when an
already-versioned symbol is targeted with a different version. -/
def exactStep (patName : Name) (versionId : Nat) (includeNonDefault : Bool)
    (acc : SymbolTable × List Diag) (h : Nat) : SymbolTable × List Diag :=
  let st := acc.1
  let s := st.getSym h
  if !includeNonDefault && !(versionId == VER_NDX_LOCAL) && hasAt s.name then acc
  else
    let s1 := if s.verdefIndex == VERDEF_UNSET
              then { s with verdefIndex := 0, versionId := versionId } else s
    let st1 : SymbolTable := { st with symVector := st.symVector.set h s1 }
    (st1, if s1.versionId == versionId then acc.2
          else acc.2 ++ [Diag.reassign patName s1.versionId versionId])

/-- `SymbolTable::assignExactVersion`; also returns `!syms.empty()`. -/
def assignExactVersion (ext : Ext) (st : SymbolTable) (ver : SymbolVersion)
    (versionId : Nat) (includeNonDefault : Bool) : SymbolTable × List Diag × Bool :=
  let syms := findByVersion ext st ver
  let r := syms.foldl (exactStep ver.name versionId includeNonDefault) (st, [])
  (r.1, r.2, !syms.isEmpty)

/-- The body of `assignWildcardVersion`'s loop: assign only when the
`verdefIndex` sentinel says the symbol is still unversioned. -/
def wildStep (versionId : Nat) (st : SymbolTable) (h : Nat) : SymbolTable :=
  let s := st.getSym h
  if s.verdefIndex == VERDEF_UNSET then
    { st with symVector := st.symVector.set h { s with verdefIndex := 0, versionId := versionId } }
  else st

/-- `SymbolTable::assignWildcardVersion`. -/
def assignWildcardVersion (ext : Ext) (st : SymbolTable) (ver : SymbolVersion)
    (versionId : Nat) (includeNonDefault : Bool) : SymbolTable :=
  (findAllByVersion ext st ver includeNonDefault).foldl (wildStep versionId) st

/-- `pat.name + "@" + blockName` with the given wildcard flag (the second
form each pattern is tried in). -/
def patAt (pat : SymbolVersion) (blockName : Name) (wild : Bool) : SymbolVersion :=
  { name := pat.name ++ '@' :: blockName, isExternCpp := pat.isExternCpp, hasWildcard := wild }

/-- The `assignExact` lambda of `scanVersionScript`: try the pattern
bare, then as `name@<block>`; report the recoverable miss unless the
`--undefined-version` override is set.  `blockName` is the enclosing
block's name (captured `v.name` in the source), `verStr` the version
named by the error message. -/
def assignExact (ext : Ext) (cfg : Config) (blockName : Name) (pat : SymbolVersion)
    (id : Nat) (verStr : Name) (st : SymbolTable) : SymbolTable × List Diag :=
  let r1 := assignExactVersion ext st pat id false
  let r2 := assignExactVersion ext r1.1 (patAt pat blockName false) id true
  let errs := if !(r1.2.2 || r2.2.2) && !cfg.undefinedVersion
              then [Diag.undefVersion verStr pat.name] else []
  (r2.1, r1.2.1 ++ r2.2.1 ++ errs)

/-- Pass 1 of `scanVersionScript`, one block: every non-wildcard
non-local pattern with the block's id, then every non-wildcard local
pattern with `VER_NDX_LOCAL` and error string "local". -/
def runExactBlock (ext : Ext) (cfg : Config) (v : VersionDefinition)
    (acc : SymbolTable × List Diag) : SymbolTable × List Diag :=
  let step := fun (id : Nat) (verStr : Name) (acc : SymbolTable × List Diag)
      (pat : SymbolVersion) =>
    if pat.hasWildcard then acc
    else
      let r := assignExact ext cfg v.name pat id verStr acc.1
      (r.1, acc.2 ++ r.2)
  let acc1 := v.nonLocalPatterns.foldl (step v.id v.name) acc
  v.localPatterns.foldl (step VER_NDX_LOCAL ['l', 'o', 'c', 'a', 'l']) acc1

/-- Pass 1 of `scanVersionScript`: exact patterns, blocks in definition
order. -/
def runPass1 (ext : Ext) (cfg : Config) (st : SymbolTable) : SymbolTable × List Diag :=
  cfg.versionDefinitions.foldl (fun acc v => runExactBlock ext cfg v acc) (st, [])

/-- The `assignWildcard` lambda of `scanVersionScript`: the pattern bare,
then as `name@<version>` (both blocks of the source pass the enclosing
block's name for the second form). -/
def assignWildcard (ext : Ext) (pat : SymbolVersion) (id : Nat) (verStr : Name)
    (st : SymbolTable) : SymbolTable :=
  let st1 := assignWildcardVersion ext st pat id false
  assignWildcardVersion ext st1 (patAt pat verStr true) id true

/-- One block of the wildcard passes.  With `isStar = false` only
wildcard patterns other than `"*"` fire (pass 2); with `true` only the
bare `"*"` (pass 3). -/
def runWildBlock (ext : Ext) (isStar : Bool) (v : VersionDefinition)
    (st : SymbolTable) : SymbolTable :=
  let step := fun (id : Nat) (st : SymbolTable) (pat : SymbolVersion) =>
    if pat.hasWildcard && ((pat.name == ['*']) == isStar)
    then assignWildcard ext pat id v.name st else st
  let st1 := v.nonLocalPatterns.foldl (step v.id) st
  v.localPatterns.foldl (step VER_NDX_LOCAL) st1

/-- Pass 2 of `scanVersionScript`: non-`"*"` wildcards, blocks in
REVERSE definition order (the last matching block takes precedence). -/
def runPass2 (ext : Ext) (cfg : Config) (st : SymbolTable) : SymbolTable :=
  cfg.versionDefinitions.reverse.foldl (fun st v => runWildBlock ext false v st) st

/-- Pass 3 of `scanVersionScript`: the bare `"*"` wildcards, blocks in
definition order (lowest priority). -/
def runPass3 (ext : Ext) (cfg : Config) (st : SymbolTable) : SymbolTable :=
  cfg.versionDefinitions.foldl (fun st v => runWildBlock ext true v st) st

/-- Modelled from the spec: `Symbol::parseSymbolVersion` lives in
`Symbols.cpp`, which is not under `src/`.  Per the spec, after the three
assignment passes "each symbol parses any literal `@version` suffix
embedded in its own name to normalize its display name (this does not
revisit or override an already-assigned version id)": the suffix starting
at the first `'@'` is dropped from the name, the version id is untouched. -/
def parseSymbolVersionSpec (s : Symbol) : Symbol :=
  match firstAt s.name with
  | none => s
  | some pos => { s with name := s.name.take pos }

/-- The `sym->parseSymbolVersion()` loop at the end of
`scanVersionScript`. -/
def parseAllSymbolVersions (st : SymbolTable) : SymbolTable :=
  { st with symVector := st.symVector.map parseSymbolVersionSpec }

/-- Mark one handle as a member of the dynamic list. -/
def dynStep (st : SymbolTable) (h : Nat) : SymbolTable :=
  { st with symVector := st.symVector.set h { st.getSym h with inDynamicList := true } }

/-- `SymbolTable::handleDynamicList`. -/
def handleDynamicList (ext : Ext) (cfg : Config) (st : SymbolTable) : SymbolTable :=
  cfg.dynamicList.foldl
    (fun st ver =>
      let syms := if ver.hasWildcard then findAllByVersion ext st ver true
                  else findByVersion ext st ver
      syms.foldl dynStep st)
    st

/-- `SymbolTable::scanVersionScript`: the three assignment passes, the
name-normalisation loop, then the dynamic list. -/
def scanVersionScript (ext : Ext) (cfg : Config) (st : SymbolTable) :
    SymbolTable × List Diag :=
  let r1 := runPass1 ext cfg st
  let s2 := runPass2 ext cfg r1.1
  let s3 := runPass3 ext cfg s2
  let s4 := parseAllSymbolVersions s3
  (handleDynamicList ext cfg s4, r1.2)

/-- The version-assignment state of a handle: its `verdefIndex` and
`versionId`, the two fields every sentinel-gated assignment writes
together. -/
def versionState (st : SymbolTable) (h : Nat) : Option (Nat × Nat) :=
  (st.symVector.get? h).map (fun s => (s.verdefIndex, s.versionId))

/-- A concrete glob matcher implementing the patterns the version-script
scenarios use: `*` matches everything, `a*` matches names starting with
`a`, anything else matches literally. -/
def scenarioGlob : Name → Name → Bool := fun pat s =>
  if pat == ['*'] then true
  else if pat == ['a', '*'] then s.take 1 == ['a']
  else pat == s

/-- Concrete external services for scenario instances: identity
demangler, `scenarioGlob` matcher. -/
def scenarioExt : Ext := { demangleItanium := fun n => n, globMatch := scenarioGlob }

/-- A table holding the single defined symbol `foo`. -/
def fooTable : SymbolTable :=
  ⟨[(['f', 'o', 'o'], 0)],
   [{ placeholderSym ['f', 'o', 'o'] with symbolKind := .DefinedKind }]⟩

/-- A table holding the single defined symbol `abc`. -/
def abcTable : SymbolTable :=
  ⟨[(['a', 'b', 'c'], 0)],
   [{ placeholderSym ['a', 'b', 'c'] with symbolKind := .DefinedKind }]⟩

/-- A table holding the single defined symbol `x`, already assigned to
version 5. -/
def assignedTable : SymbolTable :=
  ⟨[(['x'], 0)],
   [{ placeholderSym ['x'] with
      symbolKind := .DefinedKind
      verdefIndex := 0
      versionId := 5 }]⟩

/-- A version block `V1 { global: foo; }`. -/
def blockExactFoo : VersionDefinition :=
  ⟨['V', '1'], 2, [⟨['f', 'o', 'o'], false, false⟩], []⟩

/-- A version block whose only global pattern is the bare `*`. -/
def blockStar (nm : Name) (id : Nat) : VersionDefinition :=
  ⟨nm, id, [⟨['*'], false, true⟩], []⟩

/-- A version block whose only global pattern is the wildcard `a*`. -/
def blockAStar (nm : Name) (id : Nat) : VersionDefinition :=
  ⟨nm, id, [⟨['a', '*'], false, true⟩], []⟩

/-- Three eligible records exercising the three name shapes: `p`
(unversioned), `n@v` (explicit non-default version), `d@@v` (default
version). -/
def exampleVersionTable : SymbolTable :=
  ⟨[(['p'], 0), (['n'], 1), (['d'], 2)],
   [{ placeholderSym ['p'] with symbolKind := .DefinedKind },
    { placeholderSym ['n', '@', 'v'] with symbolKind := .DefinedKind },
    { placeholderSym ['d', '@', '@', 'v'] with symbolKind := .DefinedKind }]⟩

/-! ## Call-graph clustering (`CallGraphSort.cpp`)

`uint64_t` arithmetic is modelled on `Nat` with explicit `% 2 ^ 64`.
The `double` density arithmetic of the source is abstracted to exact
rationals (exact whenever the operands stay below `2 ^ 53`); the
zero-size corner agrees with the source: there the source compares
`inf`/`NaN < 0` (false) and the model compares `0 < 0` (false). -/

/-- `2 ^ 64`, the modulus of `uint64_t` arithmetic. -/
def U64 : Nat := 18446744073709551616

/-- `MAX_DENSITY_DEGRADATION`. -/
def MAX_DENSITY_DEGRADATION : Nat := 8

/-- `MAX_CLUSTER_SIZE` (1 MiB). -/
def MAX_CLUSTER_SIZE : Nat := 1024 * 1024

/-- `struct Cluster`.  The `Edge bestPred = {-1, 0}` member is modelled
with an `Option` for the `-1` sentinel of `bestPred.from`. -/
structure Cluster where
  next : Nat
  prev : Nat
  size : Nat
  weight : Nat
  initialWeight : Nat
  bestPredFrom : Option Nat
  bestPredWeight : Nat
deriving DecidableEq, Repr

instance : Inhabited Cluster := ⟨⟨0, 0, 0, 0, 0, none, 0⟩⟩

/-- `Cluster::getDensity()` (doubles abstracted to `ℚ`). -/
def Cluster.getDensity (c : Cluster) : ℚ :=
  if c.size = 0 then 0 else (c.weight : ℚ) / (c.size : ℚ)

/-- The density comparison `getDensity a ≤ getDensity b`, evaluated by
cross-multiplication so that it stays executable by the kernel
(`densityLe_iff` proves it equal to the rational comparison).  A
zero-size cluster has density 0. -/
def densityLe (a b : Cluster) : Bool :=
  if a.size = 0 then true
  else if b.size = 0 then a.weight == 0
  else decide (a.weight * b.size ≤ b.weight * a.size)

/-- The per-section data the algorithm consumes from upstream phases:
ICF replacement (`isec->repl`), byte size (`isec->getSize()`), and the
output-section assignment (`isec->getOutputSection()`, as an id).
Sections themselves are identified by numbers. -/
structure SecData where
  repl : Nat → Nat
  secSize : Nat → Nat
  outSec : Nat → Nat

/-- The working state of the `CallGraphSort` constructor: the local
`secToCluster` map plus the class members `sections` and `clusters`. -/
structure CGState where
  secToCluster : List (Nat × Nat)
  sections : List Nat
  clusters : List Cluster
deriving Repr

/-- `DenseMap<const InputSectionBase *, int>::try_emplace` lookup. -/
def lookupSec (m : List (Nat × Nat)) (k : Nat) : Option Nat :=
  (m.find? (fun p => p.1 == k)).map (·.2)

/-- The `getOrCreateNode` lambda of the constructor: one cluster per
first-seen section, a self-loop of the section's byte size with weight
0, its index `clusters.size()`. -/
def getOrCreateNode (d : SecData) (g : CGState) (isec : Nat) : Nat × CGState :=
  match lookupSec g.secToCluster isec with
  | some i => (i, g)
  | none =>
    let i := g.clusters.length
    (i, { secToCluster := g.secToCluster ++ [(isec, i)]
          sections := g.sections ++ [isec]
          clusters := g.clusters ++
            [{ next := i, prev := i, size := d.secSize isec, weight := 0,
               initialWeight := 0, bestPredFrom := none, bestPredWeight := 0 }] })

/-- One iteration of the constructor's edge loop: resolve both endpoints
through `repl`, drop cross-output-section edges, lazily create the two
clusters, add the weight to the destination, and update the
destination's best-predecessor edge on strict improvement when the
endpoints differ. -/
def edgeStep (d : SecData) (g : CGState) (e : (Nat × Nat) × Nat) : CGState :=
  let fromSB := d.repl e.1.1
  let toSB := d.repl e.1.2
  let weight := e.2
  if !(d.outSec fromSB == d.outSec toSB) then g
  else
    let rf := getOrCreateNode d g fromSB
    let rt := getOrCreateNode d rf.2 toSB
    let fromI := rf.1
    let toI := rt.1
    let g2 := rt.2
    let cs3 := listUpd g2.clusters toI (fun c => { c with weight := (c.weight + weight) % U64 })
    let g3 : CGState := { g2 with clusters := cs3 }
    if fromI == toI then g3
    else
      let cs4 := listUpd g3.clusters toI (fun toC =>
        if toC.bestPredFrom == none || decide (toC.bestPredWeight < weight) then
          { toC with bestPredFrom := some fromI, bestPredWeight := weight }
        else toC)
      { g3 with clusters := cs4 }

/-- `CallGraphSort::CallGraphSort()`: the edge loop followed by the
`initialWeight` snapshot. -/
def buildGraph (d : SecData) (profile : List ((Nat × Nat) × Nat)) : CGState :=
  let g := profile.foldl (edgeStep d) ⟨[], [], []⟩
  { g with clusters := g.clusters.map (fun c => { c with initialWeight := c.weight }) }

/-- `isNewDensityBad(a, b)`: would merging `b` into `a` drop the
combined density `(a.weight + b.weight) / (a.size + b.size)` below `a`'s
density divided by `MAX_DENSITY_DEGRADATION`?  The `uint64_t` sums wrap
before the division.  The source divides and compares `double`s; this is
modelled as the exact rational comparison, evaluated by
cross-multiplication (`isNewDensityBad_iff`).  The zero-denominator
corners agree with the source: a zero combined size compares as
`inf`/`NaN < _` (false), a zero-size `a` has density 0 and nothing is
below `0 / 8`. -/
def isNewDensityBad (a b : Cluster) : Bool :=
  let w := (a.weight + b.weight) % U64
  let s := (a.size + b.size) % U64
  if s = 0 then false
  else if a.size = 0 then false
  else decide (w * (a.size * MAX_DENSITY_DEGRADATION) < a.weight * s)

/-- The body of `getLeader`'s while loop, fuelled.  Each step rewrites
`leaders[v]` to its grandparent (path halving) and advances there. -/
def getLeaderGo (fuel : Nat) (ls : List Nat) (v : Nat) : List Nat × Nat :=
  match fuel with
  | 0 => (ls, v)
  | fuel + 1 =>
    let p := ls.getD v v
    if p == v then (ls, v)
    else
      let g := ls.getD p p
      getLeaderGo fuel (ls.set v g) g

/-- `getLeader`: union-find root lookup with path halving.  The source's
loop terminates because the leader array stays a forest; the fuel
`leaders.length` is shown sufficient under that invariant. -/
def getLeader (ls : List Nat) (v : Nat) : List Nat × Nat :=
  getLeaderGo ls.length ls v

/-- `mergeClusters(cs, into, intoIdx, from, fromIdx)`: splice the two
circular member lists in O(1), add `from`'s size and weight into `into`,
zero `from`. -/
def mergeClusters (cs : List Cluster) (intoIdx fromIdx : Nat) : List Cluster :=
  let tail1 := (cs.getD intoIdx default).prev
  let tail2 := (cs.getD fromIdx default).prev
  let cs1 := listUpd cs intoIdx (fun c => { c with prev := tail2 })
  let cs2 := listUpd cs1 tail2 (fun c => { c with next := intoIdx })
  let cs3 := listUpd cs2 fromIdx (fun c => { c with prev := tail1 })
  let cs4 := listUpd cs3 tail1 (fun c => { c with next := fromIdx })
  let fs := (cs4.getD fromIdx default).size
  let fw := (cs4.getD fromIdx default).weight
  let cs5 := listUpd cs4 intoIdx
    (fun c => { c with size := (c.size + fs) % U64, weight := (c.weight + fw) % U64 })
  listUpd cs5 fromIdx (fun c => { c with size := 0, weight := 0 })

/-- One iteration of the greedy merge loop of `CallGraphSort::run` for
the cluster index `l`: the gate chain (predecessor present, predecessor
weight strong enough, distinct representative, size cap, density cap)
and, when every gate passes, the merge plus the leader rebinding. -/
def mergeStep (acc : List Cluster × List Nat) (l : Nat) : List Cluster × List Nat :=
  let cs := acc.1
  let ls := acc.2
  let c := cs.getD l default
  if c.bestPredFrom == none ||
     decide ((c.bestPredWeight * 10) % U64 ≤ c.initialWeight) then acc
  else
    let r := getLeader ls (c.bestPredFrom.getD 0)
    let predL := r.2
    if l == predL then (cs, r.1)
    else
      let predC := cs.getD predL default
      if decide (MAX_CLUSTER_SIZE < (c.size + predC.size) % U64) then (cs, r.1)
      else if isNewDensityBad predC c then (cs, r.1)
      else (mergeClusters cs predL l, r.1.set l predL)

/-- Insertion of one element into a sorted suffix, placing it before the
first entry it may precede.  Together with `stableSort` this computes
the stable sort: the element being inserted is the earliest in the
original order, so it goes in front of entries it ties with. -/
def insertLe {α : Type} (le : α → α → Bool) (x : α) : List α → List α
  | [] => [x]
  | y :: ys => if le x y then x :: y :: ys else y :: insertLe le x ys

/-- `llvm::stable_sort` with strict comparator `lt`, modelled as the
stable insertion sort under the total preorder `le a b = ¬ lt b a`.
The stable sorted permutation is unique for a total comparator, so this
equals the source's merge-based stable sort; insertion sort is used
because it is structurally recursive and therefore kernel-evaluable. -/
def stableSort {α : Type} (le : α → α → Bool) : List α → List α
  | [] => []
  | x :: xs => insertLe le x (stableSort le xs)

/-- The initial density-descending stable sort of all cluster indices
(`llvm::stable_sort` with the comparator `density a > density b`;
a stable sort with `le a b := density b ≤ density a`). -/
def sortedIndices (cs : List Cluster) : List Nat :=
  stableSort (fun a b => densityLe (cs.getD b default) (cs.getD a default))
    (List.range cs.length)

/-- The whole greedy merge pass: visit every cluster once, in the fixed
density order, starting from the identity leader array. -/
def runMerge (g : CGState) : List Cluster × List Nat :=
  (sortedIndices g.clusters).foldl mergeStep (g.clusters, List.range g.clusters.length)

/-- The final selection and stable sort of `run`: the indices of the
non-empty clusters, density-descending. -/
def finalSorted (cs : List Cluster) : List Nat :=
  stableSort (fun a b => densityLe (cs.getD b default) (cs.getD a default))
    ((List.range cs.length).filter (fun i => decide (0 < (cs.getD i default).size)))

/-- The emission walk of `run`'s final loop after the first node: follow
`next` links until the walk returns to the leader, fuelled. -/
def cycleGo (cs : List Cluster) (leader : Nat) (i : Nat) (fuel : Nat) : List Nat :=
  match fuel with
  | 0 => []
  | fuel + 1 =>
    if i == leader then []
    else i :: cycleGo cs leader ((cs.getD i default).next) fuel

/-- The member cycle of a cluster in emission order: the leader, then the
`next`-walk back to it (the source's do-while; a cycle has at most
`cs.length` nodes, so the fuel is sufficient under the cycle invariant). -/
def cycleFrom (cs : List Cluster) (leader : Nat) : List Nat :=
  leader :: cycleGo cs leader ((cs.getD leader default).next) cs.length

/-- `orderMap[sections[i]] = curOrder++` flattened: consecutive indices
from `k` onwards. -/
def numberFrom : Nat → List Nat → List (Nat × Nat)
  | _, [] => []
  | k, s :: rest => (s, k) :: numberFrom (k + 1) rest

/-- The cluster indices in emission order: each surviving cluster's
cycle, clusters in final density order. -/
def emittedClusters (cs : List Cluster) : List Nat :=
  ((finalSorted cs).map (fun leader => cycleFrom cs leader)).flatten

/-- `CallGraphSort::run` composed with the constructor
(`computeCallGraphProfileOrder`): the returned section → index order map
as an association list in assignment order.  The optional
`--print-symbol-order` dump is a pure diagnostic side effect and is not
modelled. -/
def computeCallGraphProfileOrder (d : SecData) (profile : List ((Nat × Nat) × Nat)) :
    List (Nat × Nat) :=
  let g := buildGraph d profile
  let r := runMerge g
  numberFrom 1 ((emittedClusters r.1).map (fun i => g.sections.getD i 0))

/-- The two endpoint cluster indices of an edge and the state after
their lazy creation (the `getOrCreateNode` calls of the edge loop):
`(fromI, toI, state)`. -/
def edgeEndpoints (d : SecData) (g : CGState) (e : (Nat × Nat) × Nat) :
    Nat × Nat × CGState :=
  let rf := getOrCreateNode d g (d.repl e.1.1)
  let rt := getOrCreateNode d rf.2 (d.repl e.1.2)
  (rf.1, rt.1, rt.2)

/-- What one accepted edge does to the destination cluster: add the
weight (`uint64`), and when the endpoints differ replace the recorded
best predecessor by `(fromI, w)` exactly when none is recorded yet or
the new weight is strictly greater (ties keep the first-seen edge). -/
def edgeDestCluster (fromI toI w : Nat) (toC : Cluster) : Cluster :=
  let c1 : Cluster := { toC with weight := (toC.weight + w) % U64 }
  if fromI == toI then c1
  else if c1.bestPredFrom == none || decide (c1.bestPredWeight < w) then
    { c1 with bestPredFrom := some fromI, bestPredWeight := w }
  else c1

/-- The union-find resolution performed for cluster `l`'s recorded best
predecessor: the updated (path-halved) leader array and the
representative. -/
def mergePred (cs : List Cluster) (ls : List Nat) (l : Nat) : List Nat × Nat :=
  getLeader ls ((cs.getD l default).bestPredFrom.getD 0)

/-- The merge gates of the greedy pass for cluster `l` with its resolved
predecessor representative `predL`: a predecessor exists, it explains
more than a tenth of the initial inbound weight (`uint64` product), the
representatives differ, the merged size respects the 1 MiB cap, and the
merged density is not below the representative's density divided by 8. -/
def mergeGatesPass (cs : List Cluster) (l predL : Nat) : Prop :=
  (cs.getD l default).bestPredFrom ≠ none ∧
  (cs.getD l default).initialWeight <
    ((cs.getD l default).bestPredWeight * 10) % U64 ∧
  l ≠ predL ∧
  ((cs.getD l default).size + (cs.getD predL default).size) % U64 ≤ MAX_CLUSTER_SIZE ∧
  isNewDensityBad (cs.getD predL default) (cs.getD l default) = false

instance (cs : List Cluster) (l predL : Nat) : Decidable (mergeGatesPass cs l predL) := by
  unfold mergeGatesPass
  infer_instance

/-- Sections of uniform size 10 all placed in one output section. -/
def secDataUniform : SecData :=
  { repl := id, secSize := fun _ => 10, outSec := fun _ => 0 }

/-- Sections of uniform size 10, each in its own output section. -/
def secDataSplit : SecData :=
  { repl := id, secSize := fun _ => 10, outSec := fun s => s }

/-! Verification apparatus for the clustering pass: union-find
reachability and the circular member lists. -/

/-- Iterate the leader (parent) array `k` times from `v`. -/
def parentIter (ls : List Nat) : Nat → Nat → Nat
  | 0, v => v
  | k + 1, v => parentIter ls k (ls.getD v 0)

/-- `i` reaches the root `r` in exactly `k` parent steps. -/
def ReachesIn (ls : List Nat) (k i r : Nat) : Prop :=
  parentIter ls k i = r ∧ ls.getD r 0 = r

/-- `i`'s union-find lookup terminates at the root `r`. -/
def Reaches (ls : List Nat) (i r : Nat) : Prop := ∃ k, ReachesIn ls k i r

/-- `m` lists the members of one circular cluster in walk order:
nonempty, with `next` stepping cyclically forward through `m` and `prev`
stepping back. -/
def IsCycleList (cs : List Cluster) (m : List Nat) : Prop :=
  m ≠ [] ∧
  (∀ k, k < m.length →
    (cs.getD (m.getD k 0) default).next = m.getD ((k + 1) % m.length) 0) ∧
  (∀ k, k < m.length →
    (cs.getD (m.getD ((k + 1) % m.length) 0) default).prev = m.getD k 0)

/-- Recorded best-predecessor indices stay inside the cluster array. -/
def BestPredBound (n : Nat) (cs : List Cluster) : Prop :=
  ∀ i, i < n → ∀ pf, (cs.getD i default).bestPredFrom = some pf → pf < n

/-- The merge-pass invariant: `classes` partitions `range n` into the
live clusters; each class is a circular list headed by its union-find
root; the head carries the summed byte size of the class, merged-away
members carry size 0. -/
def MergeInv (n : Nat) (sz : Nat → Nat) (cs : List Cluster) (ls : List Nat)
    (classes : List (List Nat)) : Prop :=
  cs.length = n ∧ ls.length = n ∧ (∀ v, v < n → ls.getD v 0 < n) ∧
  classes.flatten.Perm (List.range n) ∧
  (∀ m, m ∈ classes → IsCycleList cs m ∧
    ls.getD (m.headD 0) 0 = m.headD 0 ∧
    (∀ i, i ∈ m → Reaches ls i (m.headD 0)) ∧
    (cs.getD (m.headD 0) default).size = (m.map sz).sum ∧
    (∀ i, i ∈ m → ¬ i = m.headD 0 → (cs.getD i default).size = 0))

/-- The graph-construction invariant consumed by the merge pass: one
cluster per section, each a self-loop whose size is its section's byte
size, with in-range best-predecessor records. -/
def CGWellFormed (d : SecData) (g : CGState) : Prop :=
  g.clusters.length = g.sections.length ∧
  (∀ i, i < g.clusters.length →
    (g.clusters.getD i default).next = i ∧
    (g.clusters.getD i default).prev = i ∧
    (g.clusters.getD i default).size = d.secSize (g.sections.getD i 0)) ∧
  BestPredBound g.clusters.length g.clusters

/-- The edge-loop invariant of the constructor: `CGWellFormed` plus the
range condition on the `secToCluster` map values. -/
def CGBuildOk (d : SecData) (g : CGState) : Prop :=
  g.clusters.length = g.sections.length ∧
  (∀ p, p ∈ g.secToCluster → p.2 < g.clusters.length) ∧
  (∀ i, i < g.clusters.length →
    (g.clusters.getD i default).next = i ∧
    (g.clusters.getD i default).prev = i ∧
    (g.clusters.getD i default).size = d.secSize (g.sections.getD i 0)) ∧
  BestPredBound g.clusters.length g.clusters

/-! ## Helper lemmas -/

theorem getD_set_eq {α : Type} (l : List α) (i : Nat) (a d : α) (h : i < l.length) :
    (l.set i a).getD i d = a := by
  simp [List.getD, List.getElem?_set_eq_of_lt a h]

theorem getD_set_ne {α : Type} (l : List α) (i j : Nat) (a d : α) (h : i ≠ j) :
    (l.set i a).getD j d = l.getD j d := by
  simp [List.getD, List.getElem?_set_ne h]

theorem get?_set_eq {α : Type} (l : List α) (i : Nat) (a : α) (h : i < l.length) :
    (l.set i a).get? i = some a := by
  simp [List.get?_eq_getElem?, List.getElem?_set_eq_of_lt a h]

theorem get?_set_ne {α : Type} (l : List α) (i j : Nat) (a : α) (h : i ≠ j) :
    (l.set i a).get? j = l.get? j := by
  simp [List.get?_eq_getElem?, List.getElem?_set_ne h]

theorem firstAt_lt_length (s : Name) (pos : Nat) (h : firstAt s = some pos) :
    pos < s.length := by
  induction s generalizing pos with
  | nil => simp [firstAt] at h
  | cons c rest ih =>
    by_cases hc : c = '@'
    · simp [firstAt, hc] at h
      subst h
      simp
    · simp [firstAt, hc] at h
      obtain ⟨q, hq, rfl⟩ := h
      have := ih q hq
      simp
      omega

theorem firstAt_take (s : Name) (pos : Nat) (h : firstAt s = some pos) :
    firstAt (s.take pos) = none := by
  induction s generalizing pos with
  | nil => simp [firstAt] at h
  | cons c rest ih =>
    by_cases hc : c = '@'
    · simp [firstAt, hc] at h
      subst h
      simp [firstAt]
    · simp [firstAt, hc] at h
      obtain ⟨q, hq, rfl⟩ := h
      simp [firstAt, hc, ih q hq]

theorem hasDefaultSuffix_firstAt_none (s : Name) (h : firstAt s = none) :
    hasDefaultSuffix s = false := by
  simp [hasDefaultSuffix, h]

theorem hasDefaultSuffix_some (s : Name) (pos : Nat) (hf : firstAt s = some pos) :
    hasDefaultSuffix s =
      (decide (pos + 1 < s.length) && (s.getD (pos + 1) 'x' == '@')) := by
  unfold hasDefaultSuffix
  rw [hf]

theorem stripDefault_some (s : Name) (pos : Nat) (hf : firstAt s = some pos) :
    stripDefault s =
      if (decide (pos + 1 < s.length) && (s.getD (pos + 1) 'x' == '@')) = true
      then s.take pos else s := by
  unfold stripDefault
  rw [hf]

theorem stripDefault_of_not_default (s : Name) (h : hasDefaultSuffix s = false) :
    stripDefault s = s := by
  cases hf : firstAt s with
  | none => unfold stripDefault; rw [hf]
  | some pos =>
    rw [stripDefault_some s pos hf]
    rw [hasDefaultSuffix_some s pos hf] at h
    rw [h]
    simp

theorem stripDefault_of_default (s : Name) (pos : Nat) (hf : firstAt s = some pos)
    (h : hasDefaultSuffix s = true) : stripDefault s = s.take pos := by
  rw [stripDefault_some s pos hf]
  rw [hasDefaultSuffix_some s pos hf] at h
  rw [h]
  simp

theorem hasDefaultSuffix_stripDefault (s : Name) :
    hasDefaultSuffix (stripDefault s) = false := by
  cases hd : hasDefaultSuffix s with
  | false => rw [stripDefault_of_not_default s hd]; exact hd
  | true =>
    cases hf : firstAt s with
    | none => rw [hasDefaultSuffix_firstAt_none s hf] at hd; cases hd
    | some pos =>
      rw [stripDefault_of_default s pos hf hd]
      exact hasDefaultSuffix_firstAt_none _ (firstAt_take s pos hf)

theorem stripDefault_idem (s : Name) :
    stripDefault (stripDefault s) = stripDefault s :=
  stripDefault_of_not_default _ (hasDefaultSuffix_stripDefault s)

theorem stripDefault_length_lt (s : Name) (h : hasDefaultSuffix s = true) :
    (stripDefault s).length < s.length := by
  cases hf : firstAt s with
  | none => rw [hasDefaultSuffix_firstAt_none s hf] at h; cases h
  | some pos =>
    rw [stripDefault_of_default s pos hf h]
    have := firstAt_lt_length s pos hf
    simp [List.length_take]
    omega

theorem stripDefault_ne (s : Name) (h : hasDefaultSuffix s = true) :
    stripDefault s ≠ s := by
  intro he
  have := stripDefault_length_lt s h
  rw [he] at this
  omega

theorem lookupName_cons (p : Name × Nat) (rest : List (Name × Nat)) (k : Name) :
    lookupName (p :: rest) k = if p.1 = k then some p.2 else lookupName rest k := by
  by_cases hp : p.1 = k
  · rw [if_pos hp]
    unfold lookupName
    rw [List.find?_cons_of_pos _ (by simp [hp])]
    rfl
  · rw [if_neg hp]
    unfold lookupName
    rw [List.find?_cons_of_neg _ (by simp [hp])]

theorem lookupName_eq_none_of_not_mem (m : List (Name × Nat)) (k : Name)
    (h : ∀ p ∈ m, p.1 ≠ k) : lookupName m k = none := by
  induction m with
  | nil => rfl
  | cons p rest ih =>
    rw [lookupName_cons, if_neg (h p (by simp))]
    exact ih (fun q hq => h q (by simp [hq]))

theorem lookupName_mem (m : List (Name × Nat)) (k : Name) (v : Nat)
    (h : lookupName m k = some v) : (k, v) ∈ m := by
  induction m with
  | nil => cases h
  | cons p rest ih =>
    rw [lookupName_cons] at h
    by_cases hp : p.1 = k
    · rw [if_pos hp] at h
      cases h
      have he : (k, p.2) = p := by rw [← hp]
      rw [he]
      exact List.mem_cons_self _ _
    · rw [if_neg hp] at h
      exact List.mem_cons_of_mem _ (ih h)

theorem lookupName_isSome_of_mem (m : List (Name × Nat)) (k : Name)
    (h : k ∈ m.map Prod.fst) : lookupName m k ≠ none := by
  induction m with
  | nil => simp at h
  | cons p rest ih =>
    rw [lookupName_cons]
    rw [List.map_cons] at h
    by_cases hp : p.1 = k
    · rw [if_pos hp]; simp
    · rw [if_neg hp]
      rcases List.mem_cons.mp h with h | h
      · exact absurd h.symm hp
      · exact ih h

theorem lookupName_append_of_none (m : List (Name × Nat)) (k : Name) (v : Nat)
    (h : lookupName m k = none) : lookupName (m ++ [(k, v)]) k = some v := by
  induction m with
  | nil => simp [lookupName_cons]
  | cons p rest ih =>
    rw [lookupName_cons] at h
    by_cases hp : p.1 = k
    · rw [if_pos hp] at h; cases h
    · rw [if_neg hp] at h
      rw [List.cons_append, lookupName_cons, if_neg hp]
      exact ih h

theorem lookupName_append_ne (m : List (Name × Nat)) (k k' : Name) (v : Nat)
    (h : k' ≠ k) : lookupName (m ++ [(k, v)]) k' = lookupName m k' := by
  induction m with
  | nil =>
    simp only [List.nil_append, lookupName_cons]
    rw [if_neg (fun e : k = k' => h (Eq.symm e))]
  | cons p rest ih =>
    rw [List.cons_append, lookupName_cons, lookupName_cons]
    by_cases hp : p.1 = k'
    · rw [if_pos hp, if_pos hp]
    · rw [if_neg hp, if_neg hp, ih]

theorem mapSet_cons (p : Name × Nat) (rest : List (Name × Nat)) (k : Name) (v : Nat) :
    mapSet (p :: rest) k v = (if p.1 = k then (p.1, v) else p) :: mapSet rest k v := by
  by_cases hp : p.1 = k <;> simp [mapSet, hp]

theorem lookupName_mapSet_ne (m : List (Name × Nat)) (k k' : Name) (v : Nat)
    (h : k' ≠ k) : lookupName (mapSet m k v) k' = lookupName m k' := by
  induction m with
  | nil => rfl
  | cons p rest ih =>
    rw [mapSet_cons]
    by_cases hp : p.1 = k
    · have hp' : ¬ p.1 = k' := by rw [hp]; exact fun e => h e.symm
      rw [if_pos hp, lookupName_cons, lookupName_cons, if_neg hp', if_neg hp', ih]
    · rw [if_neg hp, lookupName_cons, lookupName_cons]
      by_cases hq : p.1 = k'
      · rw [if_pos hq, if_pos hq]
      · rw [if_neg hq, if_neg hq, ih]

theorem lookupName_mapSet_self (m : List (Name × Nat)) (k : Name) (v w : Nat)
    (h : lookupName m k = some w) : lookupName (mapSet m k v) k = some v := by
  induction m with
  | nil => cases h
  | cons p rest ih =>
    rw [lookupName_cons] at h
    rw [mapSet_cons]
    by_cases hp : p.1 = k
    · rw [if_pos hp, lookupName_cons, if_pos hp]
    · rw [if_neg hp] at h
      rw [if_neg hp, lookupName_cons, if_neg hp]
      exact ih h

/-! ## C1 -/

/-- C1: `insert` is idempotent — a second `insert` of the same name
returns the identical handle and leaves the table unchanged; `insert`
strips the `@@` default-version suffix before lookup, so a name and its
`@@`-suffixed form produce the same handle and the same table; and
insertion preserves the canonical-record invariant: the keys of the name
index stay unique and normalized (one canonical record per normalized
name). -/
theorem insert_idempotent_canonical (st : SymbolTable) (nm : Name) :
    ((st.insert nm).2.insert nm = ((st.insert nm).1, (st.insert nm).2)) ∧
    (st.insert nm = st.insert (stripDefault nm)) ∧
    ((st.symMap.map Prod.fst).Nodup → (((st.insert nm).2.symMap).map Prod.fst).Nodup) ∧
    ((∀ p ∈ st.symMap, stripDefault p.1 = p.1) →
      ∀ p ∈ (st.insert nm).2.symMap, stripDefault p.1 = p.1) := by
  have hkey := stripDefault_idem nm
  refine ⟨?_, ?_, ?_, ?_⟩
  · cases hl : lookupName st.symMap (stripDefault nm) with
    | some idx => simp [SymbolTable.insert, hl]
    | none => simp [SymbolTable.insert, hl, lookupName_append_of_none _ _ _ hl]
  · simp [SymbolTable.insert, hkey]
  · intro hnd
    cases hl : lookupName st.symMap (stripDefault nm) with
    | some idx => simpa [SymbolTable.insert, hl] using hnd
    | none =>
      have hnotmem : ¬ stripDefault nm ∈ st.symMap.map Prod.fst := by
        intro hmem
        exact lookupName_isSome_of_mem _ _ hmem hl
      simp [SymbolTable.insert, hl, List.nodup_append, hnd]
      intro a hmem
      exact hnotmem (List.mem_map_of_mem Prod.fst hmem)
  · intro hkeys p hp
    cases hl : lookupName st.symMap (stripDefault nm) with
    | some idx =>
      simp [SymbolTable.insert, hl] at hp
      exact hkeys p hp
    | none =>
      simp [SymbolTable.insert, hl] at hp
      rcases hp with hp | hp
      · exact hkeys p hp
      · rw [hp]
        exact hkey

/-! ## C9 -/

/-- C9: `insert` normalizes the `@@` default-version suffix but `find`
does not.  Starting from a table with unique normalized keys and
in-range handles, inserting `base@@version` and then resolving the new
record to any non-placeholder kind leaves `find base@@version = none`
while `find base` returns the canonical handle. -/
theorem find_does_not_normalize (st : SymbolTable) (nm : Name) (k : SymbolKind)
    (hk : k ≠ SymbolKind.PlaceholderKind)
    (hdef : hasDefaultSuffix nm = true)
    (hkeys : ∀ p ∈ st.symMap, stripDefault p.1 = p.1)
    (hrange : ∀ p ∈ st.symMap, p.2 < st.symVector.length) :
    (resolveKind (st.insert nm).2 (st.insert nm).1 k).find nm = none ∧
    (resolveKind (st.insert nm).2 (st.insert nm).1 k).find (stripDefault nm) =
      some (st.insert nm).1 := by
  have hne := stripDefault_ne nm hdef
  have hnotkey : ∀ m, (∀ p ∈ m, stripDefault p.1 = p.1) → lookupName m nm = none := by
    intro m hm
    refine lookupName_eq_none_of_not_mem m nm (fun p hp he => ?_)
    exact hne (he ▸ hm p hp)
  have hkmain : ¬ SymbolKind.PlaceholderKind = k := fun e => hk e.symm
  cases hl : lookupName st.symMap (stripDefault nm) with
  | some idx =>
    have hmem := lookupName_mem _ _ _ hl
    have hidx : idx < st.symVector.length := hrange _ hmem
    have hr : st.insert nm = (idx, st) := by simp [SymbolTable.insert, hl]
    rw [hr]
    have hget0 : st.symVector.get? idx = some (st.symVector.getD idx default) := by
      simp [List.get?_eq_getElem?, List.getD, List.getElem?_eq_getElem hidx]
    have hget : (resolveKind st idx k).symVector[idx]? =
        some { st.symVector.getD idx default with symbolKind := k } := by
      simp only [resolveKind, listUpd, hget0]
      exact List.getElem?_set_eq_of_lt _ hidx
    constructor
    · have hn : lookupName (resolveKind st idx k).symMap nm = none :=
        hnotkey st.symMap hkeys
      simp [SymbolTable.find, hn]
    · have hl2 : lookupName (resolveKind st idx k).symMap (stripDefault nm) = some idx := hl
      simp [SymbolTable.find, hl2, hget, Symbol.isPlaceholder, hk]
  | none =>
    have hr : st.insert nm = (st.symVector.length,
        { symMap := st.symMap ++ [(stripDefault nm, st.symVector.length)]
          symVector := st.symVector ++ [placeholderSym (stripDefault nm)] }) := by
      simp [SymbolTable.insert, hl]
    rw [hr]
    have hkeys2 : ∀ p ∈ st.symMap ++ [(stripDefault nm, st.symVector.length)],
        stripDefault p.1 = p.1 := by
      intro p hp
      rcases List.mem_append.mp hp with hp | hp
      · exact hkeys p hp
      · simp at hp
        rw [hp]
        exact stripDefault_idem nm
    have hl2 : lookupName (st.symMap ++ [(stripDefault nm, st.symVector.length)])
        (stripDefault nm) = some st.symVector.length :=
      lookupName_append_of_none _ _ _ hl
    have hlen : st.symVector.length <
        (st.symVector ++ [placeholderSym (stripDefault nm)]).length := by simp
    have hget0 : (st.symVector ++ [placeholderSym (stripDefault nm)]).get?
        st.symVector.length = some (placeholderSym (stripDefault nm)) := by
      simp [List.get?_eq_getElem?]
    constructor
    · have hn : lookupName (st.symMap ++ [(stripDefault nm, st.symVector.length)]) nm =
          none := hnotkey _ hkeys2
      simp only [SymbolTable.find, resolveKind]
      rw [hn]
    · have hget : (listUpd (st.symVector ++ [placeholderSym (stripDefault nm)])
          st.symVector.length (fun s => { s with symbolKind := k })).get?
          st.symVector.length =
          some { placeholderSym (stripDefault nm) with symbolKind := k } := by
        simp only [listUpd, hget0]
        exact get?_set_eq _ _ _ hlen
      simp only [SymbolTable.find, resolveKind]
      rw [hl2]
      simp only [hget]
      simp [Symbol.isPlaceholder, hk]

/-- Witness for C1 at the empty table and the name `foo@@v`. -/
theorem insert_idempotent_canonical_witness :
    ((SymbolTable.mk [] []).symMap.map Prod.fst).Nodup ∧
    (∀ p ∈ (SymbolTable.mk [] []).symMap, stripDefault p.1 = p.1) ∧
    (((SymbolTable.mk [] []).insert ['f', 'o', 'o', '@', '@', 'v']).2.insert
        ['f', 'o', 'o', '@', '@', 'v'] =
      (((SymbolTable.mk [] []).insert ['f', 'o', 'o', '@', '@', 'v']).1,
       ((SymbolTable.mk [] []).insert ['f', 'o', 'o', '@', '@', 'v']).2)) ∧
    ((SymbolTable.mk [] []).insert ['f', 'o', 'o', '@', '@', 'v'] =
      (SymbolTable.mk [] []).insert (stripDefault ['f', 'o', 'o', '@', '@', 'v'])) ∧
    ((((SymbolTable.mk [] []).insert ['f', 'o', 'o', '@', '@', 'v']).2.symMap).map
        Prod.fst).Nodup ∧
    (∀ p ∈ ((SymbolTable.mk [] []).insert ['f', 'o', 'o', '@', '@', 'v']).2.symMap,
      stripDefault p.1 = p.1) := by
  have h := insert_idempotent_canonical (SymbolTable.mk [] []) ['f', 'o', 'o', '@', '@', 'v']
  exact ⟨by decide, by decide, h.1, h.2.1, h.2.2.1 (by decide), h.2.2.2 (by decide)⟩

/-- Witness for C9: inserting `foo@@v` into the empty table and resolving
the record to `Defined` makes `find foo@@v` miss while `find foo` hits. -/
theorem find_does_not_normalize_witness :
    (SymbolKind.DefinedKind ≠ SymbolKind.PlaceholderKind) ∧
    (hasDefaultSuffix ['f', 'o', 'o', '@', '@', 'v'] = true) ∧
    ((resolveKind ((SymbolTable.mk [] []).insert ['f', 'o', 'o', '@', '@', 'v']).2
        ((SymbolTable.mk [] []).insert ['f', 'o', 'o', '@', '@', 'v']).1
        SymbolKind.DefinedKind).find ['f', 'o', 'o', '@', '@', 'v'] = none ∧
     (resolveKind ((SymbolTable.mk [] []).insert ['f', 'o', 'o', '@', '@', 'v']).2
        ((SymbolTable.mk [] []).insert ['f', 'o', 'o', '@', '@', 'v']).1
        SymbolKind.DefinedKind).find (stripDefault ['f', 'o', 'o', '@', '@', 'v']) =
       some ((SymbolTable.mk [] []).insert ['f', 'o', 'o', '@', '@', 'v']).1) :=
  ⟨by decide, by decide,
   find_does_not_normalize (SymbolTable.mk [] []) ['f', 'o', 'o', '@', '@', 'v']
     SymbolKind.DefinedKind (by decide) (by decide) (by decide) (by decide)⟩

/-! ## C10 -/

/-- C10: `wrap` rewrites only the name bindings of `sym`'s and `real`'s
names; the binding of `wrap`'s name — and of every other name — is left
unchanged, so after the call `sym`'s name and `wrap`'s name both resolve
to the handle previously bound to `wrap`'s name (no three-way
permutation). -/
theorem wrap_rebinds_only_sym_real (st : SymbolTable) (hs hr hw : Nat)
    (i1 i2 i3 : Nat)
    (h1 : lookupName st.symMap (st.getSym hs).name = some i1)
    (h2 : lookupName st.symMap (st.getSym hr).name = some i2)
    (h3 : lookupName st.symMap (st.getSym hw).name = some i3)
    (hsr : (st.getSym hs).name ≠ (st.getSym hr).name)
    (hsw : (st.getSym hs).name ≠ (st.getSym hw).name)
    (hrw : (st.getSym hr).name ≠ (st.getSym hw).name) :
    lookupName (st.wrap hs hr hw).symMap (st.getSym hw).name = some i3 ∧
    lookupName (st.wrap hs hr hw).symMap (st.getSym hs).name = some i3 ∧
    lookupName (st.wrap hs hr hw).symMap (st.getSym hr).name = some i1 ∧
    (∀ k : Name, k ≠ (st.getSym hs).name → k ≠ (st.getSym hr).name →
      lookupName (st.wrap hs hr hw).symMap k = lookupName st.symMap k) := by
  have hm : (st.wrap hs hr hw).symMap =
      mapSet (mapSet st.symMap (st.getSym hr).name i1) (st.getSym hs).name i3 := by
    simp [SymbolTable.wrap, h1, h3]
  refine ⟨?_, ?_, ?_, ?_⟩
  · rw [hm, lookupName_mapSet_ne _ _ _ _ (fun e => hsw e.symm),
        lookupName_mapSet_ne _ _ _ _ (fun e => hrw e.symm)]
    exact h3
  · have hpre : lookupName (mapSet st.symMap (st.getSym hr).name i1)
        (st.getSym hs).name = some i1 := by
      rw [lookupName_mapSet_ne _ _ _ _ hsr]
      exact h1
    rw [hm]
    exact lookupName_mapSet_self _ _ _ _ hpre
  · rw [hm, lookupName_mapSet_ne _ _ _ _ (fun e => hsr e.symm)]
    exact lookupName_mapSet_self _ _ _ _ h2
  · intro k hks hkr
    rw [hm, lookupName_mapSet_ne _ _ _ _ hks, lookupName_mapSet_ne _ _ _ _ hkr]

/-- Witness for C10 on the concrete three-symbol table, with the frame
property instantiated at the unrelated name `d`. -/
theorem wrap_rebinds_only_sym_real_witness :
    (lookupName exampleWrapTable.symMap (exampleWrapTable.getSym 0).name = some 0) ∧
    (lookupName exampleWrapTable.symMap (exampleWrapTable.getSym 1).name = some 1) ∧
    (lookupName exampleWrapTable.symMap (exampleWrapTable.getSym 2).name = some 2) ∧
    lookupName (exampleWrapTable.wrap 0 1 2).symMap
      (exampleWrapTable.getSym 2).name = some 2 ∧
    lookupName (exampleWrapTable.wrap 0 1 2).symMap
      (exampleWrapTable.getSym 0).name = some 2 ∧
    lookupName (exampleWrapTable.wrap 0 1 2).symMap
      (exampleWrapTable.getSym 1).name = some 0 ∧
    lookupName (exampleWrapTable.wrap 0 1 2).symMap ['d'] =
      lookupName exampleWrapTable.symMap ['d'] := by
  have h := wrap_rebinds_only_sym_real exampleWrapTable 0 1 2 0 1 2
    (by decide) (by decide) (by decide) (by decide) (by decide) (by decide)
  exact ⟨by decide, by decide, by decide, h.1, h.2.1, h.2.2.1,
    h.2.2.2 ['d'] (by decide) (by decide)⟩

/-! ## C2 -/

/-- C2 counterexample: in the concrete table `sym = a` (not exported),
`real = b` (exported), `wrap = c`, the record copied into `real`'s slot
and the record reachable under `real`'s name after the wrap carry the
propagated `exportDynamic = true`, so neither equals the content `sym`
held immediately before the wrap (whose `exportDynamic` was false). -/
theorem wrap_preswap_copy_counterexample :
    (exampleWrapTable.getSym 0).exportDynamic = false ∧
    ((exampleWrapTable.wrap 0 1 2).getSym 1 ≠
      { exampleWrapTable.getSym 0 with isUsedInRegularObj := false }) ∧
    (exampleWrapTable.wrap 0 1 2).find ['b'] = some 0 ∧
    ((exampleWrapTable.wrap 0 1 2).getSym 0 ≠ exampleWrapTable.getSym 0) := by
  decide

/-- C2 (amended): after `wrap(sym, real, wrap)`, a lookup of `sym`'s name
resolves to the handle previously bound to `wrap`'s name, and a lookup of
`real`'s name resolves to `sym`'s pre-wrap handle; the record there holds
the content `sym` held immediately before the wrap updated by the flag
propagation (`exportDynamic` or-ed with `real`'s, used-in-regular-object
cleared when `real` was unused in regular objects and `sym` is
undefined), and it is that propagated content — not the bare pre-swap
content — that is copied into `real`'s record and marked
not-used-in-regular-object. -/
theorem wrap_lookup_and_copy (st : SymbolTable) (hs hr hw i3 : Nat)
    (h1 : lookupName st.symMap (st.getSym hs).name = some hs)
    (h2 : lookupName st.symMap (st.getSym hr).name = some hr)
    (h3 : lookupName st.symMap (st.getSym hw).name = some i3)
    (hsr : (st.getSym hs).name ≠ (st.getSym hr).name)
    (hsw : (st.getSym hs).name ≠ (st.getSym hw).name)
    (hrw : (st.getSym hr).name ≠ (st.getSym hw).name)
    (hls : hs < st.symVector.length) (hlr : hr < st.symVector.length)
    (hne : hs ≠ hr) :
    lookupName (st.wrap hs hr hw).symMap (st.getSym hs).name = some i3 ∧
    lookupName (st.wrap hs hr hw).symMap (st.getSym hr).name = some hs ∧
    (st.wrap hs hr hw).getSym hs = wrapPropagated st hs hr ∧
    (st.wrap hs hr hw).getSym hr =
      { wrapPropagated st hs hr with isUsedInRegularObj := false } := by
  have hbind := wrap_rebinds_only_sym_real st hs hr hw hs hr i3 h1 h2 h3 hsr hsw hrw
  have hvec : (st.wrap hs hr hw).symVector =
      (st.symVector.set hs (wrapPropagated st hs hr)).set hr
        { wrapPropagated st hs hr with isUsedInRegularObj := false } := by
    simp [SymbolTable.wrap, wrapPropagated]
  refine ⟨hbind.2.1, hbind.2.2.1, ?_, ?_⟩
  · show (st.wrap hs hr hw).symVector.getD hs default = _
    rw [hvec, getD_set_ne _ _ _ _ _ (fun e => hne e.symm), getD_set_eq _ _ _ _ hls]
  · show (st.wrap hs hr hw).symVector.getD hr default = _
    rw [hvec, getD_set_eq]
    rw [List.length_set]
    exact hlr

/-- Witness for the amended C2 on the concrete three-symbol table. -/
theorem wrap_lookup_and_copy_witness :
    (lookupName exampleWrapTable.symMap (exampleWrapTable.getSym 0).name = some 0) ∧
    (lookupName exampleWrapTable.symMap (exampleWrapTable.getSym 1).name = some 1) ∧
    (lookupName exampleWrapTable.symMap (exampleWrapTable.getSym 2).name = some 2) ∧
    lookupName (exampleWrapTable.wrap 0 1 2).symMap
      (exampleWrapTable.getSym 0).name = some 2 ∧
    lookupName (exampleWrapTable.wrap 0 1 2).symMap
      (exampleWrapTable.getSym 1).name = some 0 ∧
    (exampleWrapTable.wrap 0 1 2).getSym 0 = wrapPropagated exampleWrapTable 0 1 ∧
    (exampleWrapTable.wrap 0 1 2).getSym 1 =
      { wrapPropagated exampleWrapTable 0 1 with isUsedInRegularObj := false } := by
  have h := wrap_lookup_and_copy exampleWrapTable 0 1 2 2
    (by decide) (by decide) (by decide) (by decide) (by decide) (by decide)
    (by decide) (by decide) (by decide)
  exact ⟨by decide, by decide, by decide, h.1, h.2.1, h.2.2.1, h.2.2.2⟩

/-! ## C7 -/

theorem firstAt_none_iff (s : Name) : firstAt s = none ↔ hasAt s = false := by
  induction s with
  | nil => simp [firstAt, hasAt]
  | cons c rest ih =>
    by_cases hc : c = '@' <;> simp [firstAt, hasAt, hc, ih]

theorem hasDefaultSuffix_of_no_at (s : Name) (h : hasAt s = false) :
    hasDefaultSuffix s = false := by
  have hf := (firstAt_none_iff s).mpr h
  unfold hasDefaultSuffix
  rw [hf]

theorem mem_findAllByVersion (ext : Ext) (st : SymbolTable) (ver : SymbolVersion)
    (inc : Bool) (h : Nat) :
    h ∈ findAllByVersion ext st ver inc ↔
      (h < st.symVector.length ∧ canBeVersioned (st.getSym h) = true ∧
       checkVersionSuffix inc (st.getSym h).name = true ∧
       (if ver.isExternCpp then
          ext.globMatch ver.name (demangledKey ext.demangleItanium (st.getSym h).name)
        else ext.globMatch ver.name (st.getSym h).name) = true) := by
  unfold findAllByVersion
  by_cases hcpp : ver.isExternCpp = true
  · simp only [hcpp, if_true, List.mem_filter, List.mem_range, Bool.and_eq_true]
    tauto
  · simp only [Bool.not_eq_true] at hcpp
    simp only [hcpp, Bool.false_eq_true, if_false, List.mem_filter, List.mem_range,
      Bool.and_eq_true]
    tauto

/-- C7: with `includeNonDefault = false`, `findAllByVersion` returns only
symbols whose names are unversioned or carry a `@@` default-version
suffix; with `includeNonDefault = true` it returns exactly the
`includeNonDefault = false` results plus the eligible pattern-matching
symbols whose names carry an explicit non-default `@version` suffix. -/
theorem findAllByVersion_filter (ext : Ext) (st : SymbolTable) (ver : SymbolVersion) :
    (∀ h ∈ findAllByVersion ext st ver false,
        hasAt (st.getSym h).name = false ∨
        hasDefaultSuffix (st.getSym h).name = true) ∧
    (∀ h : Nat, h ∈ findAllByVersion ext st ver true ↔
        (h ∈ findAllByVersion ext st ver false ∨
         (h < st.symVector.length ∧ canBeVersioned (st.getSym h) = true ∧
          (if ver.isExternCpp then
             ext.globMatch ver.name (demangledKey ext.demangleItanium (st.getSym h).name)
           else ext.globMatch ver.name (st.getSym h).name) = true ∧
          hasAt (st.getSym h).name = true ∧
          hasDefaultSuffix (st.getSym h).name = false))) := by
  constructor
  · intro h hmem
    rw [mem_findAllByVersion] at hmem
    have hc := hmem.2.2.1
    simp [checkVersionSuffix] at hc
    exact Or.inl hc
  · intro h
    rw [mem_findAllByVersion, mem_findAllByVersion]
    by_cases hat : hasAt (st.getSym h).name = true
    · simp [checkVersionSuffix, hat]
      intro _ _
      tauto
    · simp only [Bool.not_eq_true] at hat
      have hdf := hasDefaultSuffix_of_no_at _ hat
      simp [checkVersionSuffix, hat, hdf]

/-- Witness for C7 on the concrete three-shape table with a
match-everything pattern: handle 0 (`p`) is returned in both modes,
handle 1 (`n@v`) only with `includeNonDefault = true`. -/
theorem findAllByVersion_filter_witness :
    (0 ∈ findAllByVersion scenarioExt exampleVersionTable ⟨['*'], false, true⟩ false ∧
     (hasAt (exampleVersionTable.getSym 0).name = false ∨
      hasDefaultSuffix (exampleVersionTable.getSym 0).name = true)) ∧
    (1 ∈ findAllByVersion scenarioExt exampleVersionTable ⟨['*'], false, true⟩ true ↔
      (1 ∈ findAllByVersion scenarioExt exampleVersionTable ⟨['*'], false, true⟩ false ∨
       (1 < exampleVersionTable.symVector.length ∧
        canBeVersioned (exampleVersionTable.getSym 1) = true ∧
        (if (⟨['*'], false, true⟩ : SymbolVersion).isExternCpp then
           scenarioExt.globMatch ['*']
             (demangledKey scenarioExt.demangleItanium (exampleVersionTable.getSym 1).name)
         else scenarioExt.globMatch ['*'] (exampleVersionTable.getSym 1).name) = true ∧
        hasAt (exampleVersionTable.getSym 1).name = true ∧
        hasDefaultSuffix (exampleVersionTable.getSym 1).name = false))) := by
  have h := findAllByVersion_filter scenarioExt exampleVersionTable ⟨['*'], false, true⟩
  exact ⟨⟨by decide, h.1 0 (by decide)⟩, h.2 1⟩

/-! ## C8 -/

theorem set_get_self {α : Type} (l : List α) (i : Nat) (a : α)
    (h : l.get? i = some a) : l.set i a = l := by
  induction l generalizing i with
  | nil => cases h
  | cons x rest ih =>
    cases i with
    | zero =>
      have hx : x = a := by
        have hsome : some x = some a := h
        injection hsome
      simp [List.set, hx]
    | succ j =>
      have hj : rest.get? j = some a := h
      simp [List.set, ih j hj]

theorem getSym_eq_of_get? (st : SymbolTable) (h : Nat) (s : Symbol)
    (hg : st.symVector.get? h = some s) : st.getSym h = s := by
  rw [List.get?_eq_getElem?] at hg
  simp [SymbolTable.getSym, List.getD, hg]

theorem getSym_eq_default_of_none (st : SymbolTable) (h : Nat)
    (hg : st.symVector.get? h = none) : st.getSym h = default := by
  rw [List.get?_eq_getElem?] at hg
  simp [SymbolTable.getSym, List.getD, hg]

/-- The parts of a table that pattern matching inspects: the name index
plus each record's name and kind (everything except the version fields
and flags). -/
def sameShape (st1 st2 : SymbolTable) : Prop :=
  st1.symMap = st2.symMap ∧
  st1.symVector.map (fun s => (s.name, s.symbolKind)) =
    st2.symVector.map (fun s => (s.name, s.symbolKind))

theorem sameShape_refl (st : SymbolTable) : sameShape st st := ⟨rfl, rfl⟩

theorem sameShape_trans {st1 st2 st3 : SymbolTable}
    (h1 : sameShape st1 st2) (h2 : sameShape st2 st3) : sameShape st1 st3 :=
  ⟨h1.1.trans h2.1, h1.2.trans h2.2⟩

/-- Setting a record that differs from the old one only in its version
fields does not change the table's shape. -/
theorem sameShape_set (st : SymbolTable) (h : Nat) (s1 : Symbol)
    (hagree : ((st.symVector.get? h).map (fun s => (s.name, s.symbolKind))) =
      (st.symVector.get? h).map (fun _ => (s1.name, s1.symbolKind))) :
    sameShape st { st with symVector := st.symVector.set h s1 } := by
  refine ⟨rfl, ?_⟩
  rw [List.map_set]
  cases hg : st.symVector.get? h with
  | none =>
    have hlen : st.symVector.length ≤ h := by
      by_contra hlt
      simp only [not_le] at hlt
      rw [List.get?_eq_getElem?, List.getElem?_eq_getElem hlt] at hg
      cases hg
    rw [List.set_eq_of_length_le]
    simp [hlen]
  | some s =>
    rw [hg] at hagree
    simp only [Option.map_some'] at hagree
    have hpair : (s.name, s.symbolKind) = (s1.name, s1.symbolKind) := by
      injection hagree
    rw [← hpair]
    refine (set_get_self _ _ _ ?_).symm
    rw [List.get?_map, hg]
    rfl

theorem keepShape_agree (st : SymbolTable) (h : Nat) (s1 : Symbol)
    (hn : s1.name = (st.getSym h).name)
    (hk : s1.symbolKind = (st.getSym h).symbolKind) :
    ((st.symVector.get? h).map (fun s => (s.name, s.symbolKind))) =
      (st.symVector.get? h).map (fun _ => (s1.name, s1.symbolKind)) := by
  cases hg : st.symVector.get? h with
  | none => rfl
  | some s =>
    have hs := getSym_eq_of_get? st h s hg
    rw [Option.map_some', Option.map_some', hn, hk, hs]

theorem exactStep_sameShape (patName : Name) (id : Nat) (inc : Bool)
    (acc : SymbolTable × List Diag) (h : Nat) :
    sameShape acc.1 (exactStep patName id inc acc h).1 := by
  rcases acc with ⟨st, ds⟩
  simp only [exactStep]
  split
  · exact sameShape_refl st
  · refine sameShape_set st h _ (keepShape_agree st h _ ?_ ?_)
    · split <;> rfl
    · split <;> rfl

theorem wildStep_sameShape (id : Nat) (st : SymbolTable) (h : Nat) :
    sameShape st (wildStep id st h) := by
  simp only [wildStep]
  split
  · exact sameShape_set st h _ (keepShape_agree st h _ rfl rfl)
  · exact sameShape_refl st

theorem exactFold_sameShape (patName : Name) (id : Nat) (inc : Bool)
    (l : List Nat) : ∀ acc : SymbolTable × List Diag,
    sameShape acc.1 (l.foldl (exactStep patName id inc) acc).1 := by
  induction l with
  | nil => intro acc; exact sameShape_refl _
  | cons a rest ih =>
    intro acc
    rw [List.foldl_cons]
    exact sameShape_trans (exactStep_sameShape patName id inc acc a)
      (ih (exactStep patName id inc acc a))

theorem wildFold_sameShape (id : Nat) (l : List Nat) : ∀ st : SymbolTable,
    sameShape st (l.foldl (wildStep id) st) := by
  induction l with
  | nil => intro st; exact sameShape_refl st
  | cons a rest ih =>
    intro st
    rw [List.foldl_cons]
    exact sameShape_trans (wildStep_sameShape id st a) (ih (wildStep id st a))

theorem getSym_shape {st1 st2 : SymbolTable} (hsh : sameShape st1 st2) (h : Nat) :
    (st1.getSym h).name = (st2.getSym h).name ∧
    (st1.getSym h).symbolKind = (st2.getSym h).symbolKind := by
  have hp : (st1.symVector.get? h).map (fun s => (s.name, s.symbolKind)) =
      (st2.symVector.get? h).map (fun s => (s.name, s.symbolKind)) := by
    rw [← List.get?_map, ← List.get?_map, hsh.2]
  cases h1 : st1.symVector.get? h with
  | none =>
    cases h2 : st2.symVector.get? h with
    | none =>
      rw [getSym_eq_default_of_none st1 h h1, getSym_eq_default_of_none st2 h h2]
      exact ⟨rfl, rfl⟩
    | some s2 => rw [h1, h2] at hp; cases hp
  | some s1 =>
    cases h2 : st2.symVector.get? h with
    | none => rw [h1, h2] at hp; cases hp
    | some s2 =>
      rw [h1, h2] at hp
      simp only [Option.map_some', Option.some.injEq, Prod.mk.injEq] at hp
      rw [getSym_eq_of_get? st1 h s1 h1, getSym_eq_of_get? st2 h s2 h2]
      exact hp

theorem length_shape {st1 st2 : SymbolTable} (hsh : sameShape st1 st2) :
    st1.symVector.length = st2.symVector.length := by
  have := congrArg List.length hsh.2
  simpa using this

theorem find_shape {st1 st2 : SymbolTable} (hsh : sameShape st1 st2) (nm : Name) :
    st1.find nm = st2.find nm := by
  unfold SymbolTable.find
  rw [hsh.1]
  cases hl : lookupName st2.symMap nm with
  | none => rfl
  | some idx =>
    have hp : (st1.symVector.get? idx).map (fun s => (s.name, s.symbolKind)) =
        (st2.symVector.get? idx).map (fun s => (s.name, s.symbolKind)) := by
      rw [← List.get?_map, ← List.get?_map, hsh.2]
    cases h1 : st1.symVector.get? idx with
    | none =>
      cases h2 : st2.symVector.get? idx with
      | none => simp only [h1, h2]
      | some s2 => rw [h1, h2] at hp; cases hp
    | some s1 =>
      cases h2 : st2.symVector.get? idx with
      | none => rw [h1, h2] at hp; cases hp
      | some s2 =>
        rw [h1, h2] at hp
        simp only [Option.map_some', Option.some.injEq, Prod.mk.injEq] at hp
        simp only [h1, h2, Symbol.isPlaceholder, hp.2]

theorem findByVersion_shape {st1 st2 : SymbolTable} (hsh : sameShape st1 st2)
    (ext : Ext) (ver : SymbolVersion) :
    findByVersion ext st1 ver = findByVersion ext st2 ver := by
  unfold findByVersion demangledHandles
  rw [find_shape hsh, length_shape hsh]
  have hfix : ∀ i, (canBeVersioned (st1.getSym i) = canBeVersioned (st2.getSym i)) ∧
      (st1.getSym i).name = (st2.getSym i).name := by
    intro i
    have hgs := getSym_shape hsh i
    refine ⟨?_, hgs.1⟩
    simp [canBeVersioned, Symbol.isDefined, Symbol.isCommon, Symbol.isLazy, hgs.2]
  by_cases hcpp : ver.isExternCpp = true
  · simp only [hcpp, if_true]
    refine List.filter_congr (fun i _ => ?_)
    rw [(hfix i).1, (hfix i).2]
  · simp only [Bool.not_eq_true] at hcpp
    simp only [hcpp, Bool.false_eq_true, if_false]
    cases hf : st2.find ver.name with
    | none => rfl
    | some h =>
      show (if canBeVersioned (st1.getSym h) = true then [h] else []) =
        (if canBeVersioned (st2.getSym h) = true then [h] else [])
      rw [(hfix h).1]

theorem findAllByVersion_shape {st1 st2 : SymbolTable} (hsh : sameShape st1 st2)
    (ext : Ext) (ver : SymbolVersion) (inc : Bool) :
    findAllByVersion ext st1 ver inc = findAllByVersion ext st2 ver inc := by
  unfold findAllByVersion
  rw [length_shape hsh]
  have hfix : ∀ i, (canBeVersioned (st1.getSym i) = canBeVersioned (st2.getSym i)) ∧
      (st1.getSym i).name = (st2.getSym i).name := by
    intro i
    have hgs := getSym_shape hsh i
    refine ⟨?_, hgs.1⟩
    simp [canBeVersioned, Symbol.isDefined, Symbol.isCommon, Symbol.isLazy, hgs.2]
  by_cases hcpp : ver.isExternCpp = true
  · simp only [hcpp, if_true]
    refine List.filter_congr (fun i _ => ?_)
    rw [(hfix i).1, (hfix i).2]
  · simp only [Bool.not_eq_true] at hcpp
    simp only [hcpp, Bool.false_eq_true, if_false]
    refine List.filter_congr (fun i _ => ?_)
    rw [(hfix i).1, (hfix i).2]

theorem exactStep_diags_extend (patName : Name) (id : Nat) (inc : Bool)
    (acc : SymbolTable × List Diag) (h : Nat) :
    ∃ t, (exactStep patName id inc acc h).2 = acc.2 ++ t ∧
      ∀ d ∈ t, ∃ o n, d = Diag.reassign patName o n := by
  rcases acc with ⟨st, ds⟩
  simp only [exactStep]
  repeat' split
  all_goals first
    | exact ⟨[], (List.append_nil _).symm, fun d hd => absurd hd (List.not_mem_nil d)⟩
    | exact ⟨[Diag.reassign patName _ id], rfl,
        fun d hd => ⟨_, _, List.mem_singleton.mp hd⟩⟩

theorem exactFold_diags_extend (patName : Name) (id : Nat) (inc : Bool)
    (l : List Nat) : ∀ acc : SymbolTable × List Diag,
    ∃ t, (l.foldl (exactStep patName id inc) acc).2 = acc.2 ++ t ∧
      ∀ d ∈ t, ∃ o n, d = Diag.reassign patName o n := by
  induction l with
  | nil => intro acc; exact ⟨[], by simp, by simp⟩
  | cons a rest ih =>
    intro acc
    rw [List.foldl_cons]
    obtain ⟨t1, ht1, hall1⟩ := exactStep_diags_extend patName id inc acc a
    obtain ⟨t2, ht2, hall2⟩ := ih (exactStep patName id inc acc a)
    refine ⟨t1 ++ t2, ?_, ?_⟩
    · rw [ht2, ht1, List.append_assoc]
    · intro d hd
      rcases List.mem_append.mp hd with hd | hd
      · exact hall1 d hd
      · exact hall2 d hd

theorem assignExactVersion_diags (ext : Ext) (st : SymbolTable) (ver : SymbolVersion)
    (id : Nat) (inc : Bool) :
    ∀ d ∈ (assignExactVersion ext st ver id inc).2.1,
      ∃ o n, d = Diag.reassign ver.name o n := by
  obtain ⟨t, ht, hall⟩ :=
    exactFold_diags_extend ver.name id inc (findByVersion ext st ver) (st, [])
  intro d hd
  simp only [assignExactVersion] at hd
  rw [ht] at hd
  simp only [List.nil_append] at hd
  exact hall d hd

theorem assignExactVersion_sameShape (ext : Ext) (st : SymbolTable)
    (ver : SymbolVersion) (id : Nat) (inc : Bool) :
    sameShape st (assignExactVersion ext st ver id inc).1 := by
  simp only [assignExactVersion]
  exact exactFold_sameShape ver.name id inc (findByVersion ext st ver) (st, [])

/-- C8 counterexample: a wildcard rule (`z*` in block `V1`) that matches
no symbol at all produces NO diagnostic from `scanVersionScript`, even
though the allow-undefined-version override is unset — contrary to the
claim that every rule matching no eligible symbol reports the
recoverable error. -/
theorem versionScript_wildcard_miss_silent :
    (Config.mk [⟨['V', '1'], 2, [⟨['z', '*'], false, true⟩], []⟩] false
        []).undefinedVersion = false ∧
    findAllByVersion scenarioExt abcTable ⟨['z', '*'], false, true⟩ true = [] ∧
    (scanVersionScript scenarioExt
      (Config.mk [⟨['V', '1'], 2, [⟨['z', '*'], false, true⟩], []⟩] false [])
      abcTable).2 = [] := by decide

/-- C8 (amended): for EXACT (non-wildcard) rules the claim holds as
stated: a rule whose pattern matches no eligible symbol in either its
bare or its `name@block` form reports the recoverable "symbol not
defined" error and changes nothing — unless the allow-undefined-version
override is set, in which case the miss is silently accepted; and a rule
that does match in either form never emits that error.  Wildcard rules
that match nothing are always silently accepted (see the
counterexample). -/
theorem assignExact_miss_error (ext : Ext) (cfg : Config) (blockName : Name)
    (pat : SymbolVersion) (id : Nat) (verStr : Name) (st : SymbolTable) :
    (findByVersion ext st pat = [] →
      findByVersion ext st (patAt pat blockName false) = [] →
      assignExact ext cfg blockName pat id verStr st =
        (st, if cfg.undefinedVersion then []
             else [Diag.undefVersion verStr pat.name])) ∧
    ((¬ findByVersion ext st pat = [] ∨
      ¬ findByVersion ext st (patAt pat blockName false) = []) →
      ∀ v p, ¬ Diag.undefVersion v p ∈
        (assignExact ext cfg blockName pat id verStr st).2) := by
  constructor
  · intro h1 h2
    simp only [assignExact, assignExactVersion, h1, List.foldl_nil]
    simp only [h2, List.foldl_nil, List.isEmpty_nil]
    cases hu : cfg.undefinedVersion <;> simp [hu]
  · intro hfound v p hd
    have hsh := assignExactVersion_sameShape ext st pat id false
    have hfb : findByVersion ext (assignExactVersion ext st pat id false).1
        (patAt pat blockName false) =
        findByVersion ext st (patAt pat blockName false) :=
      (findByVersion_shape hsh ext (patAt pat blockName false)).symm
    have hfnd : ∀ (st' : SymbolTable) (ver : SymbolVersion) (inc : Bool),
        (assignExactVersion ext st' ver id inc).2.2 =
          !(findByVersion ext st' ver).isEmpty := fun _ _ _ => rfl
    have hor : ((assignExactVersion ext st pat id false).2.2 ||
        (assignExactVersion ext (assignExactVersion ext st pat id false).1
          (patAt pat blockName false) id true).2.2) = true := by
      rw [Bool.or_eq_true, hfnd, hfnd, hfb]
      rcases hfound with hf | hf
      · exact Or.inl (by simp [List.isEmpty_iff, hf])
      · exact Or.inr (by simp [List.isEmpty_iff, hf])
    simp only [assignExact] at hd
    rw [hor] at hd
    simp only [Bool.not_true, Bool.false_and, Bool.false_eq_true, if_false,
      List.append_nil] at hd
    rcases List.mem_append.mp hd with hd | hd
    · obtain ⟨o, n, he⟩ := assignExactVersion_diags ext st pat id false _ hd
      exact Diag.noConfusion he
    · obtain ⟨o, n, he⟩ := assignExactVersion_diags ext
        (assignExactVersion ext st pat id false).1 (patAt pat blockName false) id true _ hd
      exact Diag.noConfusion he

/-- Witness for the amended C8: in the one-symbol table `abc` with the
override unset, the exact rule `z` (matching nothing in either form)
reports the recoverable error and leaves the table unchanged, while the
matching exact rule `abc` emits no such error. -/
theorem assignExact_miss_error_witness :
    (findByVersion scenarioExt abcTable ⟨['z'], false, false⟩ = [] ∧
     findByVersion scenarioExt abcTable
       (patAt ⟨['z'], false, false⟩ ['V', '1'] false) = [] ∧
     assignExact scenarioExt (Config.mk [] false []) ['V', '1']
         ⟨['z'], false, false⟩ 2 ['V', '1'] abcTable =
       (abcTable, [Diag.undefVersion ['V', '1'] ['z']])) ∧
    (¬ findByVersion scenarioExt abcTable ⟨['a', 'b', 'c'], false, false⟩ = [] ∧
     ¬ Diag.undefVersion ['V', '1'] ['a', 'b', 'c'] ∈
       (assignExact scenarioExt (Config.mk [] false []) ['V', '1']
         ⟨['a', 'b', 'c'], false, false⟩ 2 ['V', '1'] abcTable).2) := by
  constructor
  · refine ⟨by decide, by decide, ?_⟩
    exact (assignExact_miss_error scenarioExt (Config.mk [] false []) ['V', '1']
      ⟨['z'], false, false⟩ 2 ['V', '1'] abcTable).1 (by decide) (by decide)
  · refine ⟨by decide, ?_⟩
    exact (assignExact_miss_error scenarioExt (Config.mk [] false []) ['V', '1']
      ⟨['a', 'b', 'c'], false, false⟩ 2 ['V', '1'] abcTable).2
      (Or.inl (by decide)) ['V', '1'] ['a', 'b', 'c']

/-! ## C3 -/

theorem versionState_eq_some (st : SymbolTable) (h d v : Nat) :
    versionState st h = some (d, v) ↔
      ∃ s, st.symVector.get? h = some s ∧ s.verdefIndex = d ∧ s.versionId = v := by
  simp [versionState, Option.map_eq_some', Prod.ext_iff, and_assoc]

theorem exactStep_keeps (patName : Name) (id : Nat) (inc : Bool)
    (st : SymbolTable) (ds : List Diag) (h' h : Nat) (s : Symbol)
    (hget : st.symVector.get? h = some s)
    (hd : ¬ s.verdefIndex = VERDEF_UNSET) :
    (exactStep patName id inc (st, ds) h').1.symVector.get? h = some s := by
  by_cases he : h' = h
  · subst he
    have hs := getSym_eq_of_get? st h' s hget
    have hcond : (s.verdefIndex == VERDEF_UNSET) = false := by simp [hd]
    simp only [exactStep, hs, hcond, Bool.false_eq_true, if_false]
    split
    · exact hget
    · dsimp only
      rw [set_get_self _ _ _ hget]
      exact hget
  · simp only [exactStep]
    split
    · exact hget
    · dsimp only
      rw [get?_set_ne _ _ _ _ he]
      exact hget

theorem exactFold_keeps (patName : Name) (id : Nat) (inc : Bool) (l : List Nat)
    (h : Nat) (s : Symbol) (hd : ¬ s.verdefIndex = VERDEF_UNSET) :
    ∀ (st : SymbolTable) (ds : List Diag),
      st.symVector.get? h = some s →
      (l.foldl (exactStep patName id inc) (st, ds)).1.symVector.get? h = some s := by
  induction l with
  | nil => intro st ds hget; exact hget
  | cons a rest ih =>
    intro st ds hget
    rw [List.foldl_cons]
    have hstep := exactStep_keeps patName id inc st ds a h s hget hd
    have heta : exactStep patName id inc (st, ds) a =
        ((exactStep patName id inc (st, ds) a).1,
         (exactStep patName id inc (st, ds) a).2) := rfl
    rw [heta]
    exact ih _ _ hstep

theorem wildStep_keeps (id : Nat) (st : SymbolTable) (h' h : Nat) (s : Symbol)
    (hget : st.symVector.get? h = some s)
    (hd : ¬ s.verdefIndex = VERDEF_UNSET) :
    (wildStep id st h').symVector.get? h = some s := by
  by_cases he : h' = h
  · subst he
    have hs := getSym_eq_of_get? st h' s hget
    have hcond : (s.verdefIndex == VERDEF_UNSET) = false := by simp [hd]
    simp only [wildStep, hs, hcond, Bool.false_eq_true, if_false]
    exact hget
  · simp only [wildStep]
    split
    · dsimp only
      rw [get?_set_ne _ _ _ _ he]
      exact hget
    · exact hget

theorem foldl_keeps {β : Type} (P : SymbolTable → Prop)
    (f : SymbolTable → β → SymbolTable)
    (hf : ∀ st b, P st → P (f st b)) :
    ∀ (l : List β) (st : SymbolTable), P st → P (l.foldl f st) := by
  intro l
  induction l with
  | nil => intro st h; exact h
  | cons a rest ih => intro st h; exact ih (f st a) (hf st a h)

theorem assignWildcardVersion_keeps (ext : Ext) (st : SymbolTable)
    (ver : SymbolVersion) (id : Nat) (inc : Bool) (h : Nat) (s : Symbol)
    (hget : st.symVector.get? h = some s)
    (hd : ¬ s.verdefIndex = VERDEF_UNSET) :
    (assignWildcardVersion ext st ver id inc).symVector.get? h = some s := by
  simp only [assignWildcardVersion]
  exact foldl_keeps (fun st' => st'.symVector.get? h = some s) (wildStep id)
    (fun st' b hp => wildStep_keeps id st' b h s hp hd) _ st hget

theorem assignWildcard_keeps (ext : Ext) (pat : SymbolVersion) (id : Nat)
    (verStr : Name) (st : SymbolTable) (h : Nat) (s : Symbol)
    (hget : st.symVector.get? h = some s)
    (hd : ¬ s.verdefIndex = VERDEF_UNSET) :
    (assignWildcard ext pat id verStr st).symVector.get? h = some s := by
  simp only [assignWildcard]
  exact assignWildcardVersion_keeps ext _ _ id true h s
    (assignWildcardVersion_keeps ext st pat id false h s hget hd) hd

theorem runWildBlock_keeps (ext : Ext) (isStar : Bool) (v : VersionDefinition)
    (st : SymbolTable) (h : Nat) (s : Symbol)
    (hget : st.symVector.get? h = some s)
    (hd : ¬ s.verdefIndex = VERDEF_UNSET) :
    (runWildBlock ext isStar v st).symVector.get? h = some s := by
  simp only [runWildBlock]
  have hstep : ∀ (id : Nat) (st' : SymbolTable) (pat : SymbolVersion),
      st'.symVector.get? h = some s →
      (if pat.hasWildcard && ((pat.name == ['*']) == isStar)
       then assignWildcard ext pat id v.name st' else st').symVector.get? h = some s := by
    intro id st' pat hp
    split
    · exact assignWildcard_keeps ext pat id v.name st' h s hp hd
    · exact hp
  exact foldl_keeps (fun st' => st'.symVector.get? h = some s) _
    (fun st' pat hp => hstep VER_NDX_LOCAL st' pat hp) _ _
    (foldl_keeps (fun st' => st'.symVector.get? h = some s) _
      (fun st' pat hp => hstep v.id st' pat hp) _ _ hget)

theorem runPass3_keeps (ext : Ext) (cfg : Config) (st : SymbolTable)
    (h : Nat) (s : Symbol) (hget : st.symVector.get? h = some s)
    (hd : ¬ s.verdefIndex = VERDEF_UNSET) :
    (runPass3 ext cfg st).symVector.get? h = some s := by
  simp only [runPass3]
  exact foldl_keeps (fun st' => st'.symVector.get? h = some s) _
    (fun st' v hp => runWildBlock_keeps ext true v st' h s hp hd) _ st hget

theorem parseSpec_fields (s : Symbol) :
    (parseSymbolVersionSpec s).verdefIndex = s.verdefIndex ∧
    (parseSymbolVersionSpec s).versionId = s.versionId := by
  unfold parseSymbolVersionSpec
  cases firstAt s.name <;> exact ⟨rfl, rfl⟩

theorem parseAll_versionState (st : SymbolTable) (h : Nat) :
    versionState (parseAllSymbolVersions st) h = versionState st h := by
  simp only [versionState, parseAllSymbolVersions]
  rw [List.get?_map]
  cases hg : st.symVector.get? h with
  | none => rfl
  | some s =>
    simp only [Option.map_some']
    rw [(parseSpec_fields s).1, (parseSpec_fields s).2]

theorem dynStep_versionState (st : SymbolTable) (h' h d v : Nat)
    (hp : versionState st h = some (d, v)) :
    versionState (dynStep st h') h = some (d, v) := by
  obtain ⟨s, hget, hdv, hvv⟩ := (versionState_eq_some st h d v).mp hp
  by_cases he : h' = h
  · subst he
    have hs := getSym_eq_of_get? st h' s hget
    have hlt : h' < st.symVector.length := by
      by_contra hge
      simp only [not_lt] at hge
      rw [List.get?_eq_getElem?, List.getElem?_eq_none hge] at hget
      cases hget
    refine (versionState_eq_some _ h' d v).mpr ⟨{ s with inDynamicList := true }, ?_, hdv, hvv⟩
    simp only [dynStep, hs]
    exact get?_set_eq _ _ _ hlt
  · refine (versionState_eq_some _ h d v).mpr ⟨s, ?_, hdv, hvv⟩
    simp only [dynStep]
    rw [get?_set_ne _ _ _ _ he]
    exact hget

theorem handleDynamicList_versionState (ext : Ext) (cfg : Config)
    (st : SymbolTable) (h d v : Nat)
    (hp : versionState st h = some (d, v)) :
    versionState (handleDynamicList ext cfg st) h = some (d, v) := by
  simp only [handleDynamicList]
  refine foldl_keeps (fun st' => versionState st' h = some (d, v)) _ ?_ _ st hp
  intro st' ver hp'
  exact foldl_keeps (fun st'' => versionState st'' h = some (d, v)) dynStep
    (fun st'' b hq => dynStep_versionState st'' b h d v hq) _ st' hp'

/-- If a symbol is already versioned when pass 2 finishes, nothing later
in `scanVersionScript` (the bare-`*` pass, the name normalisation, the
dynamic list) changes its version assignment. -/
theorem scan_after_pass2_keeps (ext : Ext) (cfg : Config) (st : SymbolTable)
    (h d v : Nat) (hd : ¬ d = VERDEF_UNSET)
    (hp : versionState (runPass2 ext cfg (runPass1 ext cfg st).1) h = some (d, v)) :
    versionState (scanVersionScript ext cfg st).1 h = some (d, v) := by
  obtain ⟨s, hget, hdv, hvv⟩ := (versionState_eq_some _ h d v).mp hp
  have hd' : ¬ s.verdefIndex = VERDEF_UNSET := by rw [hdv]; exact hd
  have h3 := runPass3_keeps ext cfg _ h s hget hd'
  have h4 : versionState (parseAllSymbolVersions
      (runPass3 ext cfg (runPass2 ext cfg (runPass1 ext cfg st).1))) h = some (d, v) := by
    rw [parseAll_versionState]
    exact (versionState_eq_some _ h d v).mpr ⟨s, h3, hdv, hvv⟩
  have h5 := handleDynamicList_versionState ext cfg _ h d v h4
  exact h5

/-- The warning branch of `assignExactVersion`'s loop: a matched,
already-versioned symbol that is not skipped and carries a different
version gets the non-fatal reassign warning, and its record is not
changed by the loop. -/
theorem exactFold_warn (patName : Name) (id : Nat) (inc : Bool) (l : List Nat)
    (h : Nat) (s : Symbol)
    (hd : ¬ s.verdefIndex = VERDEF_UNSET)
    (hv : ¬ s.versionId = id)
    (hskip : inc = true ∨ id = VER_NDX_LOCAL ∨ hasAt s.name = false) :
    ∀ (st : SymbolTable) (ds : List Diag),
      st.symVector.get? h = some s → h ∈ l →
      Diag.reassign patName s.versionId id ∈
        (l.foldl (exactStep patName id inc) (st, ds)).2 := by
  induction l with
  | nil => intro st ds _ hmem; cases hmem
  | cons a rest ih =>
    intro st ds hget hmem
    rw [List.foldl_cons]
    rcases List.mem_cons.mp hmem with hmem | hmem
    · subst hmem
      have hs := getSym_eq_of_get? st h s hget
      have hcond : (s.verdefIndex == VERDEF_UNSET) = false := by simp [hd]
      have hvcond : (s.versionId == id) = false := by simp [hv]
      have hskipc : (!inc && !(id == VER_NDX_LOCAL) && hasAt s.name) = false := by
        rcases hskip with hs1 | hs1 | hs1 <;> simp [hs1]
      have hstep : exactStep patName id inc (st, ds) h =
          ({ st with symVector := st.symVector.set h s },
           ds ++ [Diag.reassign patName s.versionId id]) := by
        simp only [exactStep, hs, hskipc, Bool.false_eq_true, if_false,
          hcond, hvcond]
      rw [hstep]
      obtain ⟨t, ht, _⟩ := exactFold_diags_extend patName id inc rest
        ({ st with symVector := st.symVector.set h s },
         ds ++ [Diag.reassign patName s.versionId id])
      rw [ht]
      simp
    · have hstep := exactStep_keeps patName id inc st ds a h s hget hd
      have heta : exactStep patName id inc (st, ds) a =
          ((exactStep patName id inc (st, ds) a).1,
           (exactStep patName id inc (st, ds) a).2) := rfl
      rw [heta]
      exact ih _ _ hstep hmem

/-- C3: the assignment discipline of `scanVersionScript`.
(1)–(2) the `verdefIndex` sentinel gates every write: an
already-assigned symbol's version state survives any further exact or
wildcard assignment untouched; (3) hence anything assigned by the end of
pass 2 — in particular every exact (pass 1) assignment — survives the
bare-`*` pass and the rest of the scan, so a bare `*` never overrides a
non-`*` assignment; (4) an exact rule that targets an already-versioned,
non-skipped symbol with a different version emits the non-fatal reassign
warning naming both versions and leaves the record unchanged;
(5)–(6) the exact pattern `foo` in `V1` beats the wildcard `*` in `V2`
in either block order; (7) of two `a*` wildcard blocks the later-defined
one wins. -/
theorem scanVersionScript_precedence :
    (∀ (ext : Ext) (st : SymbolTable) (ver : SymbolVersion) (id : Nat) (inc : Bool)
       (h d v : Nat), ¬ d = VERDEF_UNSET → versionState st h = some (d, v) →
       versionState (assignExactVersion ext st ver id inc).1 h = some (d, v)) ∧
    (∀ (ext : Ext) (st : SymbolTable) (ver : SymbolVersion) (id : Nat) (inc : Bool)
       (h d v : Nat), ¬ d = VERDEF_UNSET → versionState st h = some (d, v) →
       versionState (assignWildcardVersion ext st ver id inc) h = some (d, v)) ∧
    (∀ (ext : Ext) (cfg : Config) (st : SymbolTable) (h d v : Nat),
       ¬ d = VERDEF_UNSET →
       versionState (runPass2 ext cfg (runPass1 ext cfg st).1) h = some (d, v) →
       versionState (scanVersionScript ext cfg st).1 h = some (d, v)) ∧
    (∀ (ext : Ext) (st : SymbolTable) (ver : SymbolVersion) (id : Nat) (inc : Bool)
       (h : Nat) (s : Symbol),
       st.symVector.get? h = some s → h ∈ findByVersion ext st ver →
       ¬ s.verdefIndex = VERDEF_UNSET → ¬ s.versionId = id →
       (inc = true ∨ id = VER_NDX_LOCAL ∨ hasAt s.name = false) →
       Diag.reassign ver.name s.versionId id ∈
           (assignExactVersion ext st ver id inc).2.1 ∧
         (assignExactVersion ext st ver id inc).1.symVector.get? h = some s) ∧
    (versionState (scanVersionScript scenarioExt
      (Config.mk [blockExactFoo, blockStar ['V', '2'] 3] false []) fooTable).1 0 =
      some (0, 2)) ∧
    (versionState (scanVersionScript scenarioExt
      (Config.mk [blockStar ['V', '2'] 3, blockExactFoo] false []) fooTable).1 0 =
      some (0, 2)) ∧
    (versionState (scanVersionScript scenarioExt
      (Config.mk [blockAStar ['V', '1'] 2, blockAStar ['V', '2'] 3] false [])
      abcTable).1 0 = some (0, 3)) := by
  refine ⟨?_, ?_, ?_, ?_, by decide, by decide, by decide⟩
  · intro ext st ver id inc h d v hd hp
    obtain ⟨s, hget, hdv, hvv⟩ := (versionState_eq_some st h d v).mp hp
    have hd' : ¬ s.verdefIndex = VERDEF_UNSET := by rw [hdv]; exact hd
    refine (versionState_eq_some _ h d v).mpr ⟨s, ?_, hdv, hvv⟩
    simp only [assignExactVersion]
    exact exactFold_keeps ver.name id inc _ h s hd' st [] hget
  · intro ext st ver id inc h d v hd hp
    obtain ⟨s, hget, hdv, hvv⟩ := (versionState_eq_some st h d v).mp hp
    have hd' : ¬ s.verdefIndex = VERDEF_UNSET := by rw [hdv]; exact hd
    refine (versionState_eq_some _ h d v).mpr ⟨s, ?_, hdv, hvv⟩
    exact assignWildcardVersion_keeps ext st ver id inc h s hget hd'
  · exact fun ext cfg st h d v hd hp => scan_after_pass2_keeps ext cfg st h d v hd hp
  · intro ext st ver id inc h s hget hmem hd hv hskip
    constructor
    · simp only [assignExactVersion]
      exact exactFold_warn ver.name id inc _ h s hd hv hskip st [] hget hmem
    · simp only [assignExactVersion]
      exact exactFold_keeps ver.name id inc _ h s hd st [] hget

/-- Witness for C3 on the concrete table whose symbol `x` is already
assigned to version 5: both primitive assigners leave its state
untouched, the warning fires for the exact rule targeting version 7, and
the survival property holds through a full scan with a bare-`*` block. -/
theorem scanVersionScript_precedence_witness :
    ((¬ (0 : Nat) = VERDEF_UNSET) ∧ versionState assignedTable 0 = some (0, 5)) ∧
    versionState (assignExactVersion scenarioExt assignedTable
      ⟨['x'], false, false⟩ 7 false).1 0 = some (0, 5) ∧
    versionState (assignWildcardVersion scenarioExt assignedTable
      ⟨['*'], false, true⟩ 7 false) 0 = some (0, 5) ∧
    (Diag.reassign ['x'] 5 7 ∈ (assignExactVersion scenarioExt assignedTable
        ⟨['x'], false, false⟩ 7 false).2.1 ∧
     (assignExactVersion scenarioExt assignedTable
        ⟨['x'], false, false⟩ 7 false).1.symVector.get? 0 =
       some (assignedTable.symVector.getD 0 default)) ∧
    versionState (scanVersionScript scenarioExt
      (Config.mk [blockStar ['V', '9'] 9] false []) assignedTable).1 0 =
      some (0, 5) := by
  have h := scanVersionScript_precedence
  refine ⟨⟨by decide, by decide⟩, ?_, ?_, ?_, ?_⟩
  · exact h.1 scenarioExt assignedTable ⟨['x'], false, false⟩ 7 false 0 0 5
      (by decide) (by decide)
  · exact h.2.1 scenarioExt assignedTable ⟨['*'], false, true⟩ 7 false 0 0 5
      (by decide) (by decide)
  · exact h.2.2.2.1 scenarioExt assignedTable ⟨['x'], false, false⟩ 7 false 0
      (assignedTable.symVector.getD 0 default) (by decide) (by decide) (by decide)
      (by decide) (Or.inr (Or.inr (by decide)))
  · exact h.2.2.1 scenarioExt (Config.mk [blockStar ['V', '9'] 9] false [])
      assignedTable 0 0 5 (by decide) (by decide)

/-! ## Density bridge lemmas -/

theorem get?_some_lt {α : Type} (l : List α) (i : Nat) (x : α)
    (h : l.get? i = some x) : i < l.length := by
  by_contra hge
  simp only [not_lt] at hge
  rw [List.get?_eq_getElem?, List.getElem?_eq_none hge] at h
  cases h

/-- `densityLe` computes the rational density comparison. -/
theorem densityLe_iff (a b : Cluster) :
    densityLe a b = true ↔ a.getDensity ≤ b.getDensity := by
  unfold densityLe Cluster.getDensity
  by_cases ha : a.size = 0
  · rw [if_pos ha, if_pos ha]
    constructor
    · intro _
      split
      · exact le_refl 0
      · positivity
    · intro _
      rfl
  · rw [if_neg ha, if_neg ha]
    have hsa : (0 : ℚ) < (a.size : ℚ) := by exact_mod_cast Nat.pos_of_ne_zero ha
    by_cases hb : b.size = 0
    · rw [if_pos hb, if_pos hb, beq_iff_eq]
      rw [div_le_iff hsa, zero_mul]
      constructor
      · intro h
        rw [h]
        norm_num
      · intro h
        have h0 : (a.weight : ℚ) ≤ 0 := h
        exact_mod_cast le_antisymm h0 (by positivity)
    · rw [if_neg hb, if_neg hb]
      have hsb : (0 : ℚ) < (b.size : ℚ) := by exact_mod_cast Nat.pos_of_ne_zero hb
      rw [decide_eq_true_eq, div_le_div_iff hsa hsb]
      constructor <;> intro h <;> exact_mod_cast h

/-- `isNewDensityBad` computes the rational density-degradation test
whenever the combined (wrapped) size is nonzero. -/
theorem isNewDensityBad_iff (a b : Cluster)
    (hs : ¬ ((a.size + b.size) % U64) = 0) :
    isNewDensityBad a b = true ↔
      ((((a.weight + b.weight) % U64 : Nat) : ℚ) /
          (((a.size + b.size) % U64 : Nat) : ℚ) <
        a.getDensity / (MAX_DENSITY_DEGRADATION : ℚ)) := by
  unfold isNewDensityBad Cluster.getDensity
  rw [if_neg hs]
  have hS : (0 : ℚ) < (((a.size + b.size) % U64 : Nat) : ℚ) := by
    exact_mod_cast Nat.pos_of_ne_zero hs
  by_cases ha : a.size = 0
  · rw [if_pos ha, if_pos ha, zero_div]
    constructor
    · intro h
      cases h
    · intro h
      exfalso
      have hnn : (0 : ℚ) ≤ (((a.weight + b.weight) % U64 : Nat) : ℚ) /
          (((a.size + b.size) % U64 : Nat) : ℚ) := by positivity
      exact absurd h (not_lt.mpr hnn)
  · rw [if_neg ha, if_neg ha]
    have hsa : (0 : ℚ) < (a.size : ℚ) := by exact_mod_cast Nat.pos_of_ne_zero ha
    have h8 : (0 : ℚ) < (a.size : ℚ) * (MAX_DENSITY_DEGRADATION : ℚ) := by
      have h8' : (0 : ℚ) < (MAX_DENSITY_DEGRADATION : ℚ) := by
        norm_num [MAX_DENSITY_DEGRADATION]
      positivity
    rw [decide_eq_true_eq, div_div, div_lt_div_iff hS h8]
    constructor <;> intro h <;> exact_mod_cast h

/-! ## C6 -/

theorem listUpd_get?_ne {α : Type} (l : List α) (i j : Nat) (f : α → α)
    (h : ¬ i = j) : (listUpd l i f).get? j = l.get? j := by
  unfold listUpd
  cases hg : l.get? i with
  | none => rfl
  | some x => exact get?_set_ne _ _ _ _ h

theorem listUpd_get?_eq {α : Type} (l : List α) (i : Nat) (f : α → α) :
    (listUpd l i f).get? i = (l.get? i).map f := by
  unfold listUpd
  cases hg : l.get? i with
  | none => exact hg
  | some x =>
    simp only [hg, Option.map_some']
    exact get?_set_eq _ _ _ (get?_some_lt _ _ _ hg)

/-- C6: the per-edge processing of the graph constructor.  An edge is
dropped exactly when its endpoints' output sections differ (the state is
left untouched); otherwise, after the lazy creation of the endpoint
clusters, only the destination cluster changes, by `edgeDestCluster`:
the weight is accumulated, and only for distinct endpoints is the best
predecessor replaced by the new edge, and only on strict improvement
(ties keep the first-seen edge).  After all edges every cluster's
`initialWeight` equals its accumulated weight. -/
theorem cgraph_edge_processing (d : SecData) (profile : List ((Nat × Nat) × Nat))
    (g : CGState) (e : (Nat × Nat) × Nat) :
    (¬ d.outSec (d.repl e.1.1) = d.outSec (d.repl e.1.2) → edgeStep d g e = g) ∧
    (d.outSec (d.repl e.1.1) = d.outSec (d.repl e.1.2) →
      (edgeStep d g e).sections = (edgeEndpoints d g e).2.2.sections ∧
      (edgeStep d g e).secToCluster = (edgeEndpoints d g e).2.2.secToCluster ∧
      (∀ j, ¬ j = (edgeEndpoints d g e).2.1 →
        (edgeStep d g e).clusters.get? j =
          (edgeEndpoints d g e).2.2.clusters.get? j) ∧
      (edgeStep d g e).clusters.get? (edgeEndpoints d g e).2.1 =
        ((edgeEndpoints d g e).2.2.clusters.get? (edgeEndpoints d g e).2.1).map
          (edgeDestCluster (edgeEndpoints d g e).1 (edgeEndpoints d g e).2.1 e.2)) ∧
    (∀ c ∈ (buildGraph d profile).clusters, c.initialWeight = c.weight) := by
  refine ⟨?_, ?_, ?_⟩
  · intro hne
    have hb : (d.outSec (d.repl e.1.1) == d.outSec (d.repl e.1.2)) = false := by
      simp [hne]
    simp [edgeStep, hb]
  · intro heq
    have hb : (!(d.outSec (d.repl e.1.1) == d.outSec (d.repl e.1.2))) = false := by
      simp [heq]
    refine ⟨?_, ?_, ?_, ?_⟩
    · simp only [edgeStep, edgeEndpoints, hb, Bool.false_eq_true, if_false]
      split <;> rfl
    · simp only [edgeStep, edgeEndpoints, hb, Bool.false_eq_true, if_false]
      split <;> rfl
    · intro j hj
      simp only [edgeEndpoints] at hj
      simp only [edgeStep, edgeEndpoints, hb, Bool.false_eq_true, if_false]
      split
      · exact listUpd_get?_ne _ _ _ _ (fun he' => hj he'.symm)
      · rw [listUpd_get?_ne _ _ _ _ (fun he' => hj he'.symm),
            listUpd_get?_ne _ _ _ _ (fun he' => hj he'.symm)]
    · simp only [edgeStep, edgeEndpoints, hb, Bool.false_eq_true, if_false]
      by_cases hft : ((getOrCreateNode d g (d.repl e.1.1)).1 ==
          (getOrCreateNode d (getOrCreateNode d g (d.repl e.1.1)).2 (d.repl e.1.2)).1) = true
      · rw [if_pos hft, listUpd_get?_eq]
        cases hg : (getOrCreateNode d (getOrCreateNode d g (d.repl e.1.1)).2
            (d.repl e.1.2)).2.clusters.get?
            (getOrCreateNode d (getOrCreateNode d g (d.repl e.1.1)).2 (d.repl e.1.2)).1 with
        | none => rfl
        | some c =>
          simp only [Option.map_some']
          simp only [edgeDestCluster, hft, if_true]
      · rw [if_neg (by simpa using hft), listUpd_get?_eq, listUpd_get?_eq, Option.map_map]
        cases hg : (getOrCreateNode d (getOrCreateNode d g (d.repl e.1.1)).2
            (d.repl e.1.2)).2.clusters.get?
            (getOrCreateNode d (getOrCreateNode d g (d.repl e.1.1)).2 (d.repl e.1.2)).1 with
        | none => rfl
        | some c =>
          simp only [Option.map_some', Function.comp]
          simp only [edgeDestCluster, hft, Bool.false_eq_true, if_false]
  · intro c hc
    simp only [buildGraph, List.mem_map] at hc
    obtain ⟨c0, _, hc0⟩ := hc
    rw [← hc0]

/-- Witness for C6: a cross-output-section edge is dropped; an accepted
edge updates exactly the destination cluster; `initialWeight` equals the
accumulated weight on a concrete one-edge profile. -/
theorem cgraph_edge_processing_witness :
    (¬ secDataSplit.outSec (secDataSplit.repl 0) = secDataSplit.outSec (secDataSplit.repl 1) ∧
     edgeStep secDataSplit ⟨[], [], []⟩ ((0, 1), 5) = ⟨[], [], []⟩) ∧
    (secDataUniform.outSec (secDataUniform.repl 0) =
        secDataUniform.outSec (secDataUniform.repl 1) ∧
     (edgeStep secDataUniform ⟨[], [], []⟩ ((0, 1), 5)).clusters.get?
         (edgeEndpoints secDataUniform ⟨[], [], []⟩ ((0, 1), 5)).2.1 =
       ((edgeEndpoints secDataUniform ⟨[], [], []⟩ ((0, 1), 5)).2.2.clusters.get?
           (edgeEndpoints secDataUniform ⟨[], [], []⟩ ((0, 1), 5)).2.1).map
         (edgeDestCluster (edgeEndpoints secDataUniform ⟨[], [], []⟩ ((0, 1), 5)).1
           (edgeEndpoints secDataUniform ⟨[], [], []⟩ ((0, 1), 5)).2.1 5)) ∧
    ((buildGraph secDataUniform [((0, 1), 5)]).clusters.getD 1 default ∈
        (buildGraph secDataUniform [((0, 1), 5)]).clusters ∧
     ((buildGraph secDataUniform [((0, 1), 5)]).clusters.getD 1 default).initialWeight =
       ((buildGraph secDataUniform [((0, 1), 5)]).clusters.getD 1 default).weight) := by
  refine ⟨⟨by decide, ?_⟩, ⟨by decide, ?_⟩, ⟨by decide, ?_⟩⟩
  · exact (cgraph_edge_processing secDataSplit [] ⟨[], [], []⟩ ((0, 1), 5)).1 (by decide)
  · exact ((cgraph_edge_processing secDataUniform [] ⟨[], [], []⟩ ((0, 1), 5)).2.1
      (by decide)).2.2.2
  · exact (cgraph_edge_processing secDataUniform [((0, 1), 5)] ⟨[], [], []⟩
      ((0, 1), 5)).2.2 _ (by decide)

/-! ## C5 -/

/-- C5: the gate chain of the greedy merge pass.  A cluster `l` with its
best-predecessor representative resolved to `predL` is merged into
`predL` (and its leader rebound) exactly when all gates pass: a
predecessor exists, its weight times ten (`uint64`) exceeds the
cluster's initial weight, the representatives differ, the combined size
stays within the 1 MiB cap, and the combined density is not below the
representative's density divided by 8.  When any gate fails the clusters
are left untouched — the step only skips, the fold over the remaining
clusters continues (the leader array may still carry the lookup's path
halving). -/
theorem mergeStep_gates (cs : List Cluster) (ls : List Nat) (l : Nat) :
    (mergeGatesPass cs l (mergePred cs ls l).2 →
      mergeStep (cs, ls) l =
        (mergeClusters cs (mergePred cs ls l).2 l,
         (mergePred cs ls l).1.set l (mergePred cs ls l).2)) ∧
    (¬ mergeGatesPass cs l (mergePred cs ls l).2 →
      (mergeStep (cs, ls) l).1 = cs ∧
      ((mergeStep (cs, ls) l).2 = ls ∨
       (mergeStep (cs, ls) l).2 = (mergePred cs ls l).1)) := by
  have hmp : getLeader ls ((cs.getD l default).bestPredFrom.getD 0) =
      mergePred cs ls l := rfl
  constructor
  · intro hp
    obtain ⟨h1, h2, h3, h4, h5⟩ := hp
    have hg1 : ¬ ((cs.getD l default).bestPredFrom == none ||
        decide (((cs.getD l default).bestPredWeight * 10) % U64 ≤
          (cs.getD l default).initialWeight)) = true := by
      rw [Bool.or_eq_true]
      rintro (hA | hB)
      · rw [beq_iff_eq] at hA
        exact h1 hA
      · rw [decide_eq_true_eq] at hB
        exact absurd h2 (not_lt.mpr hB)
    have hg2 : ¬ (l == (mergePred cs ls l).2) = true := by
      rw [beq_iff_eq]
      exact h3
    have hg3 : ¬ decide (MAX_CLUSTER_SIZE <
        ((cs.getD l default).size + (cs.getD (mergePred cs ls l).2 default).size) %
          U64) = true := by
      rw [decide_eq_true_eq]
      exact not_lt.mpr h4
    have hg4 : ¬ isNewDensityBad (cs.getD (mergePred cs ls l).2 default)
        (cs.getD l default) = true := by
      rw [h5]
      simp
    simp only [mergeStep, hmp]
    rw [if_neg hg1, if_neg hg2, if_neg hg3, if_neg hg4]
  · intro hp
    simp only [mergeStep, hmp]
    by_cases hg1 : ((cs.getD l default).bestPredFrom == none ||
        decide (((cs.getD l default).bestPredWeight * 10) % U64 ≤
          (cs.getD l default).initialWeight)) = true
    · rw [if_pos hg1]
      exact ⟨rfl, Or.inl rfl⟩
    · rw [if_neg hg1]
      by_cases hg2 : (l == (mergePred cs ls l).2) = true
      · rw [if_pos hg2]
        exact ⟨rfl, Or.inr rfl⟩
      · rw [if_neg hg2]
        by_cases hg3 : decide (MAX_CLUSTER_SIZE <
            ((cs.getD l default).size +
              (cs.getD (mergePred cs ls l).2 default).size) % U64) = true
        · rw [if_pos hg3]
          exact ⟨rfl, Or.inr rfl⟩
        · rw [if_neg hg3]
          by_cases hg4 : isNewDensityBad (cs.getD (mergePred cs ls l).2 default)
              (cs.getD l default) = true
          · rw [if_pos hg4]
            exact ⟨rfl, Or.inr rfl⟩
          · exfalso
            apply hp
            have hB : ¬ (decide (((cs.getD l default).bestPredWeight * 10) % U64 ≤
                (cs.getD l default).initialWeight)) = true :=
              fun hb => hg1 (by rw [Bool.or_eq_true]; exact Or.inr hb)
            refine ⟨?_, ?_, ?_, ?_, ?_⟩
            · intro hn
              exact hg1 (by rw [Bool.or_eq_true]; exact Or.inl (by rw [hn]; rfl))
            · exact not_le.mp (fun hle => hB (decide_eq_true hle))
            · exact fun he => hg2 (by rw [beq_iff_eq]; exact he)
            · exact not_lt.mp (fun hlt => hg3 (decide_eq_true hlt))
            · cases hX : isNewDensityBad (cs.getD (mergePred cs ls l).2 default)
                  (cs.getD l default) with
              | false => rfl
              | true => exact absurd hX hg4

/-- Witness for C5: on a concrete two-cluster state the 1000-weight
predecessor passes every gate and merges; with the strong-edge gate
failing (weight 50 · 10 ≤ initial weight 1050) the step skips and the
clusters are untouched. -/
theorem mergeStep_gates_witness :
    (mergeGatesPass [⟨0, 0, 10, 0, 0, none, 0⟩, ⟨1, 1, 10, 1050, 1050, some 0, 1000⟩]
        1 (mergePred [⟨0, 0, 10, 0, 0, none, 0⟩,
          ⟨1, 1, 10, 1050, 1050, some 0, 1000⟩] [0, 1] 1).2 ∧
     mergeStep ([⟨0, 0, 10, 0, 0, none, 0⟩, ⟨1, 1, 10, 1050, 1050, some 0, 1000⟩],
         [0, 1]) 1 =
       (mergeClusters [⟨0, 0, 10, 0, 0, none, 0⟩, ⟨1, 1, 10, 1050, 1050, some 0, 1000⟩]
          (mergePred [⟨0, 0, 10, 0, 0, none, 0⟩, ⟨1, 1, 10, 1050, 1050, some 0, 1000⟩]
            [0, 1] 1).2 1,
        (mergePred [⟨0, 0, 10, 0, 0, none, 0⟩, ⟨1, 1, 10, 1050, 1050, some 0, 1000⟩]
           [0, 1] 1).1.set 1
          (mergePred [⟨0, 0, 10, 0, 0, none, 0⟩, ⟨1, 1, 10, 1050, 1050, some 0, 1000⟩]
            [0, 1] 1).2)) ∧
    (¬ mergeGatesPass [⟨0, 0, 10, 0, 0, none, 0⟩, ⟨1, 1, 10, 1050, 1050, some 0, 50⟩]
        1 (mergePred [⟨0, 0, 10, 0, 0, none, 0⟩,
          ⟨1, 1, 10, 1050, 1050, some 0, 50⟩] [0, 1] 1).2 ∧
     (mergeStep ([⟨0, 0, 10, 0, 0, none, 0⟩, ⟨1, 1, 10, 1050, 1050, some 0, 50⟩],
         [0, 1]) 1).1 =
       [⟨0, 0, 10, 0, 0, none, 0⟩, ⟨1, 1, 10, 1050, 1050, some 0, 50⟩]) := by
  constructor
  · refine ⟨by decide, ?_⟩
    exact (mergeStep_gates [⟨0, 0, 10, 0, 0, none, 0⟩,
      ⟨1, 1, 10, 1050, 1050, some 0, 1000⟩] [0, 1] 1).1 (by decide)
  · refine ⟨by decide, ?_⟩
    exact ((mergeStep_gates [⟨0, 0, 10, 0, 0, none, 0⟩,
      ⟨1, 1, 10, 1050, 1050, some 0, 50⟩] [0, 1] 1).2 (by decide)).1

/-! ## C4: union-find lemmas -/

theorem getD_irrel {α : Type} (l : List α) (v : Nat) (d1 d2 : α)
    (h : v < l.length) : l.getD v d1 = l.getD v d2 := by
  simp [List.getD, List.getElem?_eq_getElem h]

theorem parentIter_fix (ls : List Nat) (r : Nat) (h : ls.getD r 0 = r) :
    ∀ k, parentIter ls k r = r := by
  intro k
  induction k with
  | zero => rfl
  | succ k ih =>
    show parentIter ls k (ls.getD r 0) = r
    rw [h]
    exact ih

theorem parentIter_add (ls : List Nat) (a b i : Nat) :
    parentIter ls (a + b) i = parentIter ls b (parentIter ls a i) := by
  induction a generalizing i with
  | zero =>
    rw [Nat.zero_add]
    rfl
  | succ a ih =>
    rw [show a + 1 + b = (a + b) + 1 by omega]
    show parentIter ls (a + b) (ls.getD i 0) = _
    rw [ih]
    rfl

theorem parentIter_succ_right (ls : List Nat) (k v : Nat) :
    parentIter ls (k + 1) v = ls.getD (parentIter ls k v) 0 := by
  rw [parentIter_add ls k 1 v]
  rfl

theorem reaches_deterministic (ls : List Nat) (i r1 r2 : Nat)
    (h1 : Reaches ls i r1) (h2 : Reaches ls i r2) : r1 = r2 := by
  obtain ⟨k1, e1, f1⟩ := h1
  obtain ⟨k2, e2, f2⟩ := h2
  rcases Nat.le_total k1 k2 with h | h
  · have hthis : parentIter ls k2 i = r1 := by
      rw [show k2 = k1 + (k2 - k1) by omega, parentIter_add, e1]
      exact parentIter_fix ls r1 f1 _
    rw [← hthis]
    exact e2
  · have hthis : parentIter ls k1 i = r2 := by
      rw [show k1 = k2 + (k1 - k2) by omega, parentIter_add, e2]
      exact parentIter_fix ls r2 f2 _
    rw [← hthis]
    exact e1.symm

theorem parentIter_lt (ls : List Nat)
    (hb : ∀ v, v < ls.length → ls.getD v 0 < ls.length)
    (i : Nat) (hi : i < ls.length) : ∀ k, parentIter ls k i < ls.length := by
  intro k
  induction k generalizing i with
  | zero => exact hi
  | succ k ih =>
    show parentIter ls k (ls.getD i 0) < ls.length
    exact ih _ (hb i hi)

theorem reaches_minimal (ls : List Nat)
    (hb : ∀ v, v < ls.length → ls.getD v 0 < ls.length)
    (i r : Nat) (hi : i < ls.length) (h : Reaches ls i r) :
    ∃ k, k < ls.length ∧ ReachesIn ls k i r ∧
      ∀ a b, a < b → b ≤ k → parentIter ls a i ≠ parentIter ls b i := by
  classical
  obtain ⟨k0, e0, f0⟩ := h
  have hex : ∃ k, parentIter ls k i = r := ⟨k0, e0⟩
  have ek : parentIter ls (Nat.find hex) i = r := Nat.find_spec hex
  have hmin : ∀ j, j < Nat.find hex → parentIter ls j i ≠ r :=
    fun j hj => Nat.find_min hex hj
  have hdist : ∀ a b, a < b → b ≤ Nat.find hex →
      parentIter ls a i ≠ parentIter ls b i := by
    intro a b hab hbk he
    have h1 : parentIter ls (a + (Nat.find hex - b)) i = r := by
      rw [parentIter_add, he, ← parentIter_add,
        show b + (Nat.find hex - b) = Nat.find hex by omega]
      exact ek
    exact hmin (a + (Nat.find hex - b)) (by omega) h1
  refine ⟨Nat.find hex, ?_, ⟨ek, f0⟩, hdist⟩
  by_contra hk
  simp only [not_lt] at hk
  have hinj : Function.Injective (fun j : Fin (Nat.find hex + 1) =>
      (⟨parentIter ls j.1 i, parentIter_lt ls hb i hi j.1⟩ : Fin ls.length)) := by
    intro a b hab
    simp only [Fin.mk.injEq] at hab
    by_contra hne
    have hvne : a.1 ≠ b.1 := fun hv => hne (Fin.ext hv)
    rcases Nat.lt_or_ge a.1 b.1 with hlt | hge
    · exact hdist a.1 b.1 hlt (by omega) hab
    · have hlt : b.1 < a.1 := by omega
      exact hdist b.1 a.1 hlt (by omega) hab.symm
  have hcard := Fintype.card_le_of_injective _ hinj
  simp only [Fintype.card_fin] at hcard
  omega

theorem root_out_of_range (ls : List Nat) (r x : Nat) (hrl : ls.length ≤ r)
    (f : ls.getD r 0 = r) (hx : ls.getD x 0 = x) : x = r := by
  have hr0 : r = 0 := by
    rw [List.getD_eq_default _ _ hrl] at f
    omega
  have hlen : ls.length = 0 := by omega
  have hx0 : x = 0 := by
    rw [List.getD_eq_default _ _ (by omega)] at hx
    omega
  omega

theorem reaches_set_other (ls : List Nat) (v x : Nat) (hv : ls.getD v 0 = v) :
    ∀ k j s, ¬ s = v → ReachesIn ls k j s → ReachesIn (ls.set v x) k j s := by
  intro k
  induction k with
  | zero =>
    intro j s hsv hk
    obtain ⟨e, f⟩ := hk
    cases e
    exact ⟨rfl, by rw [getD_set_ne _ _ _ _ _ (fun h => hsv h.symm)]; exact f⟩
  | succ k ih =>
    intro j s hsv hk
    obtain ⟨e, f⟩ := hk
    by_cases hjv : j = v
    · subst hjv
      exfalso
      apply hsv
      rw [← e]
      exact (parentIter_fix ls j hv (k + 1)).symm ▸ (parentIter_fix ls j hv (k + 1))
    · have e2 : parentIter ls k (ls.getD j 0) = s := e
      obtain ⟨e', f'⟩ := ih (ls.getD j 0) s hsv ⟨e2, f⟩
      refine ⟨?_, f'⟩
      show parentIter _ k ((ls.set v x).getD j 0) = s
      rw [getD_set_ne _ _ _ _ _ (fun h => hjv h.symm)]
      exact e'

theorem reaches_set_root (ls : List Nat) (r x : Nat) (hx : ls.getD x 0 = x)
    (hxr : ¬ x = r) :
    ∀ k j, ReachesIn ls k j r → Reaches (ls.set r x) j x := by
  have hbase : ∀ j, j = r → ls.getD r 0 = r → Reaches (ls.set r x) j x := by
    intro j hj f
    subst hj
    by_cases hrl : j < ls.length
    · refine ⟨1, ?_, ?_⟩
      · show (ls.set j x).getD j 0 = x
        rw [getD_set_eq _ _ _ _ hrl]
      · rw [getD_set_ne _ _ _ _ _ (fun h => hxr h.symm)]
        exact hx
    · exact absurd (root_out_of_range ls j x (by omega) f hx) hxr
  intro k
  induction k with
  | zero =>
    intro j hk
    obtain ⟨e, f⟩ := hk
    cases e
    exact hbase j rfl f
  | succ k ih =>
    intro j hk
    obtain ⟨e, f⟩ := hk
    by_cases hjr : j = r
    · exact hbase j hjr f
    · have e2 : parentIter ls k (ls.getD j 0) = r := e
      obtain ⟨k', e', f'⟩ := ih (ls.getD j 0) ⟨e2, f⟩
      refine ⟨k' + 1, ?_, f'⟩
      show parentIter _ k' ((ls.set r x).getD j 0) = x
      rw [getD_set_ne _ _ _ _ _ (fun h => hjr h.symm)]
      exact e'

theorem reaches_halve (ls : List Nat) (v : Nat) (hvl : v < ls.length)
    (hv : ¬ ls.getD v 0 = v) :
    ∀ k j s, ReachesIn ls k j s →
      Reaches (ls.set v (ls.getD (ls.getD v 0) 0)) j s := by
  intro k
  induction k using Nat.strong_induction_on with
  | _ k ih =>
    intro j s hk
    obtain ⟨e, f⟩ := hk
    have hsv : ¬ s = v := fun he => hv (he ▸ f)
    cases k with
    | zero =>
      cases e
      exact ⟨0, rfl, by rw [getD_set_ne _ _ _ _ _ (fun h => hsv h.symm)]; exact f⟩
    | succ k =>
      by_cases hjv : j = v
      · subst hjv
        cases k with
        | zero =>
          have hp : ls.getD j 0 = s := e
          refine ⟨1, ?_, ?_⟩
          · show (ls.set j _).getD j 0 = s
            rw [getD_set_eq _ _ _ _ hvl, hp]
            exact f
          · rw [getD_set_ne _ _ _ _ _ (fun h => hsv h.symm)]
            exact f
        | succ k2 =>
          have e2 : parentIter ls k2 (ls.getD (ls.getD j 0) 0) = s := e
          obtain ⟨k', e', f'⟩ := ih k2 (by omega) _ s ⟨e2, f⟩
          refine ⟨k' + 1, ?_, f'⟩
          show parentIter _ k' ((ls.set j _).getD j 0) = s
          rw [getD_set_eq _ _ _ _ hvl]
          exact e'
      · have e2 : parentIter ls k (ls.getD j 0) = s := e
        obtain ⟨k', e', f'⟩ := ih k (by omega) _ s ⟨e2, f⟩
        refine ⟨k' + 1, ?_, f'⟩
        show parentIter _ k' ((ls.set v _).getD j 0) = s
        rw [getD_set_ne _ _ _ _ _ (fun h => hjv h.symm)]
        exact e'

theorem bounds_set (ls : List Nat) (v x : Nat) (hx : x < ls.length)
    (hb : ∀ w, w < ls.length → ls.getD w 0 < ls.length) :
    ∀ w, w < (ls.set v x).length → (ls.set v x).getD w 0 < (ls.set v x).length := by
  intro w hw
  rw [List.length_set] at hw ⊢
  by_cases hwv : w = v
  · subst hwv
    rw [getD_set_eq _ _ _ _ hw]
    exact hx
  · rw [getD_set_ne _ _ _ _ _ (fun h => hwv h.symm)]
    exact hb w hw

theorem rootiff_set (ls : List Nat) (v x : Nat) (hvl : v < ls.length)
    (hnv : ¬ ls.getD v 0 = v) (hxv : ¬ x = v) :
    ∀ w, ((ls.set v x).getD w 0 = w ↔ ls.getD w 0 = w) := by
  intro w
  by_cases hwv : w = v
  · subst hwv
    rw [getD_set_eq _ _ _ _ hvl]
    exact iff_of_false hxv hnv
  · rw [getD_set_ne _ _ _ _ _ (fun h => hwv h.symm)]

theorem getLeaderGo_spec :
    ∀ (fuel : Nat) (ls : List Nat) (i r k : Nat),
      (∀ v, v < ls.length → ls.getD v 0 < ls.length) →
      i < ls.length → k ≤ fuel →
      parentIter ls k i = r → ls.getD r 0 = r →
      (∀ a b, a < b → b ≤ k → parentIter ls a i ≠ parentIter ls b i) →
      (getLeaderGo fuel ls i).2 = r ∧
      (getLeaderGo fuel ls i).1.length = ls.length ∧
      (∀ j s, Reaches ls j s → Reaches (getLeaderGo fuel ls i).1 j s) ∧
      (∀ v, ((getLeaderGo fuel ls i).1.getD v 0 = v ↔ ls.getD v 0 = v)) ∧
      (∀ v, v < ls.length → (getLeaderGo fuel ls i).1.getD v 0 < ls.length) := by
  intro fuel
  induction fuel with
  | zero =>
    intro ls i r k hb hi hk e f hd
    have hk0 : k = 0 := by omega
    subst hk0
    have hir : i = r := e
    exact ⟨hir, rfl, fun j s h => h, fun v => Iff.rfl, hb⟩
  | succ fuel ih =>
    intro ls i r k hb hi hk e f hd
    have hunf : getLeaderGo (fuel + 1) ls i =
        (if (ls.getD i i == i) = true then (ls, i)
         else getLeaderGo fuel (ls.set i (ls.getD (ls.getD i i) (ls.getD i i)))
           (ls.getD (ls.getD i i) (ls.getD i i))) := rfl
    have hpi : ls.getD i i = ls.getD i 0 := getD_irrel ls i i 0 hi
    by_cases hroot : ls.getD i 0 = i
    · have hc : (ls.getD i i == i) = true := by
        rw [hpi]
        exact beq_iff_eq.mpr hroot
      rw [hunf, if_pos hc]
      have hri : r = i := by
        rw [← e]
        exact parentIter_fix ls i hroot k
      exact ⟨hri.symm, rfl, fun j s h => h, fun v => Iff.rfl, hb⟩
    · have hc : ¬ (ls.getD i i == i) = true := by
        rw [hpi]
        exact fun hh => hroot (beq_iff_eq.mp hh)
      rw [hunf, if_neg hc]
      have hplt : ls.getD i 0 < ls.length := hb i hi
      have hgG : ls.getD (ls.getD i i) (ls.getD i i) = ls.getD (ls.getD i 0) 0 := by
        rw [hpi]
        exact getD_irrel ls _ _ 0 hplt
      rw [hgG]
      have hGlt : ls.getD (ls.getD i 0) 0 < ls.length := hb _ hplt
      have hk1 : 1 ≤ k := by
        rcases Nat.eq_zero_or_pos k with h0 | h1
        · exfalso
          apply hroot
          subst h0
          have hir : i = r := e
          rw [hir]
          exact f
        · exact h1
      have hri : ¬ r = i := by
        intro hh
        apply hd 0 k hk1 (le_refl k)
        show i = parentIter ls k i
        rw [e, hh]
      have shift : ∀ t, t + 2 ≤ k →
          parentIter (ls.set i (ls.getD (ls.getD i 0) 0)) t (ls.getD (ls.getD i 0) 0)
            = parentIter ls (t + 2) i := by
        intro t
        induction t with
        | zero =>
          intro _
          show ls.getD (ls.getD i 0) 0 = parentIter ls 2 i
          rfl
        | succ t iht =>
          intro ht
          rw [parentIter_succ_right, iht (by omega)]
          have hnode : parentIter ls (t + 2) i ≠ i := by
            intro hh
            exact hd 0 (t + 2) (by omega) (by omega) hh.symm
          rw [getD_set_ne _ _ _ _ _ (fun h => hnode h.symm)]
          exact (parentIter_succ_right ls (t + 2) i).symm
      obtain ⟨k', hk'f, echain, edist, hGi⟩ :
          ∃ k', k' ≤ fuel ∧
            parentIter (ls.set i (ls.getD (ls.getD i 0) 0)) k'
              (ls.getD (ls.getD i 0) 0) = r ∧
            (∀ a b, a < b → b ≤ k' →
              parentIter (ls.set i (ls.getD (ls.getD i 0) 0)) a
                  (ls.getD (ls.getD i 0) 0) ≠
                parentIter (ls.set i (ls.getD (ls.getD i 0) 0)) b
                  (ls.getD (ls.getD i 0) 0)) ∧
            ¬ ls.getD (ls.getD i 0) 0 = i := by
        rcases Nat.lt_or_ge k 2 with hk2 | hk2
        · have hk1' : k = 1 := by omega
          have hPr : ls.getD i 0 = r := by
            rw [← e, hk1']
            rfl
          have hGr : ls.getD (ls.getD i 0) 0 = r := by
            rw [hPr]
            exact f
          refine ⟨0, Nat.zero_le _, hGr, ?_, ?_⟩
          · intro a b hab hbk'
            omega
          · rw [hGr]
            exact hri
        · refine ⟨k - 2, by omega, ?_, ?_, ?_⟩
          · rw [shift (k - 2) (by omega), show k - 2 + 2 = k by omega]
            exact e
          · intro a b hab hbk' heq
            apply hd (a + 2) (b + 2) (by omega) (by omega)
            rw [← shift a (by omega), ← shift b (by omega)]
            exact heq
          · intro hh
            apply hd 0 2 (by omega) hk2
            exact hh.symm
      have f1 : (ls.set i (ls.getD (ls.getD i 0) 0)).getD r 0 = r := by
        rw [getD_set_ne _ _ _ _ _ (fun h => hri h.symm)]
        exact f
      have hb1 := bounds_set ls i (ls.getD (ls.getD i 0) 0) hGlt hb
      have hi1 : ls.getD (ls.getD i 0) 0 <
          (ls.set i (ls.getD (ls.getD i 0) 0)).length := by
        rw [List.length_set]
        exact hGlt
      obtain ⟨c1, c2, c3, c4, c5⟩ :=
        ih (ls.set i (ls.getD (ls.getD i 0) 0)) (ls.getD (ls.getD i 0) 0) r k'
          hb1 hi1 hk'f echain f1 edist
      refine ⟨c1, ?_, ?_, ?_, ?_⟩
      · rw [c2, List.length_set]
      · intro j s h
        obtain ⟨kk, hkk⟩ := h
        exact c3 j s (reaches_halve ls i hi hroot kk j s hkk)
      · intro v
        rw [c4 v]
        exact rootiff_set ls i _ hi hroot hGi v
      · intro v hv
        have hc5 := c5 v (by rw [List.length_set]; exact hv)
        rw [List.length_set] at hc5
        exact hc5

theorem getLeader_spec (ls : List Nat) (v r : Nat)
    (hb : ∀ w, w < ls.length → ls.getD w 0 < ls.length)
    (hv : v < ls.length) (h : Reaches ls v r) :
    (getLeader ls v).2 = r ∧
    (getLeader ls v).1.length = ls.length ∧
    (∀ j s, Reaches ls j s → Reaches (getLeader ls v).1 j s) ∧
    (∀ w, ((getLeader ls v).1.getD w 0 = w ↔ ls.getD w 0 = w)) ∧
    (∀ w, w < ls.length → (getLeader ls v).1.getD w 0 < ls.length) := by
  obtain ⟨k, hk, ⟨ek, fk⟩, hdist⟩ := reaches_minimal ls hb v r hv h
  exact getLeaderGo_spec ls.length ls v r k hb hv (by omega) ek fk hdist

theorem listUpd_length {α : Type} (l : List α) (i : Nat) (f : α → α) :
    (listUpd l i f).length = l.length := by
  unfold listUpd
  cases hg : l.get? i with
  | none => rfl
  | some x => exact List.length_set l i (f x)

theorem listUpd_getD_ne {α : Type} (l : List α) (i j : Nat) (f : α → α) (d : α)
    (h : ¬ i = j) : (listUpd l i f).getD j d = l.getD j d := by
  unfold listUpd
  cases hg : l.get? i with
  | none => rfl
  | some x => exact getD_set_ne l i j (f x) d h

theorem listUpd_getD_eq {α : Type} (l : List α) (i : Nat) (f : α → α) (d : α)
    (hi : i < l.length) : (listUpd l i f).getD i d = f (l.getD i d) := by
  unfold listUpd
  cases hg : l.get? i with
  | none =>
    rw [List.get?_eq_getElem?] at hg
    rw [List.getElem?_eq_none_iff] at hg
    omega
  | some x =>
    rw [getD_set_eq l i (f x) d hi]
    have hx : l.getD i d = x := by
      rw [List.get?_eq_getElem?] at hg
      simp [List.getD, hg]
    rw [hx]

theorem listUpd_getD_proj {α β : Type} (l : List α) (i : Nat) (f : α → α)
    (proj : α → β) (hf : ∀ c, proj (f c) = proj c) (j : Nat) (d : α) :
    proj ((listUpd l i f).getD j d) = proj (l.getD j d) := by
  by_cases hij : i = j
  · subst hij
    by_cases hi : i < l.length
    · rw [listUpd_getD_eq l i f d hi, hf]
    · unfold listUpd
      cases hg : l.get? i with
      | none => rfl
      | some x => exact absurd (get?_some_lt l i x hg) hi
  · rw [listUpd_getD_ne l i j f d hij]

theorem getD_range (n v : Nat) (h : v < n) : (List.range n).getD v 0 = v := by
  simp [List.getD, List.getElem?_range h]

theorem map_getD_self {α : Type} (l : List α) (d : α) :
    (List.range l.length).map (fun i => l.getD i d) = l := by
  apply List.ext_getElem
  · simp
  · intro i h1 h2
    simp only [List.getElem_map, List.getElem_range]
    simp [List.getD, List.getElem?_eq_getElem h2]

theorem flatten_map_singleton {α : Type} (l : List α) :
    (l.map (fun i => [i])).flatten = l := by
  induction l with
  | nil => rfl
  | cons x xs ih => simp [ih]

theorem nodup_getD_inj {α : Type} (l : List α) (hnd : l.Nodup) (d : α)
    (p q : Nat) (hp : p < l.length) (hq : q < l.length)
    (h : l.getD p d = l.getD q d) : p = q := by
  rw [List.getD_eq_getElem l d hp, List.getD_eq_getElem l d hq] at h
  exact (List.Nodup.getElem_inj_iff hnd).mp h

theorem insertLe_perm {α : Type} (le : α → α → Bool) (x : α) (l : List α) :
    (insertLe le x l).Perm (x :: l) := by
  induction l with
  | nil => exact List.Perm.refl _
  | cons y ys ih =>
    show (if le x y then x :: y :: ys else y :: insertLe le x ys).Perm _
    by_cases h : le x y
    · rw [if_pos h]
    · rw [if_neg h]
      exact (ih.cons y).trans (List.Perm.swap x y ys)

theorem stableSort_perm {α : Type} (le : α → α → Bool) (l : List α) :
    (stableSort le l).Perm l := by
  induction l with
  | nil => exact List.Perm.refl _
  | cons x xs ih =>
    exact (insertLe_perm le x (stableSort le xs)).trans (ih.cons x)

theorem numberFrom_fst (k : Nat) (xs : List Nat) :
    (numberFrom k xs).map Prod.fst = xs := by
  induction xs generalizing k with
  | nil => rfl
  | cons x rest ih => simp [numberFrom, ih]

theorem numberFrom_snd (k : Nat) (xs : List Nat) :
    (numberFrom k xs).map Prod.snd = List.range' k xs.length := by
  induction xs generalizing k with
  | nil => rfl
  | cons x rest ih => simp [numberFrom, ih, List.range'_succ]

theorem mergeClusters_length (cs : List Cluster) (io fr : Nat) :
    (mergeClusters cs io fr).length = cs.length := by
  simp only [mergeClusters, listUpd_length]

theorem listUpd_setPrev_next (l : List Cluster) (i x j : Nat) (d : Cluster) :
    ((listUpd l i (fun c => { c with prev := x })).getD j d).next = (l.getD j d).next := by
  apply listUpd_getD_proj l i _ Cluster.next
  intro c
  rfl

theorem listUpd_setPrev_size (l : List Cluster) (i x j : Nat) (d : Cluster) :
    ((listUpd l i (fun c => { c with prev := x })).getD j d).size = (l.getD j d).size := by
  apply listUpd_getD_proj l i _ Cluster.size
  intro c
  rfl

theorem listUpd_setPrev_bpf (l : List Cluster) (i x j : Nat) (d : Cluster) :
    ((listUpd l i (fun c => { c with prev := x })).getD j d).bestPredFrom =
      (l.getD j d).bestPredFrom := by
  apply listUpd_getD_proj l i _ Cluster.bestPredFrom
  intro c
  rfl

theorem listUpd_setNext_prev (l : List Cluster) (i x j : Nat) (d : Cluster) :
    ((listUpd l i (fun c => { c with next := x })).getD j d).prev = (l.getD j d).prev := by
  apply listUpd_getD_proj l i _ Cluster.prev
  intro c
  rfl

theorem listUpd_setNext_size (l : List Cluster) (i x j : Nat) (d : Cluster) :
    ((listUpd l i (fun c => { c with next := x })).getD j d).size = (l.getD j d).size := by
  apply listUpd_getD_proj l i _ Cluster.size
  intro c
  rfl

theorem listUpd_setNext_bpf (l : List Cluster) (i x j : Nat) (d : Cluster) :
    ((listUpd l i (fun c => { c with next := x })).getD j d).bestPredFrom =
      (l.getD j d).bestPredFrom := by
  apply listUpd_getD_proj l i _ Cluster.bestPredFrom
  intro c
  rfl

theorem listUpd_addSW_next (l : List Cluster) (i fs fw j : Nat) (d : Cluster) :
    ((listUpd l i
        (fun c => { c with size := (c.size + fs) % U64, weight := (c.weight + fw) % U64 })).getD
      j d).next = (l.getD j d).next := by
  apply listUpd_getD_proj l i _ Cluster.next
  intro c
  rfl

theorem listUpd_addSW_prev (l : List Cluster) (i fs fw j : Nat) (d : Cluster) :
    ((listUpd l i
        (fun c => { c with size := (c.size + fs) % U64, weight := (c.weight + fw) % U64 })).getD
      j d).prev = (l.getD j d).prev := by
  apply listUpd_getD_proj l i _ Cluster.prev
  intro c
  rfl

theorem listUpd_addSW_bpf (l : List Cluster) (i fs fw j : Nat) (d : Cluster) :
    ((listUpd l i
        (fun c => { c with size := (c.size + fs) % U64, weight := (c.weight + fw) % U64 })).getD
      j d).bestPredFrom = (l.getD j d).bestPredFrom := by
  apply listUpd_getD_proj l i _ Cluster.bestPredFrom
  intro c
  rfl

theorem listUpd_zeroSW_next (l : List Cluster) (i j : Nat) (d : Cluster) :
    ((listUpd l i (fun c => { c with size := 0, weight := 0 })).getD j d).next =
      (l.getD j d).next := by
  apply listUpd_getD_proj l i _ Cluster.next
  intro c
  rfl

theorem listUpd_zeroSW_prev (l : List Cluster) (i j : Nat) (d : Cluster) :
    ((listUpd l i (fun c => { c with size := 0, weight := 0 })).getD j d).prev =
      (l.getD j d).prev := by
  apply listUpd_getD_proj l i _ Cluster.prev
  intro c
  rfl

theorem listUpd_zeroSW_bpf (l : List Cluster) (i j : Nat) (d : Cluster) :
    ((listUpd l i (fun c => { c with size := 0, weight := 0 })).getD j d).bestPredFrom =
      (l.getD j d).bestPredFrom := by
  apply listUpd_getD_proj l i _ Cluster.bestPredFrom
  intro c
  rfl

theorem listUpd_setNext_at (l : List Cluster) (i x : Nat) (d : Cluster)
    (h : i < l.length) :
    ((listUpd l i (fun c => { c with next := x })).getD i d).next = x := by
  rw [listUpd_getD_eq l i _ d h]

theorem listUpd_setPrev_at (l : List Cluster) (i x : Nat) (d : Cluster)
    (h : i < l.length) :
    ((listUpd l i (fun c => { c with prev := x })).getD i d).prev = x := by
  rw [listUpd_getD_eq l i _ d h]

theorem listUpd_addSW_at (l : List Cluster) (i fs fw : Nat) (d : Cluster)
    (h : i < l.length) :
    ((listUpd l i
        (fun c => { c with size := (c.size + fs) % U64, weight := (c.weight + fw) % U64 })).getD
      i d).size = ((l.getD i d).size + fs) % U64 := by
  rw [listUpd_getD_eq l i _ d h]

theorem listUpd_zeroSW_at (l : List Cluster) (i : Nat) (d : Cluster)
    (h : i < l.length) :
    ((listUpd l i (fun c => { c with size := 0, weight := 0 })).getD i d).size = 0 := by
  rw [listUpd_getD_eq l i _ d h]

theorem mergeClusters_next (cs : List Cluster) (io fr t1 t2 j : Nat)
    (ht1 : t1 = (cs.getD io default).prev) (ht2 : t2 = (cs.getD fr default).prev)
    (ht12 : ¬ t1 = t2) (ht1l : t1 < cs.length) (ht2l : t2 < cs.length) :
    ((mergeClusters cs io fr).getD j default).next =
      (if j = t1 then fr else if j = t2 then io else (cs.getD j default).next) := by
  simp only [mergeClusters]
  rw [← ht1, ← ht2]
  simp only [listUpd_zeroSW_next, listUpd_addSW_next, listUpd_setPrev_next]
  by_cases hjt1 : j = t1
  · subst hjt1
    rw [if_pos rfl]
    rw [listUpd_setNext_at _ _ _ _ (by simp only [listUpd_length]; exact ht1l)]
  · rw [if_neg hjt1]
    rw [listUpd_getD_ne _ _ _ _ _ (fun h => hjt1 h.symm)]
    simp only [listUpd_setPrev_next]
    by_cases hjt2 : j = t2
    · subst hjt2
      rw [if_pos rfl]
      rw [listUpd_setNext_at _ _ _ _ (by simp only [listUpd_length]; exact ht2l)]
    · rw [if_neg hjt2]
      rw [listUpd_getD_ne _ _ _ _ _ (fun h => hjt2 h.symm)]
      simp only [listUpd_setPrev_next]

theorem mergeClusters_prev (cs : List Cluster) (io fr t1 t2 j : Nat)
    (ht1 : t1 = (cs.getD io default).prev) (ht2 : t2 = (cs.getD fr default).prev)
    (hiofr : ¬ io = fr) (hiol : io < cs.length) (hfrl : fr < cs.length) :
    ((mergeClusters cs io fr).getD j default).prev =
      (if j = io then t2 else if j = fr then t1 else (cs.getD j default).prev) := by
  simp only [mergeClusters]
  rw [← ht1, ← ht2]
  simp only [listUpd_zeroSW_prev, listUpd_addSW_prev, listUpd_setNext_prev]
  by_cases hjfr : j = fr
  · subst hjfr
    rw [if_neg (fun h => hiofr h.symm), if_pos rfl]
    rw [listUpd_setPrev_at _ _ _ _ (by simp only [listUpd_length]; exact hfrl)]
  · rw [listUpd_getD_ne _ _ _ _ _ (fun h => hjfr h.symm)]
    simp only [listUpd_setNext_prev]
    by_cases hjio : j = io
    · subst hjio
      rw [if_pos rfl]
      rw [listUpd_setPrev_at _ _ _ _ hiol]
    · rw [if_neg hjio, if_neg hjfr]
      rw [listUpd_getD_ne _ _ _ _ _ (fun h => hjio h.symm)]

theorem mergeClusters_size (cs : List Cluster) (io fr j : Nat)
    (hiofr : ¬ io = fr) (hiol : io < cs.length) (hfrl : fr < cs.length) :
    ((mergeClusters cs io fr).getD j default).size =
      (if j = fr then 0
       else if j = io then
         ((cs.getD io default).size + (cs.getD fr default).size) % U64
       else (cs.getD j default).size) := by
  simp only [mergeClusters]
  by_cases hjfr : j = fr
  · subst hjfr
    rw [if_pos rfl]
    rw [listUpd_zeroSW_at _ _ _ (by simp only [listUpd_length]; exact hfrl)]
  · rw [if_neg hjfr]
    rw [listUpd_getD_ne _ _ _ _ _ (fun h => hjfr h.symm)]
    by_cases hjio : j = io
    · subst hjio
      rw [if_pos rfl]
      rw [listUpd_addSW_at _ _ _ _ _ (by simp only [listUpd_length]; exact hiol)]
      simp only [listUpd_setNext_size, listUpd_setPrev_size]
    · rw [if_neg hjio]
      rw [listUpd_getD_ne _ _ _ _ _ (fun h => hjio h.symm)]
      simp only [listUpd_setNext_size, listUpd_setPrev_size]

theorem mergeClusters_bestPredFrom (cs : List Cluster) (io fr j : Nat) :
    ((mergeClusters cs io fr).getD j default).bestPredFrom =
      (cs.getD j default).bestPredFrom := by
  simp only [mergeClusters]
  simp only [listUpd_zeroSW_bpf, listUpd_addSW_bpf, listUpd_setNext_bpf,
    listUpd_setPrev_bpf]

theorem headD_eq_getD {α : Type} (l : List α) (d : α) : l.headD d = l.getD 0 d := by
  cases l <;> rfl

theorem getD_mem_of_lt {α : Type} (l : List α) (n : Nat) (d : α) (h : n < l.length) :
    l.getD n d ∈ l := by
  rw [List.getD_eq_getElem l d h]
  exact List.getElem_mem h

theorem cycle_tail (cs : List Cluster) (m : List Nat) (h : IsCycleList cs m) :
    (cs.getD (m.headD 0) default).prev = m.getD (m.length - 1) 0 := by
  obtain ⟨hne, hnext, hprev⟩ := h
  have hlen : 0 < m.length := List.length_pos.mpr hne
  have hp := hprev (m.length - 1) (by omega)
  have hmod : (m.length - 1 + 1) % m.length = 0 := by
    rw [Nat.sub_add_cancel hlen, Nat.mod_self]
  rw [hmod] at hp
  rw [headD_eq_getD]
  exact hp

theorem cycle_preserved (cs cs' : List Cluster) (m : List Nat)
    (h : IsCycleList cs m)
    (hnext : ∀ i, i ∈ m → (cs'.getD i default).next = (cs.getD i default).next)
    (hprev : ∀ i, i ∈ m → (cs'.getD i default).prev = (cs.getD i default).prev) :
    IsCycleList cs' m := by
  obtain ⟨hne, hn, hp⟩ := h
  have hlen : 0 < m.length := List.length_pos.mpr hne
  refine ⟨hne, ?_, ?_⟩
  · intro k hk
    rw [hnext _ (getD_mem_of_lt m k 0 hk)]
    exact hn k hk
  · intro k hk
    rw [hprev _ (getD_mem_of_lt m _ 0 (Nat.mod_lt _ hlen))]
    exact hp k hk

theorem spliced_cycle (cs : List Cluster) (m1 m2 : List Nat)
    (h1 : IsCycleList cs m1) (h2 : IsCycleList cs m2)
    (hnd : (m1 ++ m2).Nodup)
    (hb1 : ∀ i, i ∈ m1 → i < cs.length) (hb2 : ∀ i, i ∈ m2 → i < cs.length) :
    IsCycleList (mergeClusters cs (m1.headD 0) (m2.headD 0)) (m1 ++ m2) := by
  obtain ⟨hne1, hn1, hp1⟩ := h1
  obtain ⟨hne2, hn2, hp2⟩ := h2
  have hL1 : 0 < m1.length := List.length_pos.mpr hne1
  have hL2 : 0 < m2.length := List.length_pos.mpr hne2
  rw [List.nodup_append] at hnd
  obtain ⟨hnd1, hnd2, hdisj⟩ := hnd
  have ht1 : (cs.getD (m1.headD 0) default).prev = m1.getD (m1.length - 1) 0 :=
    cycle_tail cs m1 ⟨hne1, hn1, hp1⟩
  have ht2 : (cs.getD (m2.headD 0) default).prev = m2.getD (m2.length - 1) 0 :=
    cycle_tail cs m2 ⟨hne2, hn2, hp2⟩
  have hio : m1.headD 0 = m1.getD 0 0 := headD_eq_getD m1 0
  have hfr : m2.headD 0 = m2.getD 0 0 := headD_eq_getD m2 0
  have ht1m : m1.getD (m1.length - 1) 0 ∈ m1 := getD_mem_of_lt _ _ _ (by omega)
  have ht2m : m2.getD (m2.length - 1) 0 ∈ m2 := getD_mem_of_lt _ _ _ (by omega)
  have hiom : m1.headD 0 ∈ m1 := by
    rw [hio]
    exact getD_mem_of_lt _ _ _ hL1
  have hfrm : m2.headD 0 ∈ m2 := by
    rw [hfr]
    exact getD_mem_of_lt _ _ _ hL2
  have ht12 : ¬ m1.getD (m1.length - 1) 0 = m2.getD (m2.length - 1) 0 :=
    fun h => hdisj ht1m (by rw [h]; exact ht2m)
  have ht1l : m1.getD (m1.length - 1) 0 < cs.length := hb1 _ ht1m
  have ht2l : m2.getD (m2.length - 1) 0 < cs.length := hb2 _ ht2m
  have hiol : m1.headD 0 < cs.length := hb1 _ hiom
  have hfrl : m2.headD 0 < cs.length := hb2 _ hfrm
  have hiofr : ¬ m1.headD 0 = m2.headD 0 :=
    fun h => hdisj hiom (by rw [h]; exact hfrm)
  refine ⟨fun h => hne1 (List.append_eq_nil.mp h).1, ?_, ?_⟩
  · intro k hk
    rw [List.length_append] at hk ⊢
    rw [mergeClusters_next cs (m1.headD 0) (m2.headD 0)
      (m1.getD (m1.length - 1) 0) (m2.getD (m2.length - 1) 0)
      ((m1 ++ m2).getD k 0) ht1.symm ht2.symm ht12 ht1l ht2l]
    by_cases hkL1 : k < m1.length
    · rw [List.getD_append _ _ _ _ hkL1]
      by_cases hlast : k = m1.length - 1
      · subst hlast
        rw [if_pos rfl]
        have hmod : (m1.length - 1 + 1) % (m1.length + m2.length) = m1.length := by
          rw [Nat.sub_add_cancel hL1]
          exact Nat.mod_eq_of_lt (by omega)
        rw [hmod, List.getD_append_right _ _ _ _ (le_refl _), Nat.sub_self]
        exact hfr
      · have hk1 : k + 1 < m1.length := by omega
        rw [if_neg (fun h => hlast
            (nodup_getD_inj m1 hnd1 0 k (m1.length - 1) hkL1 (by omega) h)),
          if_neg (fun h => hdisj (getD_mem_of_lt m1 k 0 hkL1) (by rw [h]; exact ht2m))]
        rw [hn1 k hkL1, Nat.mod_eq_of_lt hk1,
          Nat.mod_eq_of_lt (show k + 1 < m1.length + m2.length by omega),
          List.getD_append _ _ _ _ hk1]
    · have hq : k - m1.length < m2.length := by omega
      rw [List.getD_append_right _ _ _ _ (by omega)]
      by_cases hlast : k = m1.length + m2.length - 1
      · subst hlast
        rw [show m1.length + m2.length - 1 - m1.length = m2.length - 1 by omega]
        rw [if_neg (fun h => hdisj ht1m (by rw [← h]; exact ht2m)), if_pos rfl]
        rw [show m1.length + m2.length - 1 + 1 = m1.length + m2.length by omega,
          Nat.mod_self, List.getD_append _ _ _ _ hL1]
        exact hio
      · have hq1 : k - m1.length + 1 < m2.length := by omega
        rw [if_neg (fun h => hdisj ht1m (by rw [← h]; exact getD_mem_of_lt m2 _ 0 hq)),
          if_neg (fun h => (show ¬ k - m1.length = m2.length - 1 by omega)
            (nodup_getD_inj m2 hnd2 0 (k - m1.length) (m2.length - 1) hq (by omega) h))]
        rw [hn2 (k - m1.length) hq, Nat.mod_eq_of_lt hq1,
          Nat.mod_eq_of_lt (show k + 1 < m1.length + m2.length by omega),
          List.getD_append_right _ _ _ _ (show m1.length ≤ k + 1 by omega),
          show k + 1 - m1.length = k - m1.length + 1 by omega]
  · intro k hk
    rw [List.length_append] at hk ⊢
    rw [mergeClusters_prev cs (m1.headD 0) (m2.headD 0)
      (m1.getD (m1.length - 1) 0) (m2.getD (m2.length - 1) 0)
      ((m1 ++ m2).getD ((k + 1) % (m1.length + m2.length)) 0)
      ht1.symm ht2.symm hiofr hiol hfrl]
    by_cases hklast : k = m1.length + m2.length - 1
    · subst hklast
      rw [show m1.length + m2.length - 1 + 1 = m1.length + m2.length by omega,
        Nat.mod_self, List.getD_append _ _ _ _ hL1]
      rw [if_pos hio.symm]
      rw [List.getD_append_right _ _ _ _ (show m1.length ≤ m1.length + m2.length - 1
        by omega), show m1.length + m2.length - 1 - m1.length = m2.length - 1 by omega]
    · have hkL : k + 1 < m1.length + m2.length := by omega
      rw [Nat.mod_eq_of_lt hkL]
      by_cases hkL1 : k < m1.length
      · by_cases hlast : k = m1.length - 1
        · subst hlast
          rw [Nat.sub_add_cancel hL1,
            List.getD_append_right _ _ _ _ (le_refl _), Nat.sub_self]
          rw [if_neg (fun h => hdisj hiom (by rw [← h]; exact getD_mem_of_lt m2 0 0 hL2)),
            if_pos hfr.symm]
          rw [List.getD_append _ _ _ _ (show m1.length - 1 < m1.length by omega)]
        · have hk1 : k + 1 < m1.length := by omega
          rw [List.getD_append _ _ _ _ hk1]
          rw [if_neg (fun h => (show ¬ (k + 1 : Nat) = 0 by omega)
              (nodup_getD_inj m1 hnd1 0 (k + 1) 0 hk1 hL1 (by rw [h, hio]))),
            if_neg (fun h => hdisj (getD_mem_of_lt m1 (k + 1) 0 hk1)
              (by rw [h]; exact hfrm))]
          have hpk := hp1 k hkL1
          rw [Nat.mod_eq_of_lt hk1] at hpk
          rw [hpk, List.getD_append _ _ _ _ hkL1]
      · have hq : k - m1.length < m2.length := by omega
        have hq1 : k - m1.length + 1 < m2.length := by omega
        rw [List.getD_append_right _ _ _ _ (show m1.length ≤ k + 1 by omega),
          show k + 1 - m1.length = k - m1.length + 1 by omega]
        rw [if_neg (fun h => hdisj hiom
            (by rw [← h]; exact getD_mem_of_lt m2 _ 0 hq1)),
          if_neg (fun h => (show ¬ (k - m1.length + 1 : Nat) = 0 by omega)
            (nodup_getD_inj m2 hnd2 0 (k - m1.length + 1) 0 hq1 hL2 (by rw [h, hfr])))]
        have hpk := hp2 (k - m1.length) hq
        rw [Nat.mod_eq_of_lt hq1] at hpk
        rw [hpk, List.getD_append_right _ _ _ _ (show m1.length ≤ k by omega)]

theorem cycleGo_spec (cs : List Cluster) (m : List Nat)
    (hc : IsCycleList cs m) (hnd : m.Nodup) :
    ∀ fuel j, 1 ≤ j → j ≤ m.length → m.length - j ≤ fuel →
      cycleGo cs (m.getD 0 0) (m.getD (j % m.length) 0) fuel = m.drop j := by
  obtain ⟨hne, hn, hp⟩ := hc
  have hL : 0 < m.length := List.length_pos.mpr hne
  intro fuel
  induction fuel with
  | zero =>
    intro j h1 h2 h3
    have hj : j = m.length := by omega
    subst hj
    rw [List.drop_length]
    rfl
  | succ fuel ih =>
    intro j h1 h2 h3
    by_cases hjL : j = m.length
    · subst hjL
      rw [Nat.mod_self, List.drop_length]
      show (if (m.getD 0 0 == m.getD 0 0) = true then [] else _) = []
      rw [if_pos (beq_iff_eq.mpr rfl)]
    · have hjlt : j < m.length := by omega
      rw [Nat.mod_eq_of_lt hjlt]
      have hne0 : ¬ (m.getD j 0 == m.getD 0 0) = true := by
        intro hh
        have := nodup_getD_inj m hnd 0 j 0 hjlt hL (beq_iff_eq.mp hh)
        omega
      show (if (m.getD j 0 == m.getD 0 0) = true then [] else
        m.getD j 0 :: cycleGo cs (m.getD 0 0) ((cs.getD (m.getD j 0) default).next) fuel)
          = m.drop j
      rw [if_neg hne0, hn j hjlt]
      rw [ih (j + 1) (by omega) (by omega) (by omega)]
      rw [List.drop_eq_getElem_cons hjlt, List.getD_eq_getElem m 0 hjlt]

theorem cycleFrom_eq (cs : List Cluster) (m : List Nat)
    (hc : IsCycleList cs m) (hnd : m.Nodup) (hlen : m.length ≤ cs.length) :
    cycleFrom cs (m.headD 0) = m := by
  obtain ⟨hne, hn, hp⟩ := hc
  have hL : 0 < m.length := List.length_pos.mpr hne
  show m.headD 0 ::
    cycleGo cs (m.headD 0) ((cs.getD (m.headD 0) default).next) cs.length = m
  rw [headD_eq_getD m 0]
  rw [hn 0 hL, Nat.zero_add]
  rw [cycleGo_spec cs m ⟨hne, hn, hp⟩ hnd cs.length 1 (le_refl 1) hL (by omega)]
  cases m with
  | nil => exact absurd rfl hne
  | cons x xs => rfl

theorem listUpd_setW_next (l : List Cluster) (i w j : Nat) (d : Cluster) :
    ((listUpd l i (fun c => { c with weight := (c.weight + w) % U64 })).getD j d).next =
      (l.getD j d).next := by
  apply listUpd_getD_proj l i _ Cluster.next
  intro c
  rfl

theorem listUpd_setW_prev (l : List Cluster) (i w j : Nat) (d : Cluster) :
    ((listUpd l i (fun c => { c with weight := (c.weight + w) % U64 })).getD j d).prev =
      (l.getD j d).prev := by
  apply listUpd_getD_proj l i _ Cluster.prev
  intro c
  rfl

theorem listUpd_setW_size (l : List Cluster) (i w j : Nat) (d : Cluster) :
    ((listUpd l i (fun c => { c with weight := (c.weight + w) % U64 })).getD j d).size =
      (l.getD j d).size := by
  apply listUpd_getD_proj l i _ Cluster.size
  intro c
  rfl

theorem listUpd_setW_bpf (l : List Cluster) (i w j : Nat) (d : Cluster) :
    ((listUpd l i
        (fun c => { c with weight := (c.weight + w) % U64 })).getD j d).bestPredFrom =
      (l.getD j d).bestPredFrom := by
  apply listUpd_getD_proj l i _ Cluster.bestPredFrom
  intro c
  rfl

theorem listUpd_setBP_next (l : List Cluster) (i fromI w j : Nat) (d : Cluster) :
    ((listUpd l i (fun toC =>
      if toC.bestPredFrom == none || decide (toC.bestPredWeight < w) then
        { toC with bestPredFrom := some fromI, bestPredWeight := w }
      else toC)).getD j d).next = (l.getD j d).next := by
  apply listUpd_getD_proj l i _ Cluster.next
  intro c
  by_cases hc : (c.bestPredFrom == none || decide (c.bestPredWeight < w)) = true
  · rw [if_pos hc]
  · rw [if_neg hc]

theorem listUpd_setBP_prev (l : List Cluster) (i fromI w j : Nat) (d : Cluster) :
    ((listUpd l i (fun toC =>
      if toC.bestPredFrom == none || decide (toC.bestPredWeight < w) then
        { toC with bestPredFrom := some fromI, bestPredWeight := w }
      else toC)).getD j d).prev = (l.getD j d).prev := by
  apply listUpd_getD_proj l i _ Cluster.prev
  intro c
  by_cases hc : (c.bestPredFrom == none || decide (c.bestPredWeight < w)) = true
  · rw [if_pos hc]
  · rw [if_neg hc]

theorem listUpd_setBP_size (l : List Cluster) (i fromI w j : Nat) (d : Cluster) :
    ((listUpd l i (fun toC =>
      if toC.bestPredFrom == none || decide (toC.bestPredWeight < w) then
        { toC with bestPredFrom := some fromI, bestPredWeight := w }
      else toC)).getD j d).size = (l.getD j d).size := by
  apply listUpd_getD_proj l i _ Cluster.size
  intro c
  by_cases hc : (c.bestPredFrom == none || decide (c.bestPredWeight < w)) = true
  · rw [if_pos hc]
  · rw [if_neg hc]

theorem cgOk_updWeight (d : SecData) (g : CGState) (toI w : Nat)
    (h : CGBuildOk d g) :
    CGBuildOk d ⟨g.secToCluster, g.sections,
      listUpd g.clusters toI (fun c => { c with weight := (c.weight + w) % U64 })⟩ := by
  obtain ⟨hlen, hmap, hself, hbp⟩ := h
  simp only [CGBuildOk, BestPredBound]
  refine ⟨?_, ?_, ?_, ?_⟩
  · rw [listUpd_length]
    exact hlen
  · intro p hp
    rw [listUpd_length]
    exact hmap p hp
  · intro i hi
    rw [listUpd_length] at hi
    exact ⟨by rw [listUpd_setW_next]; exact (hself i hi).1,
           by rw [listUpd_setW_prev]; exact (hself i hi).2.1,
           by rw [listUpd_setW_size]; exact (hself i hi).2.2⟩
  · intro i hi pf hpf
    rw [listUpd_length] at hi ⊢
    rw [listUpd_setW_bpf] at hpf
    exact hbp i hi pf hpf

theorem cgOk_updBP (d : SecData) (g : CGState) (toI fromI w : Nat)
    (h : CGBuildOk d g) (hfrom : fromI < g.clusters.length) :
    CGBuildOk d ⟨g.secToCluster, g.sections, listUpd g.clusters toI
      (fun toC => if toC.bestPredFrom == none || decide (toC.bestPredWeight < w)
        then { toC with bestPredFrom := some fromI, bestPredWeight := w }
        else toC)⟩ := by
  obtain ⟨hlen, hmap, hself, hbp⟩ := h
  simp only [CGBuildOk, BestPredBound]
  refine ⟨?_, ?_, ?_, ?_⟩
  · rw [listUpd_length]
    exact hlen
  · intro p hp
    rw [listUpd_length]
    exact hmap p hp
  · intro i hi
    rw [listUpd_length] at hi
    exact ⟨by rw [listUpd_setBP_next]; exact (hself i hi).1,
           by rw [listUpd_setBP_prev]; exact (hself i hi).2.1,
           by rw [listUpd_setBP_size]; exact (hself i hi).2.2⟩
  · intro i hi pf hpf
    rw [listUpd_length] at hi ⊢
    by_cases hit : toI = i
    · subst hit
      rw [listUpd_getD_eq _ _ _ _ hi] at hpf
      by_cases hc : ((g.clusters.getD toI default).bestPredFrom == none ||
          decide ((g.clusters.getD toI default).bestPredWeight < w)) = true
      · rw [if_pos hc] at hpf
        have hsome : some fromI = some pf := hpf
        have hfp : fromI = pf := Option.some.inj hsome
        rw [← hfp]
        exact hfrom
      · rw [if_neg hc] at hpf
        exact hbp toI hi pf hpf
    · rw [listUpd_getD_ne _ _ _ _ _ hit] at hpf
      exact hbp i hi pf hpf

theorem getOrCreateNode_ok (d : SecData) (g : CGState) (isec : Nat)
    (h : CGBuildOk d g) :
    CGBuildOk d (getOrCreateNode d g isec).2 ∧
    (getOrCreateNode d g isec).1 < (getOrCreateNode d g isec).2.clusters.length ∧
    g.clusters.length ≤ (getOrCreateNode d g isec).2.clusters.length := by
  obtain ⟨hlen, hmap, hself, hbp⟩ := h
  cases hl : lookupSec g.secToCluster isec with
  | some i =>
    simp only [getOrCreateNode, hl]
    refine ⟨⟨hlen, hmap, hself, hbp⟩, ?_, le_refl _⟩
    obtain ⟨p, hp, hpi⟩ : ∃ p, p ∈ g.secToCluster ∧ p.2 = i := by
      unfold lookupSec at hl
      cases hf : g.secToCluster.find? (fun p => p.1 == isec) with
      | none =>
        rw [hf] at hl
        cases hl
      | some p =>
        rw [hf] at hl
        refine ⟨p, List.mem_of_find?_eq_some hf, ?_⟩
        exact Option.some.inj hl
    rw [← hpi]
    exact hmap p hp
  | none =>
    simp only [getOrCreateNode, hl]
    have hslen : g.sections.length = g.clusters.length := hlen.symm
    refine ⟨⟨?_, ?_, ?_, ?_⟩, ?_, ?_⟩
    · show (g.clusters ++ [_]).length = (g.sections ++ [isec]).length
      rw [List.length_append, List.length_append, hlen]
      rfl
    · intro p hp
      show p.2 < (g.clusters ++ [_]).length
      rw [List.length_append]
      rcases List.mem_append.mp hp with hold | hnew
      · have := hmap p hold
        simp only [List.length_singleton]
        omega
      · have hpe : p = (isec, g.clusters.length) := List.mem_singleton.mp hnew
        rw [hpe]
        simp
    · intro i hi
      rw [List.length_append, List.length_singleton] at hi
      by_cases hilt : i < g.clusters.length
      · rw [List.getD_append _ _ _ _ hilt,
          List.getD_append _ _ _ _ (by omega : i < g.sections.length)]
        exact hself i hilt
      · have hieq : i = g.clusters.length := by omega
        subst hieq
        rw [List.getD_append_right _ _ _ _ (le_refl _), Nat.sub_self]
        rw [List.getD_append_right _ _ _ _ (by rw [hslen] : g.sections.length ≤ _),
          hslen, Nat.sub_self]
        exact ⟨rfl, rfl, rfl⟩
    · intro i hi pf hpf
      rw [List.length_append, List.length_singleton] at hi ⊢
      by_cases hilt : i < g.clusters.length
      · rw [List.getD_append _ _ _ _ hilt] at hpf
        have := hbp i hilt pf hpf
        omega
      · have hieq : i = g.clusters.length := by omega
        subst hieq
        rw [List.getD_append_right _ _ _ _ (le_refl _), Nat.sub_self] at hpf
        cases hpf
    · show g.clusters.length < (g.clusters ++ [_]).length
      rw [List.length_append, List.length_singleton]
      omega
    · show g.clusters.length ≤ (g.clusters ++ [_]).length
      rw [List.length_append]
      omega

theorem edgeStep_ok (d : SecData) (g : CGState) (e : (Nat × Nat) × Nat)
    (h : CGBuildOk d g) : CGBuildOk d (edgeStep d g e) := by
  obtain ⟨h1, h1lt, h1mono⟩ := getOrCreateNode_ok d g (d.repl e.1.1) h
  obtain ⟨h2, h2lt, h2mono⟩ :=
    getOrCreateNode_ok d (getOrCreateNode d g (d.repl e.1.1)).2 (d.repl e.1.2) h1
  simp only [edgeStep]
  by_cases hout : (!(d.outSec (d.repl e.1.1) == d.outSec (d.repl e.1.2))) = true
  · rw [if_pos hout]
    exact h
  · rw [if_neg hout]
    have h3 := cgOk_updWeight d
      (getOrCreateNode d (getOrCreateNode d g (d.repl e.1.1)).2 (d.repl e.1.2)).2
      (getOrCreateNode d (getOrCreateNode d g (d.repl e.1.1)).2 (d.repl e.1.2)).1
      e.2 h2
    by_cases heq : ((getOrCreateNode d g (d.repl e.1.1)).1 ==
        (getOrCreateNode d (getOrCreateNode d g (d.repl e.1.1)).2 (d.repl e.1.2)).1)
        = true
    · rw [if_pos heq]
      exact h3
    · rw [if_neg heq]
      have h4 := cgOk_updBP d
        ⟨(getOrCreateNode d (getOrCreateNode d g (d.repl e.1.1)).2
            (d.repl e.1.2)).2.secToCluster,
          (getOrCreateNode d (getOrCreateNode d g (d.repl e.1.1)).2
            (d.repl e.1.2)).2.sections,
          listUpd (getOrCreateNode d (getOrCreateNode d g (d.repl e.1.1)).2
            (d.repl e.1.2)).2.clusters
            (getOrCreateNode d (getOrCreateNode d g (d.repl e.1.1)).2
              (d.repl e.1.2)).1
            (fun c => { c with weight := (c.weight + e.2) % U64 })⟩
        (getOrCreateNode d (getOrCreateNode d g (d.repl e.1.1)).2 (d.repl e.1.2)).1
        (getOrCreateNode d g (d.repl e.1.1)).1
        e.2 h3
        (by show (getOrCreateNode d g (d.repl e.1.1)).1 < (listUpd _ _ _).length
            rw [listUpd_length]
            omega)
      exact h4

theorem foldl_edgeStep_ok (d : SecData) (profile : List ((Nat × Nat) × Nat)) :
    ∀ g : CGState, CGBuildOk d g → CGBuildOk d (profile.foldl (edgeStep d) g) := by
  induction profile with
  | nil => exact fun g h => h
  | cons e rest ih =>
    intro g h
    exact ih (edgeStep d g e) (edgeStep_ok d g e h)

theorem map_iw_next (cs : List Cluster) (j : Nat) :
    ((cs.map (fun c => ({ c with initialWeight := c.weight } : Cluster))).getD j default).next =
      (cs.getD j default).next := by
  by_cases hj : j < cs.length
  · rw [List.getD_eq_getElem _ _ (by simpa using hj), List.getElem_map,
      List.getD_eq_getElem _ _ hj]
  · rw [List.getD_eq_default _ _ (by simpa using Nat.le_of_not_lt hj),
      List.getD_eq_default _ _ (Nat.le_of_not_lt hj)]

theorem map_iw_prev (cs : List Cluster) (j : Nat) :
    ((cs.map (fun c => ({ c with initialWeight := c.weight } : Cluster))).getD j default).prev =
      (cs.getD j default).prev := by
  by_cases hj : j < cs.length
  · rw [List.getD_eq_getElem _ _ (by simpa using hj), List.getElem_map,
      List.getD_eq_getElem _ _ hj]
  · rw [List.getD_eq_default _ _ (by simpa using Nat.le_of_not_lt hj),
      List.getD_eq_default _ _ (Nat.le_of_not_lt hj)]

theorem map_iw_size (cs : List Cluster) (j : Nat) :
    ((cs.map (fun c => ({ c with initialWeight := c.weight } : Cluster))).getD j default).size =
      (cs.getD j default).size := by
  by_cases hj : j < cs.length
  · rw [List.getD_eq_getElem _ _ (by simpa using hj), List.getElem_map,
      List.getD_eq_getElem _ _ hj]
  · rw [List.getD_eq_default _ _ (by simpa using Nat.le_of_not_lt hj),
      List.getD_eq_default _ _ (Nat.le_of_not_lt hj)]

theorem map_iw_bpf (cs : List Cluster) (j : Nat) :
    ((cs.map (fun c =>
      ({ c with initialWeight := c.weight } : Cluster))).getD j default).bestPredFrom =
      (cs.getD j default).bestPredFrom := by
  by_cases hj : j < cs.length
  · rw [List.getD_eq_getElem _ _ (by simpa using hj), List.getElem_map,
      List.getD_eq_getElem _ _ hj]
  · rw [List.getD_eq_default _ _ (by simpa using Nat.le_of_not_lt hj),
      List.getD_eq_default _ _ (Nat.le_of_not_lt hj)]

theorem buildGraph_wf (d : SecData) (profile : List ((Nat × Nat) × Nat)) :
    CGWellFormed d (buildGraph d profile) := by
  have hok : CGBuildOk d (profile.foldl (edgeStep d) ⟨[], [], []⟩) :=
    foldl_edgeStep_ok d profile ⟨[], [], []⟩
      ⟨rfl, fun p hp => absurd hp (List.not_mem_nil p),
        fun i hi => absurd hi (by simp), fun i hi => absurd hi (by simp)⟩
  obtain ⟨hlen, _, hself, hbp⟩ := hok
  simp only [CGWellFormed, BestPredBound, buildGraph]
  refine ⟨?_, ?_, ?_⟩
  · rw [List.length_map]
    exact hlen
  · intro i hi
    rw [List.length_map] at hi
    rw [map_iw_next, map_iw_prev, map_iw_size]
    exact hself i hi
  · intro i hi pf hpf
    rw [List.length_map] at hi ⊢
    rw [map_iw_bpf] at hpf
    exact hbp i hi pf hpf

theorem headD_append {α : Type} (m1 m2 : List α) (h : m1 ≠ []) (d : α) :
    (m1 ++ m2).headD d = m1.headD d := by
  cases m1 with
  | nil => exact absurd rfl h
  | cons x xs => rfl

theorem mem_class_of_lt (n : Nat) (classes : List (List Nat))
    (hperm : classes.flatten.Perm (List.range n)) (i : Nat) (hi : i < n) :
    ∃ m, m ∈ classes ∧ i ∈ m := by
  have hmem : i ∈ classes.flatten :=
    hperm.mem_iff.mpr (List.mem_range.mpr hi)
  obtain ⟨m, hm, him⟩ := List.mem_flatten.mp hmem
  exact ⟨m, hm, him⟩

theorem reaches_self_root (ls : List Nat) (l : Nat) (h : ls.getD l 0 = l) :
    Reaches ls l l := ⟨0, rfl, h⟩

theorem class_head_eq (n : Nat) (sz : Nat → Nat) (cs : List Cluster) (ls : List Nat)
    (classes : List (List Nat)) (hinv : MergeInv n sz cs ls classes)
    (m : List Nat) (hm : m ∈ classes) (l : Nat) (hl : l ∈ m)
    (hroot : ls.getD l 0 = l) : m.headD 0 = l := by
  obtain ⟨_, _, _, _, hcls⟩ := hinv
  obtain ⟨_, _, hreach, _, _⟩ := hcls m hm
  exact reaches_deterministic ls l (m.headD 0) l (hreach l hl) (reaches_self_root ls l hroot)

theorem headD_mem (mm : List Nat) (hmm : mm ≠ []) : mm.headD 0 ∈ mm := by
  rw [headD_eq_getD]
  exact getD_mem_of_lt _ _ _ (List.length_pos.mpr hmm)

theorem mergeStep_inv (n : Nat) (sz : Nat → Nat)
    (hsum : ((List.range n).map sz).sum < U64)
    (cs : List Cluster) (ls : List Nat) (classes : List (List Nat)) (l : Nat)
    (hinv : MergeInv n sz cs ls classes) (hbp : BestPredBound n cs)
    (hl : l < n) (hlroot : ls.getD l 0 = l) :
    ∃ classes2,
      MergeInv n sz (mergeStep (cs, ls) l).1 (mergeStep (cs, ls) l).2 classes2 ∧
      BestPredBound n (mergeStep (cs, ls) l).1 ∧
      (∀ i, ¬ i = l → ls.getD i 0 = i → (mergeStep (cs, ls) l).2.getD i 0 = i) := by
  obtain ⟨hcl, hll, hlb, hperm, hcls⟩ := hinv
  simp only [mergeStep]
  by_cases hg1 : ((cs.getD l default).bestPredFrom == none ||
      decide (((cs.getD l default).bestPredWeight * 10) % U64 ≤
        (cs.getD l default).initialWeight)) = true
  · rw [if_pos hg1]
    exact ⟨classes, ⟨hcl, hll, hlb, hperm, hcls⟩, hbp, fun i _ h => h⟩
  · rw [if_neg hg1]
    have hpfne : ¬ (cs.getD l default).bestPredFrom = none := by
      intro hnone
      apply hg1
      rw [Bool.or_eq_true]
      left
      rw [hnone]
      rfl
    obtain ⟨pf, hpf⟩ : ∃ pf, (cs.getD l default).bestPredFrom = some pf := by
      cases hbpf : (cs.getD l default).bestPredFrom with
      | none => exact absurd hbpf hpfne
      | some x => exact ⟨x, rfl⟩
    rw [hpf]
    simp only [Option.getD_some]
    have hpfn : pf < n := hbp l hl pf hpf
    obtain ⟨m1, hm1, hpfm1⟩ := mem_class_of_lt n classes hperm pf hpfn
    obtain ⟨hcy1, hroot1, hreach1, hsz1, hz1⟩ := hcls m1 hm1
    have hbnd : ∀ w, w < ls.length → ls.getD w 0 < ls.length := by
      intro w hw
      rw [hll] at hw ⊢
      exact hlb w hw
    obtain ⟨c1, c2, c3, c4, c5⟩ := getLeader_spec ls pf (m1.headD 0) hbnd
      (by rw [hll]; exact hpfn) (hreach1 pf hpfm1)
    simp only [c1]
    have hMI' : MergeInv n sz cs (getLeader ls pf).1 classes := by
      refine ⟨hcl, by rw [c2, hll], ?_, hperm, ?_⟩
      · intro v hv
        have hv' := c5 v (by rw [hll]; exact hv)
        rw [hll] at hv'
        exact hv'
      · intro m hm
        obtain ⟨hcy, hroot, hreach, hsz, hz⟩ := hcls m hm
        exact ⟨hcy, (c4 _).mpr hroot, fun i him => c3 i _ (hreach i him), hsz, hz⟩
    have hrootpres : ∀ i, ¬ i = l → ls.getD i 0 = i →
        (getLeader ls pf).1.getD i 0 = i :=
      fun i _ h => (c4 i).mpr h
    by_cases heq : (l == m1.headD 0) = true
    · rw [if_pos heq]
      exact ⟨classes, hMI', hbp, hrootpres⟩
    · rw [if_neg heq]
      by_cases hgs : (decide (MAX_CLUSTER_SIZE <
          ((cs.getD l default).size + (cs.getD (m1.headD 0) default).size) % U64))
          = true
      · rw [if_pos hgs]
        exact ⟨classes, hMI', hbp, hrootpres⟩
      · rw [if_neg hgs]
        by_cases hgd : isNewDensityBad (cs.getD (m1.headD 0) default)
            (cs.getD l default) = true
        · rw [if_pos hgd]
          exact ⟨classes, hMI', hbp, hrootpres⟩
        · rw [if_neg hgd]
          have hlne : ¬ l = m1.headD 0 := fun hh => heq (beq_iff_eq.mpr hh)
          obtain ⟨m2, hm2, hlm2⟩ := mem_class_of_lt n classes hperm l hl
          have hhead2 : m2.headD 0 = l := class_head_eq n sz cs ls classes
            ⟨hcl, hll, hlb, hperm, hcls⟩ m2 hm2 l hlm2 hlroot
          obtain ⟨hcy2, hroot2, hreach2, hsz2, hz2⟩ := hcls m2 hm2
          rw [hhead2] at hroot2 hreach2 hsz2 hz2
          have hm1ne2 : m1 ≠ m2 := by
            intro hh
            apply hlne
            rw [hh]
            exact hhead2.symm
          obtain ⟨s1, t1, hst1⟩ := List.append_of_mem hm1
          have hperm1 : classes.Perm (m1 :: (s1 ++ t1)) := by
            rw [hst1]
            exact List.perm_middle
          have hm2' : m2 ∈ s1 ++ t1 := by
            have hmm : m2 ∈ s1 ++ m1 :: t1 := by
              rw [← hst1]
              exact hm2
            rcases List.mem_append.mp hmm with h | h
            · exact List.mem_append.mpr (Or.inl h)
            · rcases List.mem_cons.mp h with h' | h'
              · exact absurd h' (Ne.symm hm1ne2)
              · exact List.mem_append.mpr (Or.inr h')
          obtain ⟨s2, t2, hst2⟩ := List.append_of_mem hm2'
          have hcp : classes.Perm (m1 :: m2 :: (s2 ++ t2)) := by
            refine hperm1.trans ?_
            apply List.Perm.cons m1
            rw [hst2]
            exact List.perm_middle
          have hfl : ((m1 :: m2 :: (s2 ++ t2)).flatten).Perm
              (List.range n) :=
            (hcp.symm.join).trans hperm
          have hflat_eq : (m1 :: m2 :: (s2 ++ t2)).flatten =
              m1 ++ (m2 ++ ((s2 ++ t2)).flatten) := by
            simp [List.flatten_cons]
          have hfl2 : (((m1 ++ m2) :: (s2 ++ t2)).flatten).Perm
              (List.range n) := by
            have h2flat : ((m1 ++ m2) :: (s2 ++ t2)).flatten =
                (m1 ++ m2) ++ ((s2 ++ t2)).flatten := by
              simp [List.flatten_cons]
            rw [h2flat, List.append_assoc, ← hflat_eq]
            exact hfl
          have hndall : ((m1 :: m2 :: (s2 ++ t2)).flatten).Nodup :=
            hfl.nodup_iff.mpr (List.nodup_range n)
          rw [hflat_eq, List.nodup_append] at hndall
          obtain ⟨hnd1, hndrest1, hdisj1⟩ := hndall
          rw [List.nodup_append] at hndrest1
          obtain ⟨hnd2, hndrest2, hdisj2⟩ := hndrest1
          have hmemn : ∀ i, i ∈ (m1 :: m2 :: (s2 ++ t2)).flatten →
              i < n :=
            fun i hi => List.mem_range.mp (hfl.subset hi)
          have hb1' : ∀ i, i ∈ m1 → i < cs.length := by
            intro i hi
            rw [hcl]
            exact hmemn i (by rw [hflat_eq]; exact List.mem_append.mpr (Or.inl hi))
          have hb2' : ∀ i, i ∈ m2 → i < cs.length := by
            intro i hi
            rw [hcl]
            exact hmemn i (by
              rw [hflat_eq]
              exact List.mem_append.mpr (Or.inr (List.mem_append.mpr (Or.inl hi))))
          have hbrest : ∀ i, i ∈ ((s2 ++ t2)).flatten →
              i < cs.length := by
            intro i hi
            rw [hcl]
            exact hmemn i (by
              rw [hflat_eq]
              exact List.mem_append.mpr (Or.inr (List.mem_append.mpr (Or.inr hi))))
          have hdisj12 : m1.Disjoint m2 :=
            fun a ha hb => hdisj1 ha (List.mem_append.mpr (Or.inl hb))
          have hnd12 : (m1 ++ m2).Nodup :=
            List.nodup_append.mpr ⟨hnd1, hnd2, hdisj12⟩
          have hsplice := spliced_cycle cs m1 m2 hcy1 hcy2 hnd12 hb1' hb2'
          rw [hhead2] at hsplice
          have hne1 : m1 ≠ [] := hcy1.1
          have hne2 : m2 ≠ [] := hcy2.1
          have hhead12 : (m1 ++ m2).headD 0 = m1.headD 0 := headD_append m1 m2 hne1 0
          have hiomem : m1.headD 0 ∈ m1 := headD_mem m1 hne1
          have hio_n : m1.headD 0 < cs.length := hb1' _ hiomem
          have ht1 : (cs.getD (m1.headD 0) default).prev =
              m1.getD (m1.length - 1) 0 := cycle_tail cs m1 hcy1
          have ht2 := cycle_tail cs m2 hcy2
          rw [hhead2] at ht2
          have hL1 : 0 < m1.length := List.length_pos.mpr hne1
          have hL2 : 0 < m2.length := List.length_pos.mpr hne2
          have ht1m : m1.getD (m1.length - 1) 0 ∈ m1 := getD_mem_of_lt _ _ _ (by omega)
          have ht2m : m2.getD (m2.length - 1) 0 ∈ m2 := getD_mem_of_lt _ _ _ (by omega)
          have ht1l : m1.getD (m1.length - 1) 0 < cs.length := hb1' _ ht1m
          have ht2l : m2.getD (m2.length - 1) 0 < cs.length := hb2' _ ht2m
          have ht12 : ¬ m1.getD (m1.length - 1) 0 = m2.getD (m2.length - 1) 0 :=
            fun h => hdisj12 ht1m (by rw [h]; exact ht2m)
          have hlen2 : l < cs.length := by rw [hcl]; exact hl
          have hiofr : ¬ m1.headD 0 = l := fun h => hlne h.symm
          have hlroot' : (getLeader ls pf).1.getD l 0 = l := (c4 l).mpr hlroot
          have hioroot' : (getLeader ls pf).1.getD (m1.headD 0) 0 = m1.headD 0 :=
            (c4 _).mpr hroot1
          have hlsetlen : ((getLeader ls pf).1.set l (m1.headD 0)).length = n := by
            rw [List.length_set, c2, hll]
          have htot : (((m1 ++ m2) ++
              ((s2 ++ t2)).flatten).map sz).sum =
              ((List.range n).map sz).sum := by
            have hper := (hfl2.map sz).sum_eq
            have h2flat : ((m1 ++ m2) :: (s2 ++ t2)).flatten =
                (m1 ++ m2) ++ ((s2 ++ t2)).flatten := by
              simp [List.flatten_cons]
            rw [h2flat] at hper
            exact hper
          have hlt12 : ((m1 ++ m2).map sz).sum < U64 := by
            rw [List.map_append, List.sum_append] at htot
            omega
          refine ⟨(m1 ++ m2) :: (s2 ++ t2),
            ⟨?_, hlsetlen, ?_, hfl2, ?_⟩, ?_, ?_⟩
          · rw [mergeClusters_length]
            exact hcl
          · intro v hv
            by_cases hvl : v = l
            · subst hvl
              rw [getD_set_eq _ _ _ _ (by rw [c2, hll]; exact hl)]
              rw [← hcl]
              exact hio_n
            · rw [getD_set_ne _ _ _ _ _ (fun h => hvl h.symm)]
              have hv' := c5 v (by rw [hll]; exact hv)
              rw [hll] at hv'
              exact hv'
          · intro m hm
            rcases List.mem_cons.mp hm with hm12 | hmrest
            · subst hm12
              refine ⟨hsplice, ?_, ?_, ?_, ?_⟩
              · rw [hhead12]
                rw [getD_set_ne _ _ _ _ _ (fun h => hiofr h.symm)]
                exact hioroot'
              · intro i him
                rw [hhead12]
                rcases List.mem_append.mp him with h1 | h2
                · obtain ⟨k, hk⟩ := c3 i (m1.headD 0) (hreach1 i h1)
                  exact ⟨k, reaches_set_other (getLeader ls pf).1 l (m1.headD 0)
                    hlroot' k i (m1.headD 0) hiofr hk⟩
                · obtain ⟨k, hk⟩ := c3 i l (hreach2 i h2)
                  exact reaches_set_root (getLeader ls pf).1 l (m1.headD 0)
                    hioroot' hiofr k i hk
              · rw [hhead12]
                rw [mergeClusters_size cs (m1.headD 0) l (m1.headD 0) hiofr
                  hio_n hlen2]
                rw [if_neg hiofr, if_pos rfl]
                rw [hsz1, hsz2, List.map_append, List.sum_append]
                exact Nat.mod_eq_of_lt (by
                  rw [List.map_append, List.sum_append] at hlt12
                  omega)
              · intro i him hine
                rw [hhead12] at hine
                rw [mergeClusters_size cs (m1.headD 0) l i hiofr hio_n hlen2]
                by_cases hil : i = l
                · rw [if_pos hil]
                · rw [if_neg hil, if_neg hine]
                  rcases List.mem_append.mp him with h1 | h2
                  · exact hz1 i h1 hine
                  · exact hz2 i h2 hil
            · have hmcl : m ∈ classes :=
                hcp.symm.subset (List.mem_cons.mpr (Or.inr (List.mem_cons.mpr
                  (Or.inr hmrest))))
              obtain ⟨hcy, hroot, hreach, hsz, hz⟩ := hcls m hmcl
              have hmflat : ∀ i, i ∈ m →
                  i ∈ ((s2 ++ t2)).flatten :=
                fun i hi => List.mem_flatten.mpr ⟨m, hmrest, hi⟩
              have hnot1 : ∀ i, i ∈ m → ¬ i ∈ m1 := fun i hi h1 =>
                hdisj1 h1 (List.mem_append.mpr (Or.inr (hmflat i hi)))
              have hnot2 : ∀ i, i ∈ m → ¬ i ∈ m2 := fun i hi h2 =>
                hdisj2 h2 (hmflat i hi)
              have hnotl : ∀ i, i ∈ m → ¬ i = l := fun i hi h =>
                hnot2 i hi (by rw [h]; rw [← hhead2]; exact headD_mem m2 hne2)
              have hnotio : ∀ i, i ∈ m → ¬ i = m1.headD 0 := fun i hi h =>
                hnot1 i hi (by rw [h]; exact hiomem)
              have hnott1 : ∀ i, i ∈ m → ¬ i = m1.getD (m1.length - 1) 0 :=
                fun i hi h => hnot1 i hi (by rw [h]; exact ht1m)
              have hnott2 : ∀ i, i ∈ m → ¬ i = m2.getD (m2.length - 1) 0 :=
                fun i hi h => hnot2 i hi (by rw [h]; exact ht2m)
              have hmne : m ≠ [] := hcy.1
              have hheadm : m.headD 0 ∈ m := headD_mem m hmne
              refine ⟨?_, ?_, ?_, ?_, ?_⟩
              · refine cycle_preserved cs _ m hcy ?_ ?_
                · intro i hi
                  rw [mergeClusters_next cs (m1.headD 0) l
                    (m1.getD (m1.length - 1) 0) (m2.getD (m2.length - 1) 0) i
                    ht1.symm ht2.symm ht12 ht1l ht2l]
                  rw [if_neg (hnott1 i hi), if_neg (hnott2 i hi)]
                · intro i hi
                  rw [mergeClusters_prev cs (m1.headD 0) l
                    (m1.getD (m1.length - 1) 0) (m2.getD (m2.length - 1) 0) i
                    ht1.symm ht2.symm hiofr hio_n hlen2]
                  rw [if_neg (hnotio i hi), if_neg (hnotl i hi)]
              · rw [getD_set_ne _ _ _ _ _
                  (fun h => (hnotl _ hheadm) h.symm)]
                exact (c4 _).mpr hroot
              · intro i hi
                obtain ⟨k, hk⟩ := c3 i (m.headD 0) (hreach i hi)
                exact ⟨k, reaches_set_other (getLeader ls pf).1 l (m1.headD 0)
                  hlroot' k i (m.headD 0) (hnotl _ hheadm) hk⟩
              · rw [mergeClusters_size cs (m1.headD 0) l (m.headD 0) hiofr
                  hio_n hlen2]
                rw [if_neg (hnotl _ hheadm), if_neg (hnotio _ hheadm)]
                exact hsz
              · intro i hi hine
                rw [mergeClusters_size cs (m1.headD 0) l i hiofr hio_n hlen2]
                rw [if_neg (hnotl i hi), if_neg (hnotio i hi)]
                exact hz i hi hine
          · intro i hi pfx hpfx
            rw [mergeClusters_bestPredFrom] at hpfx
            exact hbp i hi pfx hpfx
          · intro i hil hroot
            rw [getD_set_ne _ _ _ _ _ (fun h => hil h.symm)]
            exact (c4 i).mpr hroot

theorem mergeFold_inv (n : Nat) (sz : Nat → Nat)
    (hsum : ((List.range n).map sz).sum < U64) :
    ∀ (rem : List Nat) (cs : List Cluster) (ls : List Nat)
      (classes : List (List Nat)),
      MergeInv n sz cs ls classes → BestPredBound n cs →
      (∀ i, i ∈ rem → i < n) → (∀ i, i ∈ rem → ls.getD i 0 = i) → rem.Nodup →
      ∃ classes2, MergeInv n sz (rem.foldl mergeStep (cs, ls)).1
        (rem.foldl mergeStep (cs, ls)).2 classes2 := by
  intro rem
  induction rem with
  | nil =>
    intro cs ls classes hinv hbp hlt hroot hnd
    exact ⟨classes, hinv⟩
  | cons l rest ih =>
    intro cs ls classes hinv hbp hlt hroot hnd
    obtain ⟨classes1, h1, hbp1, hpres⟩ := mergeStep_inv n sz hsum cs ls classes l
      hinv hbp (hlt l (List.mem_cons_self l rest))
      (hroot l (List.mem_cons_self l rest))
    rw [List.foldl_cons]
    have hlnotmem := (List.nodup_cons.mp hnd).1
    have hnd' := (List.nodup_cons.mp hnd).2
    exact ih (mergeStep (cs, ls) l).1 (mergeStep (cs, ls) l).2 classes1 h1 hbp1
      (fun i hi => hlt i (List.mem_cons_of_mem l hi))
      (fun i hi => hpres i (fun he => hlnotmem (he ▸ hi))
        (hroot i (List.mem_cons_of_mem l hi)))
      hnd'

theorem runMerge_inv (d : SecData) (g : CGState) (hwf : CGWellFormed d g)
    (hsum : ((List.range g.clusters.length).map
      (fun i => d.secSize (g.sections.getD i 0))).sum < U64) :
    ∃ classes2, MergeInv g.clusters.length
      (fun i => d.secSize (g.sections.getD i 0))
      (runMerge g).1 (runMerge g).2 classes2 := by
  obtain ⟨hlen, hself, hbp⟩ := hwf
  have hinit : MergeInv g.clusters.length
      (fun i => d.secSize (g.sections.getD i 0))
      g.clusters (List.range g.clusters.length)
      ((List.range g.clusters.length).map (fun i => [i])) := by
    refine ⟨rfl, List.length_range _, ?_, ?_, ?_⟩
    · intro v hv
      rw [getD_range _ _ hv]
      exact hv
    · rw [flatten_map_singleton]
    · intro m hm
      obtain ⟨i, hi, heq⟩ := List.mem_map.mp hm
      have hin : i < g.clusters.length := List.mem_range.mp hi
      subst heq
      refine ⟨⟨List.cons_ne_nil i [], ?_, ?_⟩, ?_, ?_, ?_, ?_⟩
      · intro k hk
        have hk0 : k = 0 := by
          simp only [List.length_singleton] at hk
          omega
        subst hk0
        show (g.clusters.getD i default).next = [i].getD (1 % 1) 0
        rw [Nat.mod_self]
        exact (hself i hin).1
      · intro k hk
        have hk0 : k = 0 := by
          simp only [List.length_singleton] at hk
          omega
        subst hk0
        show (g.clusters.getD ([i].getD (1 % 1) 0) default).prev = i
        rw [Nat.mod_self]
        exact (hself i hin).2.1
      · show (List.range g.clusters.length).getD i 0 = i
        exact getD_range _ _ hin
      · intro j hj
        have hji : j = i := List.mem_singleton.mp hj
        subst hji
        exact ⟨0, rfl, getD_range _ _ hin⟩
      · show (g.clusters.getD i default).size = _
        simp only [List.map_cons, List.map_nil, List.sum_cons, List.sum_nil,
          Nat.add_zero]
        exact (hself i hin).2.2
      · intro j hj hne
        have hji : j = i := List.mem_singleton.mp hj
        subst hji
        exact absurd rfl hne
  have hsperm : (sortedIndices g.clusters).Perm
      (List.range g.clusters.length) := by
    unfold sortedIndices
    exact stableSort_perm _ _
  exact mergeFold_inv g.clusters.length _ hsum (sortedIndices g.clusters)
    g.clusters (List.range g.clusters.length) _ hinit hbp
    (fun i hi => List.mem_range.mp (hsperm.subset hi))
    (fun i hi => getD_range _ _ (List.mem_range.mp (hsperm.subset hi)))
    (hsperm.nodup_iff.mpr (List.nodup_range _))

theorem survivors_perm_heads (n : Nat) (sz : Nat → Nat) (cs : List Cluster)
    (ls : List Nat) (classes : List (List Nat))
    (hMI : MergeInv n sz cs ls classes) (hpos : ∀ i, i < n → 0 < sz i) :
    ((List.range n).filter
      (fun i => decide (0 < (cs.getD i default).size))).Perm
      (classes.map (fun m => m.headD 0)) := by
  obtain ⟨hcl, hll, hlb, hperm, hcls⟩ := hMI
  have hbmem : ∀ m, m ∈ classes → ∀ i, i ∈ m → i < n := by
    intro m hm i hi
    exact List.mem_range.mp (hperm.subset (List.mem_flatten.mpr ⟨m, hm, hi⟩))
  have hndflat : classes.flatten.Nodup := hperm.nodup_iff.mpr (List.nodup_range n)
  have hjoin := List.nodup_join.mp hndflat
  have hhnd : (classes.map (fun m => m.headD 0)).Nodup := by
    have hpw : classes.Pairwise (fun a b => a.headD 0 ≠ b.headD 0) := by
      refine List.Pairwise.imp_of_mem ?_ hjoin.2
      intro a b ha hb hdisj heq
      have hane : a ≠ [] := (hcls a ha).1.1
      have hbne : b ≠ [] := (hcls b hb).1.1
      exact hdisj (headD_mem a hane) (by rw [heq]; exact headD_mem b hbne)
    exact List.pairwise_map.mpr hpw
  have hmemiff : ∀ i, (i ∈ (List.range n).filter
      (fun i => decide (0 < (cs.getD i default).size)) ↔
      i ∈ classes.map (fun m => m.headD 0)) := by
    intro i
    rw [List.mem_filter, List.mem_range, List.mem_map]
    constructor
    · rintro ⟨hin, hsz⟩
      obtain ⟨m, hm, him⟩ := mem_class_of_lt n classes hperm i hin
      refine ⟨m, hm, ?_⟩
      by_contra hne
      have h0 := (hcls m hm).2.2.2.2 i him (fun hh => hne hh.symm)
      have hgt : (0:Nat) < (cs.getD i default).size := of_decide_eq_true hsz
      omega
    · rintro ⟨m, hm, hh⟩
      have hmne : m ≠ [] := (hcls m hm).1.1
      have hheadn : m.headD 0 < n := hbmem m hm _ (headD_mem m hmne)
      have hin : i < n := by
        rw [← hh]
        exact hheadn
      refine ⟨hin, decide_eq_true ?_⟩
      rw [← hh, (hcls m hm).2.2.2.1]
      have hszmem : sz (m.headD 0) ∈ m.map sz :=
        List.mem_map.mpr ⟨_, headD_mem m hmne, rfl⟩
      have hle := List.single_le_sum (fun x _ => Nat.zero_le x) _ hszmem
      have hposh := hpos (m.headD 0) hheadn
      omega
  have hnds : ((List.range n).filter
      (fun i => decide (0 < (cs.getD i default).size))).Nodup :=
    (List.nodup_range n).filter _
  have h1 := List.subperm_of_subset hnds (fun i hi => (hmemiff i).mp hi)
  have h2 := List.subperm_of_subset hhnd (fun i hi => (hmemiff i).mpr hi)
  exact h1.antisymm h2

theorem finalSorted_map_cycle (n : Nat) (sz : Nat → Nat) (cs : List Cluster)
    (ls : List Nat) (classes : List (List Nat))
    (hMI : MergeInv n sz cs ls classes) (hpos : ∀ i, i < n → 0 < sz i) :
    ((finalSorted cs).map (fun leader => cycleFrom cs leader)).Perm classes := by
  obtain ⟨hcl, hll, hlb, hperm, hcls⟩ := hMI
  have hndflat : classes.flatten.Nodup := hperm.nodup_iff.mpr (List.nodup_range n)
  have hjoin := List.nodup_join.mp hndflat
  have hfs : (finalSorted cs).Perm ((List.range n).filter
      (fun i => decide (0 < (cs.getD i default).size))) := by
    unfold finalSorted
    rw [hcl]
    exact stableSort_perm _ _
  have hsp := survivors_perm_heads n sz cs ls classes
    ⟨hcl, hll, hlb, hperm, hcls⟩ hpos
  have hchain : (finalSorted cs).Perm (classes.map (fun m => m.headD 0)) :=
    hfs.trans hsp
  have hmapped := hchain.map (fun leader => cycleFrom cs leader)
  rw [List.map_map] at hmapped
  have hcongr : classes.map ((fun leader => cycleFrom cs leader) ∘
      (fun m => m.headD 0)) = classes := by
    have hcf : ∀ m, m ∈ classes →
        ((fun leader => cycleFrom cs leader) ∘ (fun m => m.headD 0)) m = id m := by
      intro m hm
      obtain ⟨hcy, _, _, _, _⟩ := hcls m hm
      have hmnd : m.Nodup := hjoin.1 m hm
      have hsub : m ⊆ List.range n := fun i hi =>
        hperm.subset (List.mem_flatten.mpr ⟨m, hm, hi⟩)
      have hmlen : m.length ≤ cs.length := by
        have hle := (List.subperm_of_subset hmnd hsub).length_le
        rw [List.length_range] at hle
        rw [hcl]
        exact hle
      exact cycleFrom_eq cs m hcy hmnd hmlen
    rw [List.map_congr_left hcf, List.map_id]
  rw [hcongr] at hmapped
  exact hmapped

theorem emitted_perm_range (n : Nat) (sz : Nat → Nat) (cs : List Cluster)
    (ls : List Nat) (classes : List (List Nat))
    (hMI : MergeInv n sz cs ls classes) (hpos : ∀ i, i < n → 0 < sz i) :
    (emittedClusters cs).Perm (List.range n) := by
  have h := finalSorted_map_cycle n sz cs ls classes hMI hpos
  exact (h.join).trans hMI.2.2.2.1

/-- **C4** (counterexample to the unconditional claim): a profiled section of
byte size 0 gives a zero-size cluster, which the final `clusters[i].size > 0`
filter of `CallGraphSort::run` drops, so the returned mapping is empty while
`N = 1` section was profiled — the placement indices do not form `{1, …, N}`. -/
theorem cgraph_zero_size_dropped :
    computeCallGraphProfileOrder ⟨id, fun _ => 0, fun _ => 0⟩ [((0, 0), 5)] = [] ∧
    (buildGraph ⟨id, fun _ => 0, fun _ => 0⟩ [((0, 0), 5)]).sections.length = 1 :=
  ⟨rfl, rfl⟩

/-- **C4** (amended): for a profile whose `N` distinct resolved sections all
have positive byte size summing below `2^64`, the mapping returned by
`CallGraphSort::run` assigns the placement indices `1, …, N` in order, each
section receives exactly one index (the assigned sections are a permutation
of the `N` profiled sections), and the section order is the concatenation of
one contiguous block per surviving cluster, each block walking the cluster's
member cycle from its representative. -/
theorem callGraphOrder_dense_contiguous (d : SecData)
    (profile : List ((Nat × Nat) × Nat))
    (hpos : ∀ s, s ∈ (buildGraph d profile).sections → 0 < d.secSize s)
    (hsum : (((buildGraph d profile).sections).map d.secSize).sum < U64) :
    (computeCallGraphProfileOrder d profile).map Prod.snd =
      List.range' 1 (buildGraph d profile).sections.length ∧
    ((computeCallGraphProfileOrder d profile).map Prod.fst).Perm
      (buildGraph d profile).sections ∧
    (computeCallGraphProfileOrder d profile).map Prod.fst =
      ((finalSorted (runMerge (buildGraph d profile)).1).map (fun leader =>
        (cycleFrom (runMerge (buildGraph d profile)).1 leader).map
          (fun i => (buildGraph d profile).sections.getD i 0))).flatten := by
  have hwf := buildGraph_wf d profile
  obtain ⟨hlen, hself, hbp⟩ := hwf
  have hmapeq : (List.range (buildGraph d profile).clusters.length).map
      (fun i => d.secSize ((buildGraph d profile).sections.getD i 0)) =
      ((buildGraph d profile).sections).map d.secSize := by
    rw [hlen]
    have h1 : (List.range (buildGraph d profile).sections.length).map
        (fun i => (buildGraph d profile).sections.getD i 0) =
        (buildGraph d profile).sections := map_getD_self _ 0
    have h2 : ((List.range (buildGraph d profile).sections.length).map
        (fun i => (buildGraph d profile).sections.getD i 0)).map d.secSize =
        ((buildGraph d profile).sections).map d.secSize := by rw [h1]
    rw [List.map_map] at h2
    exact h2
  have hsum' : ((List.range (buildGraph d profile).clusters.length).map
      (fun i => d.secSize ((buildGraph d profile).sections.getD i 0))).sum
      < U64 := by
    rw [hmapeq]
    exact hsum
  have hpos' : ∀ i, i < (buildGraph d profile).clusters.length →
      0 < d.secSize ((buildGraph d profile).sections.getD i 0) := by
    intro i hi
    exact hpos _ (getD_mem_of_lt _ _ _ (by rw [← hlen]; exact hi))
  obtain ⟨classes, hMI⟩ :=
    runMerge_inv d (buildGraph d profile) ⟨hlen, hself, hbp⟩ hsum'
  have hep := emitted_perm_range (buildGraph d profile).clusters.length _
    (runMerge (buildGraph d profile)).1 (runMerge (buildGraph d profile)).2
    classes hMI hpos'
  have hemlen : (emittedClusters (runMerge (buildGraph d profile)).1).length =
      (buildGraph d profile).sections.length := by
    rw [hep.length_eq, List.length_range, hlen]
  refine ⟨?_, ?_, ?_⟩
  · show (numberFrom 1 ((emittedClusters (runMerge (buildGraph d profile)).1).map
      (fun i => (buildGraph d profile).sections.getD i 0))).map Prod.snd = _
    rw [numberFrom_snd, List.length_map, hemlen]
  · show ((numberFrom 1 ((emittedClusters
      (runMerge (buildGraph d profile)).1).map
      (fun i => (buildGraph d profile).sections.getD i 0))).map Prod.fst).Perm _
    rw [numberFrom_fst]
    have hmp := hep.map (fun i => (buildGraph d profile).sections.getD i 0)
    have hr : (List.range (buildGraph d profile).clusters.length).map
        (fun i => (buildGraph d profile).sections.getD i 0) =
        (buildGraph d profile).sections := by
      rw [hlen]
      exact map_getD_self _ 0
    rw [hr] at hmp
    exact hmp
  · show (numberFrom 1 ((emittedClusters (runMerge (buildGraph d profile)).1).map
      (fun i => (buildGraph d profile).sections.getD i 0))).map Prod.fst = _
    rw [numberFrom_fst]
    show (((finalSorted (runMerge (buildGraph d profile)).1).map
      (fun leader => cycleFrom (runMerge (buildGraph d profile)).1 leader)).flatten).map
      (fun i => (buildGraph d profile).sections.getD i 0) = _
    rw [List.map_flatten, List.map_map]
    rfl

/-- Concrete run of the amended C4 statement: two sections of size 10, one
hot edge; the mapping is `[(0, 1), (1, 2)]`. -/
theorem callGraphOrder_dense_contiguous_witness :
    (∀ s, s ∈ (buildGraph secDataUniform [((0, 1), 100)]).sections →
      0 < secDataUniform.secSize s) ∧
    (((buildGraph secDataUniform [((0, 1), 100)]).sections.map
      secDataUniform.secSize).sum < U64) ∧
    ((computeCallGraphProfileOrder secDataUniform [((0, 1), 100)]).map Prod.snd =
      List.range' 1 (buildGraph secDataUniform [((0, 1), 100)]).sections.length ∧
    ((computeCallGraphProfileOrder secDataUniform [((0, 1), 100)]).map
      Prod.fst).Perm (buildGraph secDataUniform [((0, 1), 100)]).sections ∧
    (computeCallGraphProfileOrder secDataUniform [((0, 1), 100)]).map Prod.fst =
      ((finalSorted (runMerge (buildGraph secDataUniform [((0, 1), 100)])).1).map
        (fun leader =>
          (cycleFrom (runMerge (buildGraph secDataUniform [((0, 1), 100)])).1
            leader).map
            (fun i => (buildGraph secDataUniform
              [((0, 1), 100)]).sections.getD i 0))).flatten) :=
  ⟨by decide, by decide,
    callGraphOrder_dense_contiguous secDataUniform [((0, 1), 100)]
      (by decide) (by decide)⟩

end LldElf
